import Mathlib

/-!
# A self-scaling worker pool (`main.c`) and a sequential list (`SqList.c`)

Shallow embedding of the C sources.

Conventions of the embedding.

* C `int` values are `Int`.  The counters of the pool stay between `0` and
  `maxThrs` and the queue size between `0` and `maxTasks` (both proved
  below), so the increments and decrements stay in the range of `int`;
  `busy * 2` (line 230) would need more than `2^30` busy threads to leave it.
* A pointer the code dereferences is an `Option`: `none` is `NULL`, `some a`
  is the address `a`.  The opaque words a task carries (`func`, `arg`) are
  plain numbers, `0` being `NULL`.
* `Heap` is the part of the C heap that holds `task_t` nodes.  The result of
  `malloc` is an argument of the function that calls it (`none` when `malloc`
  fails); a caller of the model supplies an address the heap does not hold.
* A load through an address the heap does not hold yields `NULL` and a store
  through it is lost; the representation invariant `queue_wf` excludes both.
* A thread is a program counter; each step of the model is one critical
  section of the source (or one action between two of them).
-/

namespace DAY1



/-! ## Task nodes and the heap that holds them -/

/-- The struct `task_st` of `main.c` (lines 9-13). -/
structure task_t where
  func : Nat
  arg : Nat
  next : Option Nat
deriving DecidableEq, Repr

/-- The task nodes that are currently allocated, by address. -/
abbrev Heap := Nat → Option task_t

/-- No node allocated. -/
def Heap.empty : Heap := fun _ => none

/-- Write a whole node at address `a` (initialisation after `malloc`). -/
def Heap.store (h : Heap) (a : Nat) (t : task_t) : Heap :=
  fun x => if x = a then some t else h x

/-- The assignment `a->next = nx`. -/
def Heap.setNext (h : Heap) (a : Nat) (nx : Option Nat) : Heap :=
  fun x => if x = a then (h a).map (fun n => { n with next := nx }) else h x

/-- The call `free(a)`. -/
def Heap.free (h : Heap) (a : Nat) : Heap :=
  fun x => if x = a then none else h x

/-- The load `a->next`. -/
def Heap.next (h : Heap) (a : Nat) : Option Nat :=
  (h a).bind (fun n => n.next)

/-! ## The task queue (`main.c`, lines 16-119) -/

/-- The struct `queue_st` (lines 16-21); the mutex has no state of its own in
the model, every queue operation being one atomic step. -/
structure queue_t where
  front : Option Nat
  rear : Option Nat
  size : Int
deriving DecidableEq, Repr

/-- The function `queueInit` (lines 42-58): the value left in `*q` and the
return code.  `mallocOk` and `mutexOk` say whether `malloc` and
`pthread_mutex_init` succeed. -/
def queueInit (mallocOk mutexOk : Bool) : Option queue_t × Int :=
  if mallocOk then
    if mutexOk then (some { front := none, rear := none, size := 0 }, 0)
    else (none, -1)
  else (none, -1)

/-- The function `enqueue` (lines 61-86).  `newTask` is what `malloc` returns.
The result is the heap, the queue object and the return code. -/
def enqueue (h : Heap) (q : Option queue_t) (func arg : Nat) (newTask : Option Nat) :
    Heap × Option queue_t × Int :=
  match q with
  | none => (h, none, -1)
  | some q =>
    match newTask with
    | none => (h, some q, -1)
    | some t =>
      let h1 := h.store t { func := func, arg := arg, next := none }
      match q.rear with
      | none => (h1, some { q with front := some t, rear := some t, size := q.size + 1 }, 0)
      | some r => (h1.setNext r (some t), some { q with rear := some t, size := q.size + 1 }, 0)

/-- The function `dequeue` (lines 89-108).  `task` is the out-parameter: `none`
when the pointer `task` is `NULL`, otherwise the current value of the variable
it points to.  The result is the queue object, the out-variable and the return
code. -/
def dequeue (h : Heap) (q : Option queue_t) (task : Option (Option Nat)) :
    Option queue_t × Option (Option Nat) × Int :=
  match q, task with
  | none, _ => (none, task, -1)
  | some q, none => (some q, none, -1)
  | some q, some v =>
    match q.front with
    | none => (some q, some v, -1)
    | some f =>
      match h.next f with
      | none => (some { front := none, rear := none, size := q.size - 1 }, some (some f), 0)
      | some n => (some { front := some n, rear := q.rear, size := q.size - 1 }, some (some f), 0)

/-- The function `queueSize` (lines 111-119). -/
def queueSize (q : Option queue_t) : Int :=
  match q with
  | none => -1
  | some q => q.size

/-! ### The list a queue stands for -/

/-- Follow `next` from `p` for at most `fuel` nodes, reading each node's
`(func, arg)`. -/
def walk (h : Heap) : Nat → Option Nat → List (Nat × Nat)
  | 0, _ => []
  | _ + 1, none => []
  | k + 1, some a =>
    match h a with
    | none => []
    | some n => (n.func, n.arg) :: walk h k n.next

/-- The tasks linked from `front`, in order (the `size` field bounds the walk). -/
def queueTasks (h : Heap) (q : Option queue_t) : List (Nat × Nat) :=
  match q with
  | none => []
  | some q => walk h q.size.toNat q.front

/-- The nodes at the addresses `as` are linked in this order from `p`, the
last one ending the list with `NULL`. -/
def chain (h : Heap) : Option Nat → List Nat → Prop
  | p, [] => p = none
  | p, a :: as => p = some a ∧ ∃ n, h a = some n ∧ chain h n.next as

/-- The `(func, arg)` pairs stored at the addresses `as`. -/
def tasksAt (h : Heap) (as : List Nat) : List (Nat × Nat) :=
  as.filterMap (fun a => (h a).map (fun n => (n.func, n.arg)))

/-- Representation invariant of a queue: `as` are the addresses of its nodes
from front to rear. -/
def queue_wf (h : Heap) (q : queue_t) (as : List Nat) : Prop :=
  chain h q.front as ∧ as.Nodup ∧ q.rear = as.getLast? ∧ q.size = as.length

/-! ### Sequences of queue operations -/

/-- One call on the queue: an `enqueue` (with what `malloc` returns), or a
`dequeue` followed by what `workerThread` does with the node (lines 168,
180-183): read `func` and `arg`, then `free` it. -/
inductive QOp where
  | enq (func arg : Nat) (newTask : Option Nat)
  | deq
deriving DecidableEq, Repr

/-- Heap, queue object and the `(func, arg)` pairs that came out of `dequeue`
so far, oldest first. -/
structure QRun where
  heap : Heap
  q : Option queue_t
  out : List (Nat × Nat)

/-- The state right after a successful `queueInit`, on the heap `h`. -/
def QRun.init (h : Heap) : QRun :=
  { heap := h, q := (queueInit true true).1, out := [] }

/-- Perform one queue operation. -/
def QRun.step (r : QRun) : QOp → QRun
  | .enq f a nt =>
    let e := enqueue r.heap r.q f a nt
    { r with heap := e.1, q := e.2.1 }
  | .deq =>
    let d := dequeue r.heap r.q (some none)
    if d.2.2 = 0 then
      match d.2.1 with
      | some (some t) =>
        match r.heap t with
        | some n => { heap := r.heap.free t, q := d.1, out := r.out ++ [(n.func, n.arg)] }
        | none => { r with q := d.1 }
      | _ => { r with q := d.1 }
    else { r with q := d.1 }

/-- Perform a sequence of queue operations. -/
def QRun.run (r : QRun) : List QOp → QRun
  | [] => r
  | op :: ops => (r.step op).run ops

/-- Every address `malloc` returns during the run is one the heap does not
hold at that moment. -/
def QRun.allocOk (r : QRun) : List QOp → Prop
  | [] => True
  | op :: ops =>
    (match op with
      | .enq _ _ (some t) => r.heap t = none
      | _ => True) ∧ (r.step op).allocOk ops

/-- The `(func, arg)` pairs of the `enqueue` calls that returned 0, in call
order. -/
def accepted : List QOp → List (Nat × Nat)
  | [] => []
  | .enq f a (some _) :: ops => (f, a) :: accepted ops
  | _ :: ops => accepted ops

/-- The run used to exercise the queue: two tasks in, one out, a third in at
the address just freed, then three more `dequeue` calls. -/
def fifoOps : List QOp :=
  [.enq 7 1 (some 100), .enq 8 2 (some 101), .deq, .enq 9 3 (some 100), .deq, .deq, .deq]

/-! ## The pool (`main.c`, lines 24-418) -/

/-- The struct `pool_st` (lines 24-39).  `workingThrs` is the array of
`maxThrs` thread handles, `0` marking an empty slot; the mutexes and condition
variables have no state of their own in the model. -/
structure pool_t where
  adminTid : Nat
  taskQueue : Option queue_t
  maxTasks : Int
  workingThrs : List Nat
  maxThrs : Int
  minThrs : Int
  busyThrs : Int
  aliveThrs : Int
  exitThrs : Int
  shutdown : Bool
deriving DecidableEq, Repr

/-- Where a worker thread stands in its function (lines 140-192). -/
inductive WorkerPc where
  /-- Line 145, about to take `poolMux` and test the wait loop. -/
  | atLock
  /-- Line 149, blocked in `pthread_cond_wait`. -/
  | waiting
  /-- Lines 172-175, `poolMux` released, `busyThrs` not yet incremented. -/
  | dequeued
  /-- Lines 177-186, `busyThrs` incremented, the task running. -/
  | executing
  /-- After `pthread_exit`. -/
  | stopped
deriving DecidableEq, Repr

/-- A worker thread: its program counter and its local variable `task`
(line 142). -/
structure Worker where
  pc : WorkerPc
  task : Option Nat
deriving DecidableEq, Repr

/-- Where the admin thread stands in its function (lines 195-247); the sample
of lines 203-205 is kept in its local variables. -/
inductive AdminPc where
  /-- Line 198, the test of the loop. -/
  | loopTop
  /-- Line 200, in `sleep(3)`. -/
  | sleeping
  /-- After line 206, the sample taken. -/
  | sampled (queueSize busy alive : Int)
  /-- After line 227, scale-up over. -/
  | afterUp (queueSize busy alive : Int)
  /-- Returned (line 246). -/
  | done
deriving DecidableEq, Repr

/-- The whole system: heap, pool object, the workers ever created (in order
of creation; the worker at index `k` has the handle `k + 2`, the admin thread
the handle `1`) and the admin thread. -/
structure Sys where
  heap : Heap
  pool : pool_t
  workers : List Worker
  admin : AdminPc

/-- The program counter a worker must not be at to count as alive. -/
def Worker.live (w : Worker) : Bool := w.pc != .stopped

/-- The worker is between the increment and the decrement of `busyThrs`. -/
def Worker.busy (w : Worker) : Bool := w.pc == .executing

/-- A successful `pthread_create(&pool->workingThrs[i], NULL, workerThread,
pool)` followed by `pool->aliveThrs++` (lines 219-220 and 306-307). -/
def spawnWorker (s : Sys) (i : Nat) : Sys :=
  { s with
    pool := { s.pool with
      workingThrs := s.pool.workingThrs.set i (s.workers.length + 2)
      aliveThrs := s.pool.aliveThrs + 1 }
    workers := s.workers ++ [{ pc := .atLock, task := none }] }

/-- What the library calls of `poolInit` return: whether each allocation,
initialisation and thread creation succeeds. -/
structure InitEnv where
  /-- Line 255. -/
  mallocPool : Bool
  /-- Line 43. -/
  mallocQueue : Bool
  /-- Line 51. -/
  queueMutex : Bool
  /-- Line 270. -/
  callocThrs : Bool
  /-- Lines 286-289, all four calls. -/
  syncInit : Bool
  /-- Line 306, for each `i`. -/
  spawnOk : Nat → Bool
  /-- Line 315. -/
  adminOk : Bool

/-- Every call succeeds. -/
def InitEnv.allOk (env : InitEnv) : Prop :=
  env.mallocPool = true ∧ env.mallocQueue = true ∧ env.queueMutex = true ∧
  env.callocThrs = true ∧ env.syncInit = true ∧ (∀ i, env.spawnOk i = true) ∧ env.adminOk = true

/-- The environment in which every call succeeds. -/
def InitEnv.ok : InitEnv :=
  { mallocPool := true, mallocQueue := true, queueMutex := true, callocThrs := true,
    syncInit := true, spawnOk := fun _ => true, adminOk := true }

/-- The function `poolInit` (lines 250-340): the pool left in `*p` (`none`
when no pool exists afterwards) and the return code.  `pNonNull` says whether
the argument `p` is non-null.  When the admin thread cannot be created the
workers are told to stop, joined, and everything is released. -/
def poolInit (pNonNull : Bool) (maxThrs minThrs maxTasks : Int) (env : InitEnv) :
    Option Sys × Int :=
  if pNonNull = false ∨ maxThrs ≤ 0 ∨ minThrs ≤ 0 ∨ maxThrs < minThrs ∨ maxTasks ≤ 0 then
    (none, -1)
  else if env.mallocPool = false then (none, -1)
  else
    let qi := queueInit env.mallocQueue env.queueMutex
    if qi.2 ≠ 0 then (none, -1)
    else if env.callocThrs = false then (none, -1)
    else if env.syncInit = false then (none, -1)
    else
      let s0 : Sys :=
        { heap := Heap.empty
          pool :=
            { adminTid := 0, taskQueue := qi.1, maxTasks := maxTasks,
              workingThrs := List.replicate maxThrs.toNat 0,
              maxThrs := maxThrs, minThrs := minThrs,
              busyThrs := 0, aliveThrs := 0, exitThrs := 0, shutdown := false }
          workers := []
          admin := .loopTop }
      let s1 := (List.range minThrs.toNat).foldl
        (fun s i => if env.spawnOk i then spawnWorker s i else s) s0
      if env.adminOk then (some { s1 with pool := { s1.pool with adminTid := 1 } }, 0)
      else (none, -1)

/-- How a call of `addTask` ends: it returns `code`, or it is blocked in
`pthread_cond_wait` on `queueNotFull` (line 352). -/
inductive AddResult where
  | ret (code : Int)
  | blocked
deriving DecidableEq, Repr

/-- Lines 351-371 of `addTask`, one critical section under `poolMux`: from the
test of the wait loop on.  A caller that was blocked resumes here. -/
def addTaskLocked (h : Heap) (p : pool_t) (func arg : Nat) (newTask : Option Nat) :
    Heap × pool_t × AddResult :=
  if queueSize p.taskQueue ≥ p.maxTasks ∧ p.shutdown = false then (h, p, .blocked)
  else if p.shutdown = true then (h, p, .ret (-1))
  else
    let e := enqueue h p.taskQueue func arg newTask
    if e.2.2 ≠ 0 then (e.1, { p with taskQueue := e.2.1 }, .ret (-1))
    else (e.1, { p with taskQueue := e.2.1 }, .ret 0)

/-- The function `addTask` (lines 343-372), up to its return or its first
wait. -/
def addTask (h : Heap) (p : Option pool_t) (func arg : Nat) (newTask : Option Nat) :
    Heap × Option pool_t × AddResult :=
  match p with
  | none => (h, none, .ret (-1))
  | some p =>
    if func = 0 ∨ p.shutdown = true then (h, some p, .ret (-1))
    else
      let r := addTaskLocked h p func arg newTask
      (r.1, some r.2.1, r.2.2)

/-- Replace the worker at index `k`. -/
def setWorker (s : Sys) (k : Nat) (w : Worker) : Sys :=
  { s with workers := s.workers.set k w }

/-- Lines 148 and 161-172 of `workerThread`, under `poolMux`: the test of the
wait loop and, when it fails, the shutdown check and the `dequeue`. -/
def workerTest (s : Sys) (k : Nat) (w : Worker) : Sys :=
  if queueSize s.pool.taskQueue = 0 ∧ s.pool.shutdown = false then
    setWorker s k { w with pc := .waiting }
  else if s.pool.shutdown = true then
    setWorker { s with pool := { s.pool with aliveThrs := s.pool.aliveThrs - 1 } } k
      { w with pc := .stopped }
  else
    let d := dequeue s.heap s.pool.taskQueue (some w.task)
    setWorker { s with pool := { s.pool with taskQueue := d.1 } } k
      { pc := .dequeued, task := match d.2.1 with | some v => v | none => w.task }

/-- Lines 149-158 of `workerThread`: the return from `pthread_cond_wait`, the
exit-credit check, then back to the test of the wait loop. -/
def workerWake (s : Sys) (k : Nat) (w : Worker) : Sys :=
  if s.pool.exitThrs > 0 then
    setWorker
      { s with pool := { s.pool with
          exitThrs := s.pool.exitThrs - 1
          aliveThrs := s.pool.aliveThrs - 1 } } k
      { w with pc := .stopped }
  else workerTest s k w

/-- One step of the function `workerThread` (lines 140-192) for the worker at
index `k`.  A waiting worker may take its step in any state, since
`pthread_cond_wait` may return without a signal. -/
def workerThread (s : Sys) (k : Nat) : Sys :=
  match s.workers.get? k with
  | none => s
  | some w =>
    match w.pc with
    | .atLock => workerTest s k w
    | .waiting => workerWake s k w
    | .dequeued =>
      setWorker { s with pool := { s.pool with busyThrs := s.pool.busyThrs + 1 } } k
        { w with pc := .executing }
    | .executing =>
      setWorker
        { s with
          heap := match w.task with
            | some t => s.heap.free t
            | none => s.heap
          pool := { s.pool with busyThrs := s.pool.busyThrs - 1 } } k
        { w with pc := .atLock }
    | .stopped => s

/-- The condition of line 212, on the sample. -/
def scaleUpCond (p : pool_t) (queueSize busy alive : Int) : Prop :=
  busy = alive ∧ queueSize > 0 ∧ alive < p.maxThrs

instance scaleUpCond.decide (p : pool_t) (q b a : Int) : Decidable (scaleUpCond p q b a) := by
  unfold scaleUpCond; infer_instance

/-- The condition of line 230, on the sample. -/
def scaleDownCond (p : pool_t) (queueSize busy alive : Int) : Prop :=
  busy * 2 < alive ∧ queueSize = 0 ∧ alive > p.minThrs

instance scaleDownCond.decide (p : pool_t) (q b a : Int) : Decidable (scaleDownCond p q b a) := by
  unfold scaleDownCond; infer_instance

/-- The loop of lines 217-225, from index `i` with `add` workers added so far;
`spawnOk i` says whether `pthread_create` succeeds for slot `i`.  The first
argument bounds the number of iterations. -/
def scaleUpLoop (spawnOk : Nat → Bool) : Nat → Nat → Int → Sys → Sys
  | 0, _, _, s => s
  | fuel + 1, i, add, s =>
    if (i : Int) < s.pool.maxThrs ∧ add < 5 ∧ s.pool.aliveThrs < s.pool.maxThrs then
      if s.pool.workingThrs.getD i 0 = 0 then
        if spawnOk i then scaleUpLoop spawnOk fuel (i + 1) (add + 1) (spawnWorker s i)
        else scaleUpLoop spawnOk fuel (i + 1) add s
      else scaleUpLoop spawnOk fuel (i + 1) add s
    else s

/-- Lines 212-227 of `adminThread`: scale-up, decided on the sample. -/
def adminScaleUp (s : Sys) (spawnOk : Nat → Bool) (queueSize busy alive : Int) : Sys :=
  if scaleUpCond s.pool queueSize busy alive then
    scaleUpLoop spawnOk s.pool.maxThrs.toNat 0 0 s
  else s

/-- Lines 230-243 of `adminThread`: scale-down, decided on the sample. -/
def adminScaleDown (p : pool_t) (queueSize busy alive : Int) : pool_t :=
  if scaleDownCond p queueSize busy alive then
    let reduce := if alive - p.minThrs > 5 then 5 else alive - p.minThrs
    if reduce > 0 then { p with exitThrs := reduce } else p
  else p

/-- One step of the function `adminThread` (lines 195-247). -/
def adminThread (s : Sys) (spawnOk : Nat → Bool) : Sys :=
  match s.admin with
  | .loopTop =>
    if s.pool.shutdown = true then { s with admin := .done } else { s with admin := .sleeping }
  | .sleeping =>
    { s with admin := .sampled (queueSize s.pool.taskQueue) s.pool.busyThrs s.pool.aliveThrs }
  | .sampled q b a => { adminScaleUp s spawnOk q b a with admin := .afterUp q b a }
  | .afterUp q b a => { s with pool := adminScaleDown s.pool q b a, admin := .loopTop }
  | .done => s

/-- Lines 375-386 of `poolDestroy`: the shutdown flag is set (the broadcast
changes no field). -/
def poolDestroy (p : Option pool_t) : Option pool_t :=
  match p with
  | none => none
  | some p => if p.shutdown = true then some p else some { p with shutdown := true }

/-- Whether `malloc` may return `newTask` on the heap `h`. -/
def freshFor (h : Heap) (newTask : Option Nat) : Bool :=
  match newTask with
  | none => true
  | some t => (h t).isNone

/-- The steps of the system. -/
inductive Event where
  /-- A caller runs `addTask` (or resumes it after a wait). -/
  | addTask (func arg : Nat) (newTask : Option Nat)
  /-- The worker at index `k` takes its next step. -/
  | worker (k : Nat)
  /-- The admin thread takes its next step. -/
  | admin (spawnOk : Nat → Bool)
  /-- The owner calls `poolDestroy`. -/
  | poolDestroy

/-- Perform one step; a step that cannot happen leaves the state as it is. -/
def step (s : Sys) : Event → Sys
  | .addTask f a nt =>
    if freshFor s.heap nt = true then
      match addTask s.heap (some s.pool) f a nt with
      | (h, some p, _) => { s with heap := h, pool := p }
      | (_, none, _) => s
    else s
  | .worker k => workerThread s k
  | .admin ok => adminThread s ok
  | .poolDestroy =>
    match poolDestroy (some s.pool) with
    | some p => { s with pool := p }
    | none => s

/-- Perform a sequence of steps. -/
def exec (s : Sys) (evs : List Event) : Sys := evs.foldl step s

/-! ## Invariants and sample runs -/

/-- The counters agree with the threads: `busyThrs` counts the workers that
are executing, `aliveThrs` those that have not stopped; `aliveThrs` is within
`maxThrs` and the slot table has `maxThrs` entries. -/
structure CountInv (s : Sys) : Prop where
  busy_eq : s.pool.busyThrs = (s.workers.countP Worker.busy : Nat)
  alive_eq : s.pool.aliveThrs = (s.workers.countP Worker.live : Nat)
  alive_le : s.pool.aliveThrs ≤ s.pool.maxThrs
  slots_len : s.pool.workingThrs.length = s.pool.maxThrs.toNat

/-- The state `poolInit` builds before it creates any thread. -/
def initState (maxThrs minThrs maxTasks : Int) : Sys :=
  { heap := Heap.empty
    pool :=
      { adminTid := 0, taskQueue := some { front := none, rear := none, size := 0 },
        maxTasks := maxTasks, workingThrs := List.replicate maxThrs.toNat 0,
        maxThrs := maxThrs, minThrs := minThrs,
        busyThrs := 0, aliveThrs := 0, exitThrs := 0, shutdown := false }
    workers := []
    admin := .loopTop }

/-- What holds of a state right after a successful `poolInit`. -/
structure InitFacts (maxThrs minThrs maxTasks : Int) (s : Sys) : Prop where
  heap_eq : s.heap = Heap.empty
  admin_eq : s.admin = .loopTop
  queue_eq : s.pool.taskQueue = some { front := none, rear := none, size := 0 }
  maxTasks_eq : s.pool.maxTasks = maxTasks
  maxThrs_eq : s.pool.maxThrs = maxThrs
  minThrs_eq : s.pool.minThrs = minThrs
  busy_zero : s.pool.busyThrs = 0
  exit_zero : s.pool.exitThrs = 0
  running : s.pool.shutdown = false
  fresh_workers : ∀ w ∈ s.workers, w = { pc := .atLock, task := none }
  alive_eq : s.pool.aliveThrs = s.workers.length

/-- The explicit state after `poolInit(&pool, 2, 1, 5)` with every call succeeding. -/
def demoStart : Sys :=
  { heap := Heap.empty
    pool :=
      { adminTid := 1, taskQueue := some { front := none, rear := none, size := 0 },
        maxTasks := 5, workingThrs := [2, 0], maxThrs := 2, minThrs := 1,
        busyThrs := 0, aliveThrs := 1, exitThrs := 0, shutdown := false }
    workers := [{ pc := .atLock, task := none }]
    admin := .loopTop }

/-- Every `pthread_create` of the admin thread succeeds. -/
def spawnAll : Nat → Bool := fun _ => true

/-- A run from `demoStart`: two tasks arrive, the only worker takes one, a
tick adds a second worker, both tasks are done, a second tick grants one exit
credit and the second worker consumes it. -/
def demoRetire : List Event :=
  [.worker 0, .addTask 7 1 (some 100), .addTask 7 2 (some 101), .worker 0, .worker 0,
   .admin spawnAll, .admin spawnAll, .admin spawnAll, .admin spawnAll,
   .worker 1, .worker 1, .worker 1, .worker 1, .worker 0, .worker 0,
   .admin spawnAll, .admin spawnAll, .admin spawnAll, .admin spawnAll, .worker 1]

/-- The run `demoRetire` continued: two more tasks arrive, the remaining
worker takes one, and a third tick runs its sample and its scale-up. -/
def demoStuck : List Event :=
  demoRetire ++ [.addTask 7 3 (some 100), .addTask 7 4 (some 101), .worker 0, .worker 0,
   .admin spawnAll, .admin spawnAll, .admin spawnAll]

/-- The pool `p1` has the bounds of `p`. -/
def SameBounds (p p1 : pool_t) : Prop :=
  p1.maxThrs = p.maxThrs ∧ p1.minThrs = p.minThrs ∧ p1.maxTasks = p.maxTasks

/-- Backpressure as an invariant: the queue holds at most `maxTasks` tasks. -/
def QueueBound (s : Sys) : Prop := queueSize s.pool.taskQueue ≤ s.pool.maxTasks

/-- Six calls of `addTask` in a row, each with a fresh address. -/
def demoFill : List Event :=
  [.addTask 7 1 (some 100), .addTask 7 2 (some 101), .addTask 7 3 (some 102),
   .addTask 7 4 (some 103), .addTask 7 5 (some 104), .addTask 7 6 (some 105)]

/-- The explicit state after `poolInit(&pool, 5, 1, 10)` with every call succeeding. -/
def demoStart5 : Sys :=
  { heap := Heap.empty
    pool :=
      { adminTid := 1, taskQueue := some { front := none, rear := none, size := 0 },
        maxTasks := 10, workingThrs := [2, 0, 0, 0, 0], maxThrs := 5, minThrs := 1,
        busyThrs := 0, aliveThrs := 1, exitThrs := 0, shutdown := false }
    workers := [{ pc := .atLock, task := none }]
    admin := .loopTop }

/-- A run from `demoStart5`: three tasks arrive, a tick grows the pool to five
workers, three workers are idle while two still run their tasks when a second
tick grants four exit credits; the three idle workers consume one each, the
two others finish and wait, and a third tick takes its sample and passes its
scale-up. -/
def demoLeftover : List Event :=
  [.worker 0, .addTask 7 1 (some 100), .addTask 7 2 (some 101), .addTask 7 3 (some 102),
   .worker 0, .worker 0,
   .admin spawnAll, .admin spawnAll, .admin spawnAll, .admin spawnAll,
   .worker 1, .worker 1, .worker 2, .worker 2, .worker 2, .worker 2, .worker 3, .worker 4,
   .admin spawnAll, .admin spawnAll, .admin spawnAll, .admin spawnAll,
   .worker 2, .worker 3, .worker 4, .worker 0, .worker 0, .worker 1, .worker 1,
   .admin spawnAll, .admin spawnAll, .admin spawnAll]

/-- The first steps of `demoRetire`, up to the first sample of the admin
thread: one worker, busy, and one task waiting. -/
def demoSampled : List Event :=
  [.worker 0, .addTask 7 1 (some 100), .addTask 7 2 (some 101), .worker 0, .worker 0,
   .admin spawnAll, .admin spawnAll]

/-- The node a worker owns: the one it has taken out of the queue and not yet
freed. -/
def Worker.held (w : Worker) : Option Nat :=
  match w.pc with
  | .dequeued => w.task
  | .executing => w.task
  | _ => none

/-- The nodes owned by the workers. -/
def heldTasks (ws : List Worker) : List Nat := ws.filterMap Worker.held

/-- Ownership of the task nodes: the queue object exists and is well formed
over the nodes `as`; these and the nodes the workers own are pairwise
distinct; every node a worker owns is allocated; a worker that has dequeued
holds a non-null `task`. -/
def QueueInv (s : Sys) (q : queue_t) (as : List Nat) : Prop :=
  s.pool.taskQueue = some q ∧ queue_wf s.heap q as ∧
  (as ++ heldTasks s.workers).Nodup ∧
  (∀ t ∈ heldTasks s.workers, s.heap t ≠ none) ∧
  (∀ w ∈ s.workers, w.pc = .dequeued ∨ w.pc = .executing → w.task ≠ none)

/-! ## Runs with atomic ticks, shutdown, and further sample runs -/

/-- The admin thread is between its sample (line 206) and the end of its tick
(line 243). -/
def Sys.midTick (s : Sys) : Bool :=
  match s.admin with
  | .sampled _ _ _ => true
  | .afterUp _ _ _ => true
  | _ => false

/-- The step is one of the admin thread. -/
def Event.byAdmin : Event → Bool
  | .admin _ => true
  | _ => false

/-- The step is a call of `addTask`. -/
def Event.bySubmit : Event → Bool
  | .addTask _ _ _ => true
  | _ => false

/-- A run in which no other thread takes a step between the sample of a tick
and the end of that tick: every sample is still current when it is used. -/
def atomicTicks (s : Sys) : List Event → Bool
  | [] => true
  | ev :: evs => (!s.midTick || ev.byAdmin) && atomicTicks (step s ev) evs

/-- The sample the admin thread holds, if any, does not exceed `aliveThrs`. -/
def sampleCurrent (s : Sys) : Prop :=
  match s.admin with
  | .sampled _ _ a => a ≤ s.pool.aliveThrs
  | .afterUp _ _ a => a ≤ s.pool.aliveThrs
  | _ => True

/-- Exit credits are covered: `exitThrs` is not negative and leaves at least
`c` workers, for a `c` of at most `minThrs`; the sample in use is current. -/
def CreditInv (c : Int) (s : Sys) : Prop :=
  0 ≤ s.pool.exitThrs ∧ s.pool.exitThrs + c ≤ s.pool.aliveThrs ∧ c ≤ s.pool.minThrs ∧
  sampleCurrent s

/-- The first 25 steps of `demoLeftover`: four exit credits granted, three
consumed, the two remaining workers still running their tasks. -/
def demoCredits : List Event := demoLeftover.take 25

/-- The run `demoCredits` followed by `poolDestroy`; the two workers then
finish their tasks and stop on the shutdown flag. -/
def demoShutdown : List Event :=
  demoCredits ++ [.poolDestroy, .worker 0, .worker 0, .worker 1, .worker 1]

/-- The run `demoLeftover` continued inside its third tick, whose sample is
`(0, 0, 2)`: a task arrives and its signal wakes worker 0, which consumes the
credit left over; the tick then grants one credit from its sample and worker
1 consumes it. -/
def demoBelowFloor : List Event :=
  demoLeftover ++ [.addTask 7 4 (some 103), .worker 0, .admin spawnAll, .worker 1]

/-- The effect of a worker step on the counters of scale-down: the admin
thread and `minThrs` are untouched, and either `exitThrs` and `aliveThrs` are
too, or one exit credit was consumed. -/
def CreditStep (s s1 : Sys) : Prop :=
  s1.admin = s.admin ∧ s1.pool.minThrs = s.pool.minThrs ∧
  (s1.pool.exitThrs = s.pool.exitThrs ∧ s1.pool.aliveThrs = s.pool.aliveThrs ∨
    0 < s.pool.exitThrs ∧ s1.pool.exitThrs = s.pool.exitThrs - 1 ∧
      s1.pool.aliveThrs = s.pool.aliveThrs - 1)

/-- The worker has no task in hand: it is about to test the wait loop, waits,
or has stopped. -/
def Worker.idle (w : Worker) : Prop :=
  w.pc = .atLock ∨ w.pc = .waiting ∨ w.pc = .stopped

/-- A pool that was never given a task: the queue is empty, no exit credit is
pending, no worker has a task in hand, `aliveThrs` is within `minThrs`, there
are `n` workers, and a sample in use saw an empty queue and at most `minThrs`
workers. -/
structure IdleInv (n : Nat) (s : Sys) : Prop where
  queue_empty : s.pool.taskQueue = some { front := none, rear := none, size := 0 }
  heap_empty : s.heap = Heap.empty
  no_credit : s.pool.exitThrs = 0
  alive_le_min : s.pool.aliveThrs ≤ s.pool.minThrs
  all_idle : ∀ w ∈ s.workers, w.idle
  n_workers : s.workers.length = n
  sample_idle : match s.admin with
    | .sampled q _ a => q = 0 ∧ a ≤ s.pool.minThrs
    | .afterUp q _ a => q = 0 ∧ a ≤ s.pool.minThrs
    | _ => True

/-- The shortest round trip from `demoStart`: `poolDestroy`, then the only
worker takes its step. -/
def demoRoundTrip : List Event := [.poolDestroy, .worker 0]

/-- The loop of `queueDestroy` (lines 128-132), from the node `p`: free it and
go on with its `next`.  The first argument bounds the number of iterations. -/
def freeChain (h : Heap) : Nat → Option Nat → Heap
  | 0, _ => h
  | _ + 1, none => h
  | k + 1, some a => freeChain (h.free a) k (h.next a)

/-- The function `queueDestroy` (lines 122-137): the heap after every node
linked from `front` has been freed (the queue object itself is freed with
them).  `fuel` bounds the iterations of the loop. -/
def queueDestroy (h : Heap) (q : Option queue_t) (fuel : Nat) : Heap :=
  match q with
  | none => h
  | some q => freeChain h fuel q.front

/-- A run from `demoStart` that is shut down with work pending: two tasks
arrive, the worker dequeues the first, and `poolDestroy` is called. -/
def demoHalt : List Event :=
  [.worker 0, .addTask 7 1 (some 100), .addTask 7 2 (some 101), .worker 0, .poolDestroy]

/-- The three further steps of the worker after `demoHalt`: it becomes busy,
finishes its task, and stops. -/
def demoHaltRest : List Event := [.worker 0, .worker 0, .worker 0]

/-! ## The sequential list (`SqList.c`)

The buffer `data` is modelled by its contents: the byte at each offset from
its start.  A pointer into the buffer is an offset; `NULL` is `none`.  The
type `int` has 32 bits and `size_t` 64: in `seqlist_insert` every `int`
computation wraps and every access is checked against the extent of the block
`data` points to.  The loops of `seqlist_search` and `seqlist_delete` only
compute offsets `i * size` with `i < length`. -/

/-- The struct `seqlist` (lines 5-10). -/
structure seqlist where
  data : Int → Nat
  size : Int
  capacity : Int
  length : Int

/-- The result of an `int` computation whose mathematical value is `x`: the
value is reduced to 32 bits, two's complement. -/
def wrapInt (x : Int) : Int :=
  (x + 2147483648) % 4294967296 - 2147483648

/-- The conversion of an `int` to `size_t`, as for the byte counts passed to
`malloc`, `realloc`, `memmove` and `memcpy`. -/
def toSize (x : Int) : Int :=
  x % 18446744073709551616

/-- The number of bytes of the block `data` points to.  The block is requested
with `len * size` bytes by `seqlist_init` (line 23), which sets `capacity` to
`len`, and with `new_capacity * size` bytes by `seqlist_insert` (line 46),
which sets `capacity` to `new_capacity`; no other line allocates, or changes
`capacity` or `size`.  The product is an `int`, converted to `size_t`. -/
def seqlist.blockBytes (l : seqlist) : Int :=
  toSize (wrapInt (l.capacity * l.size))

/-- The `n` bytes from offset `off` on lie inside a block of `bytes` bytes. -/
def inBlock (bytes off n : Int) : Bool :=
  decide (0 ≤ off ∧ off + n ≤ bytes)

/-- The call `memmove(buf + dst, buf + src, n)`: the `n` bytes from offset `src`
land at offset `dst`, whether or not the two ranges overlap. -/
def memmove (d : Int → Nat) (dst src n : Int) : Int → Nat :=
  fun p => if dst ≤ p ∧ p < dst + n then d (src + (p - dst)) else d p

/-- The call `memcpy(buf + dst, src, n)`, where `src` gives the bytes found at
the source when the call is made. -/
def memcpy (d : Int → Nat) (dst : Int) (src : Int → Nat) (n : Int) : Int → Nat :=
  fun p => if dst ≤ p ∧ p < dst + n then src (p - dst) else d p

/-- A successful `realloc(buf, ...)` of a buffer of `oldBytes` bytes to a larger
one: the old bytes are kept, the others are those of the new block. -/
def realloc (d : Int → Nat) (oldBytes : Int) (newBlock : Int → Nat) : Int → Nat :=
  fun p => if p < oldBytes then d p else newBlock p

/-- Where the argument `data` of `seqlist_insert` points: to memory apart from
the buffer of the list, given by the bytes found there, or into the buffer of
the list itself, at a byte offset. -/
inductive DataPtr where
  | outside (x : Int → Nat)
  | inside (off : Int)

/-- The bytes found at `data` when the buffer of the list holds `d`. -/
def DataPtr.read (p : DataPtr) (d : Int → Nat) : Int → Nat :=
  match p with
  | .outside x => x
  | .inside off => fun j => d (off + j)

/-- Whether `memcpy(buf + dst, data, n)` may read its source.  Memory apart
from the buffer is taken to hold `n` readable bytes.  A pointer into the buffer
is of no use once `realloc` has released the block it pointed into (`moved`);
otherwise the `n` bytes must lie inside the block of `bytes` bytes and must not
overlap the destination. -/
def DataPtr.readable (p : DataPtr) (moved : Bool) (bytes dst n : Int) : Bool :=
  match p with
  | .outside _ => true
  | .inside off =>
    !moved && inBlock bytes off n && decide (n = 0 ∨ off + n ≤ dst ∨ dst + n ≤ off)

/-- The function `seqlist_insert` (lines 38-66): the list and the return code,
or `none` when the call has no defined behaviour, because `memmove` or `memcpy`
reaches outside the block `data` points to, or `memcpy` cannot read its source.
`data` says where the argument `data` points, `newBlock` is what `realloc`
returns when it is called.  The source of `memcpy` is read at line 62, after
the `realloc` of line 46 and the `memmove` of lines 56-58. -/
def seqlist_insert (mylist : Option seqlist) (data : Option DataPtr) (index : Int)
    (newBlock : Option (Int → Nat)) : Option (Option seqlist × Int) :=
  match mylist, data with
  | none, _ => some (none, -1)
  | some l, none => some (some l, -1)
  | some l, some p =>
    if index < 0 ∨ index > l.length then some (some l, -1)
    else
      let grown : Option (seqlist × Bool) :=
        if l.length ≥ l.capacity then
          match newBlock with
          | none => none
          | some b =>
            some ({ l with
              data := realloc l.data l.blockBytes b
              capacity := wrapInt (l.capacity * 2) }, true)
        else some (l, false)
      match grown with
      | none => some (some l, -1)
      | some (l1, moved) =>
        let mdst := wrapInt (wrapInt (index + 1) * l1.size)
        let msrc := wrapInt (index * l1.size)
        let mn := toSize (wrapInt (wrapInt (l1.length - index) * l1.size))
        let d1 := if index < l1.length then memmove l1.data mdst msrc mn else l1.data
        let cdst := wrapInt (index * l1.size)
        let cn := toSize l1.size
        let defined : Bool :=
          (if index < l1.length then
            inBlock l1.blockBytes mdst mn && inBlock l1.blockBytes msrc mn
          else true)
          && inBlock l1.blockBytes cdst cn
          && p.readable moved l1.blockBytes cdst cn
        if defined then
          some (some { l1 with
            data := memcpy d1 cdst (p.read d1) cn
            length := wrapInt (l1.length + 1) }, 0)
        else none

/-- The element at index `i`: the `size` bytes from offset `i * size`. -/
def elemAt (d : Int → Nat) (size : Int) (i : Int) : List Nat :=
  (List.range size.toNat).map (fun (j : Nat) => d (i * size + (j : Int)))

/-- The `cnt` elements from index `start` on. -/
def elemsFrom (d : Int → Nat) (size : Int) : Int → Nat → List (List Nat)
  | _, 0 => []
  | start, cnt + 1 => elemAt d size start :: elemsFrom d size (start + 1) cnt

/-- The elements of a list, `e_0` to `e_{length-1}`. -/
def seqlist.elems (l : seqlist) : List (List Nat) :=
  elemsFrom l.data l.size 0 l.length.toNat

/-- The loop shared by `seqlist_search` (lines 74-78) and `seqlist_delete`
(lines 89-100): from index `i` on, the first index below `length` whose
element compares equal to the key.  The first argument bounds the number of
iterations. -/
def firstMatch {K : Type} (l : seqlist) (key : K) (cmp : List Nat → K → Int) :
    Nat → Int → Option Int
  | 0, _ => none
  | fuel + 1, i =>
    if i < l.length then
      if cmp (elemAt l.data l.size i) key = 0 then some i
      else firstMatch l key cmp fuel (i + 1)
    else none

/-- The function `seqlist_search` (lines 69-81): the offset of the element
found, or `NULL`. -/
def seqlist_search {K : Type} (mylist : Option seqlist) (key : Option K)
    (cmp : Option (List Nat → K → Int)) : Option Int :=
  match mylist, key, cmp with
  | some l, some k, some c =>
    match firstMatch l k c l.length.toNat 0 with
    | some i => some (i * l.size)
    | none => none
  | _, _, _ => none

/-- The function `seqlist_delete` (lines 84-103). -/
def seqlist_delete {K : Type} (mylist : Option seqlist) (key : Option K)
    (cmp : Option (List Nat → K → Int)) : Option seqlist × Int :=
  match mylist, key, cmp with
  | some l, some k, some c =>
    match firstMatch l k c l.length.toNat 0 with
    | some i =>
      let d1 :=
        if i < l.length - 1 then
          memmove l.data (i * l.size) ((i + 1) * l.size) ((l.length - i - 1) * l.size)
        else l.data
      (some { l with data := d1, length := l.length - 1 }, 0)
    | none => (some l, -1)
  | _, _, _ => (mylist, -1)

/-- A list of one-byte elements with capacity 2 that holds `[10, 30]`. -/
def seqDemo : seqlist :=
  { data := fun p => if p = 0 then 10 else if p = 1 then 30 else 0
    size := 1, capacity := 2, length := 2 }

/-- Compare a one-byte element with a number: 0 when they are equal. -/
def cmpByte : List Nat → Nat → Int :=
  fun e k => if e = [k] then 0 else 1

/-- What `firstMatch` must return from index `i`: the lowest matching index
from `i` on, or nothing when no element from `i` on matches. -/
def FirstMatchAt {K : Type} (l : seqlist) (key : K) (cmp : List Nat → K → Int) (i : Int)
    (r : Option Int) : Prop :=
  match r with
  | some m => i ≤ m ∧ m < l.length ∧ cmp (elemAt l.data l.size m) key = 0 ∧
      ∀ k, i ≤ k → k < m → cmp (elemAt l.data l.size k) key ≠ 0
  | none => ∀ k, i ≤ k → k < l.length → cmp (elemAt l.data l.size k) key ≠ 0

/-- One call on a list: an insertion of the bytes `x`, which lie apart from
the buffer of the list (with what `realloc` returns, should it be called), or
a deletion. -/
inductive SeqOp (K : Type) where
  | insert (x : Int → Nat) (index : Int) (newBlock : Option (Int → Nat))
  | delete (key : K)

/-- Perform one call on the list `l` (which the calls update in place);
`none` when the call has no defined behaviour. -/
def SeqOp.apply {K : Type} (cmp : List Nat → K → Int) (l : seqlist) :
    SeqOp K → Option seqlist
  | .insert x index newBlock =>
    match seqlist_insert (some l) (some (.outside x)) index newBlock with
    | some (some l1, _) => some l1
    | some (none, _) => some l
    | none => none
  | .delete key =>
    match (seqlist_delete (some l) (some key) (some cmp)).1 with
    | some l1 => some l1
    | none => some l

theorem chain_alloc {h : Heap} : ∀ {as : List Nat} {p : Option Nat}, chain h p as →
    ∀ a ∈ as, h a ≠ none
  | [], _, _, a, ha => by simp at ha
  | b :: as, p, hc, a, ha => by
    obtain ⟨_, n, hn, hrest⟩ := hc
    rcases List.mem_cons.1 ha with rfl | hmem
    · simp [hn]
    · exact chain_alloc hrest a hmem

theorem chain_congr {h h' : Heap} : ∀ {as : List Nat} {p : Option Nat},
    (∀ a ∈ as, h' a = h a) → chain h p as → chain h' p as
  | [], _, _, hc => hc
  | b :: as, p, heq, hc => by
    obtain ⟨hp, n, hn, hrest⟩ := hc
    refine ⟨hp, n, ?_, chain_congr (fun a ha => heq a (List.mem_cons_of_mem _ ha)) hrest⟩
    rw [heq b (List.mem_cons_self _ _), hn]

theorem tasksAt_congr {h h' : Heap} {as : List Nat} (heq : ∀ a ∈ as, h' a = h a) :
    tasksAt h' as = tasksAt h as := by
  induction as with
  | nil => rfl
  | cons b as ih =>
    have hb := heq b (List.mem_cons_self _ _)
    have ih' := ih (fun a ha => heq a (List.mem_cons_of_mem _ ha))
    simp only [tasksAt] at ih' ⊢
    simp only [List.filterMap_cons, hb, ih']

theorem walk_chain {h : Heap} : ∀ {as : List Nat} {p : Option Nat} (k : Nat), chain h p as →
    as.length ≤ k → walk h k p = tasksAt h as
  | [], p, k, hc, _ => by
    have hp : p = none := hc
    subst hp
    cases k <;> simp [walk, tasksAt]
  | b :: as, p, k, hc, hk => by
    obtain ⟨hp, n, hn, hrest⟩ := hc
    subst hp
    cases k with
    | zero => simp at hk
    | succ k =>
      have hk' : as.length ≤ k := by simpa using hk
      have ih := walk_chain k hrest hk'
      simp only [tasksAt] at ih ⊢
      simp [walk, hn, ih]

theorem tasksAt_length {h : Heap} : ∀ {as : List Nat} {p : Option Nat}, chain h p as →
    (tasksAt h as).length = as.length
  | [], _, _ => rfl
  | b :: as, p, hc => by
    obtain ⟨_, n, hn, hrest⟩ := hc
    have ih := tasksAt_length hrest
    simp only [tasksAt] at ih ⊢
    simp [hn, ih]

theorem queueTasks_wf {h : Heap} {q : queue_t} {as : List Nat} (hwf : queue_wf h q as) :
    queueTasks h (some q) = tasksAt h as := by
  obtain ⟨hc, _, _, hsz⟩ := hwf
  simp only [queueTasks]
  exact walk_chain _ hc (by rw [hsz]; simp)

/-- Linking a fresh node behind the last node of a chain. -/
theorem chain_snoc {h : Heap} (t : Nat) (nd : task_t) (hnx : nd.next = none) :
    ∀ {as : List Nat} {p : Option Nat} (r : Nat), chain h p as → as.getLast? = some r →
    t ∉ as → as.Nodup →
    chain ((h.store t nd).setNext r (some t)) p (as ++ [t])
  | [], _, r, _, hl, _, _ => by simp at hl
  | [b], p, r, hc, hl, ht, _ => by
    obtain ⟨hp, n, hn, hrest⟩ := hc
    have hnn : n.next = none := hrest
    have hbr : b = r := by simpa using hl
    subst hbr
    have htb : b ≠ t := fun e => ht (by simp [e])
    refine ⟨hp, { n with next := some t }, ?_, rfl, nd, ?_, hnx⟩
    · simp [Heap.setNext, Heap.store, htb, hn]
    · have : t ≠ b := fun e => htb e.symm
      simp [Heap.setNext, Heap.store, this]
  | b :: c :: as, p, r, hc, hl, ht, hnd => by
    obtain ⟨hp, n, hn, hrest⟩ := hc
    have hl' : (c :: as).getLast? = some r := by simpa [List.getLast?_cons_cons] using hl
    have ht' : t ∉ c :: as := fun hm => ht (List.mem_cons_of_mem _ hm)
    have hnd' : (c :: as).Nodup := (List.nodup_cons.1 hnd).2
    have hbt : b ≠ t := fun e => ht (by simp [e])
    have hrmem : r ∈ c :: as := List.mem_of_getLast?_eq_some hl'
    have hbr : b ≠ r := fun e => (List.nodup_cons.1 hnd).1 (e ▸ hrmem)
    refine ⟨hp, n, ?_, chain_snoc t nd hnx r hrest hl' ht' hnd'⟩
    simp [Heap.setNext, Heap.store, hbt, hbr, hn]

/-- The last node of a chain ends the list. -/
theorem chain_last {h : Heap} : ∀ {as : List Nat} {p : Option Nat} {r : Nat}, chain h p as →
    as.getLast? = some r → ∃ n, h r = some n ∧ n.next = none
  | [], _, _, _, hl => by simp at hl
  | [b], p, r, hc, hl => by
    obtain ⟨_, n, hn, hrest⟩ := hc
    have hbr : b = r := by simpa using hl
    subst hbr
    exact ⟨n, hn, hrest⟩
  | b :: c :: as, p, r, hc, hl => by
    obtain ⟨_, n, _, hrest⟩ := hc
    have hl1 : (c :: as).getLast? = some r := by simpa [List.getLast?_cons_cons] using hl
    exact chain_last hrest hl1

theorem tasksAt_append (h : Heap) (as bs : List Nat) :
    tasksAt h (as ++ bs) = tasksAt h as ++ tasksAt h bs := by
  simp [tasksAt, List.filterMap_append]

/-- What `enqueue` does to a well-formed queue when `malloc` returns a fresh
address: the node is appended. -/
theorem enqueue_wf {h : Heap} {q : queue_t} {as : List Nat} (hwf : queue_wf h q as)
    (f a t : Nat) (ht : h t = none) :
    ∃ h1 q1, enqueue h (some q) f a (some t) = (h1, some q1, 0) ∧
      queue_wf h1 q1 (as ++ [t]) ∧ tasksAt h1 (as ++ [t]) = tasksAt h as ++ [(f, a)] ∧
      (∀ x, x ≠ t → x ∉ as → h1 x = h x) := by
  obtain ⟨hc, hnd, hr, hsz⟩ := hwf
  have htas : t ∉ as := fun hm => chain_alloc hc t hm ht
  have hnd1 : (as ++ [t]).Nodup := by
    rw [List.nodup_append]
    refine ⟨hnd, List.nodup_singleton t, ?_⟩
    intro x hx hx2
    rw [List.mem_singleton] at hx2
    exact htas (hx2 ▸ hx)
  cases hrr : q.rear with
  | none =>
    have hnil : as = [] := by
      rw [hrr] at hr
      exact List.getLast?_eq_none_iff.1 hr.symm
    subst hnil
    refine ⟨_, _, (by simp only [enqueue, hrr]; rfl), ⟨?_, hnd1, ?_, ?_⟩, ?_, ?_⟩
    · exact ⟨rfl, { func := f, arg := a, next := none }, by simp [Heap.store], rfl⟩
    · simp
    · simp [hsz]
    · simp [tasksAt, Heap.store]
    · intro x hx _
      simp [Heap.store, hx]
  | some r =>
    have hl : as.getLast? = some r := by rw [← hr, hrr]
    have hrmem : r ∈ as := List.mem_of_getLast?_eq_some hl
    have hrt : r ≠ t := fun e => htas (e ▸ hrmem)
    refine ⟨_, _, (by simp only [enqueue, hrr]; rfl), ⟨?_, hnd1, ?_, ?_⟩, ?_, ?_⟩
    · exact chain_snoc t _ rfl r hc hl htas hnd
    · simp
    · simp [hsz]
    · rw [tasksAt_append]
      congr 1
      · simp only [tasksAt]
        apply List.filterMap_congr
        intro x hx
        have hxt : x ≠ t := fun e => htas (e ▸ hx)
        by_cases hxr : x = r
        · subst hxr
          simp only [Heap.setNext, Heap.store, hxt, if_true, if_false]
          cases h x <;> simp
        · simp [Heap.setNext, Heap.store, hxt, hxr]
      · simp [tasksAt, Heap.setNext, Heap.store, hrt.symm]
    · intro x hx hxas
      have hxr : x ≠ r := fun e => hxas (e ▸ hrmem)
      simp [Heap.setNext, Heap.store, hx, hxr]

/-- What `dequeue` does to a well-formed, non-empty queue: the front node is
unlinked, and it may then be freed. -/
theorem dequeue_wf {h : Heap} {q : queue_t} {a : Nat} {as : List Nat}
    (hwf : queue_wf h q (a :: as)) (v : Option Nat) :
    ∃ q1 n, dequeue h (some q) (some v) = (some q1, some (some a), 0) ∧ h a = some n ∧
      queue_wf h q1 as ∧ queue_wf (h.free a) q1 as ∧ tasksAt (h.free a) as = tasksAt h as ∧
      q1.size = q.size - 1 := by
  obtain ⟨hc, hnd, hr, hsz⟩ := hwf
  obtain ⟨hp, n, hn, hrest⟩ := hc
  have hna : a ∉ as := (List.nodup_cons.1 hnd).1
  have hnd1 : as.Nodup := (List.nodup_cons.1 hnd).2
  have hfree : ∀ x ∈ as, (h.free a) x = h x := by
    intro x hx
    have : x ≠ a := fun e => hna (e ▸ hx)
    simp [Heap.free, this]
  have hsz1 : q.size - 1 = (as.length : Int) := by
    rw [hsz]; simp
  cases as with
  | nil =>
    have hnn : n.next = none := hrest
    have hd : dequeue h (some q) (some v) =
        (some { front := none, rear := none, size := q.size - 1 }, some (some a), 0) := by
      simp [dequeue, hp, Heap.next, hn, hnn]
    refine ⟨_, n, hd, hn, ?_, ?_, rfl, rfl⟩
    · exact ⟨rfl, hnd1, rfl, hsz1⟩
    · exact ⟨rfl, hnd1, rfl, hsz1⟩
  | cons b bs =>
    have hnb : n.next = some b := hrest.1
    have hd : dequeue h (some q) (some v) =
        (some { front := some b, rear := q.rear, size := q.size - 1 }, some (some a), 0) := by
      simp [dequeue, hp, Heap.next, hn, hnb]
    have hrest' : chain h (some b) (b :: bs) := hnb ▸ hrest
    have hr1 : q.rear = (b :: bs).getLast? := by
      rw [hr, List.getLast?_cons_cons]
    refine ⟨_, n, hd, hn, ?_, ?_, tasksAt_congr hfree, rfl⟩
    · exact ⟨hrest', hnd1, hr1, hsz1⟩
    · exact ⟨chain_congr hfree hrest', hnd1, hr1, hsz1⟩

/-- The function `dequeue` on an empty well-formed queue fails and changes nothing. -/
theorem dequeue_empty {h : Heap} {q : queue_t} (hwf : queue_wf h q []) (v : Option Nat) :
    dequeue h (some q) (some v) = (some q, some v, -1) := by
  have hf : q.front = none := hwf.1
  simp [dequeue, hf]

theorem queue_wf_init (h : Heap) :
    (QRun.init h).q = some { front := none, rear := none, size := 0 } ∧
    queue_wf h { front := none, rear := none, size := 0 } [] :=
  ⟨rfl, rfl, List.nodup_nil, rfl, rfl⟩

/-- One queue operation keeps the queue well formed and extends the history by
what it accepted. -/
theorem step_fifo (r : QRun) (q : queue_t) (as : List Nat) (hq : r.q = some q)
    (hwf : queue_wf r.heap q as) (op : QOp) (hok : r.allocOk [op]) :
    ∃ q1 as1, (r.step op).q = some q1 ∧ queue_wf (r.step op).heap q1 as1 ∧
      (r.step op).out ++ tasksAt (r.step op).heap as1 =
        r.out ++ tasksAt r.heap as ++ accepted [op] := by
  cases op with
  | enq f a nt =>
    cases nt with
    | none =>
      refine ⟨q, as, ?_, ?_, ?_⟩
      · simp [QRun.step, enqueue, hq]
      · simpa [QRun.step, enqueue, hq] using hwf
      · simp [QRun.step, enqueue, hq, accepted]
    | some t =>
      have ht : r.heap t = none := hok.1
      obtain ⟨h1, q1, he, hwf1, htasks, _⟩ := enqueue_wf hwf f a t ht
      refine ⟨q1, as ++ [t], ?_, ?_, ?_⟩
      · simp [QRun.step, hq, he]
      · simpa [QRun.step, hq, he] using hwf1
      · simp [QRun.step, hq, he, htasks, accepted]
  | deq =>
    cases as with
    | nil =>
      have hd := dequeue_empty hwf none
      refine ⟨q, [], ?_, ?_, ?_⟩
      · simp [QRun.step, hq, hd]
      · simpa [QRun.step, hq, hd] using hwf
      · simp [QRun.step, hq, hd, accepted]
    | cons a as =>
      obtain ⟨q1, n, hd, hn, _, hwf2, htasks, _⟩ := dequeue_wf hwf none
      refine ⟨q1, as, ?_, ?_, ?_⟩
      · simp [QRun.step, hq, hd, hn]
      · simpa [QRun.step, hq, hd, hn] using hwf2
      · have hcons : tasksAt r.heap (a :: as) = (n.func, n.arg) :: tasksAt r.heap as := by
          simp [tasksAt, hn]
        simp [QRun.step, hq, hd, hn, htasks, accepted, hcons]

theorem accepted_cons (op : QOp) (ops : List QOp) :
    accepted (op :: ops) = accepted [op] ++ accepted ops := by
  cases op with
  | enq f a nt => cases nt <;> simp [accepted]
  | deq => simp [accepted]

theorem run_fifo : ∀ (ops : List QOp) (r : QRun) (q : queue_t) (as : List Nat),
    r.q = some q → queue_wf r.heap q as → r.allocOk ops →
    ∃ q1 as1, (r.run ops).q = some q1 ∧ queue_wf (r.run ops).heap q1 as1 ∧
      (r.run ops).out ++ tasksAt (r.run ops).heap as1 =
        r.out ++ tasksAt r.heap as ++ accepted ops
  | [], r, q, as, hq, hwf, _ => ⟨q, as, hq, hwf, by simp [QRun.run, accepted]⟩
  | op :: ops, r, q, as, hq, hwf, hok => by
    obtain ⟨q1, as1, hq1, hwf1, hout1⟩ := step_fifo r q as hq hwf op ⟨hok.1, trivial⟩
    obtain ⟨q2, as2, hq2, hwf2, hout2⟩ := run_fifo ops (r.step op) q1 as1 hq1 hwf1 hok.2
    refine ⟨q2, as2, hq2, hwf2, ?_⟩
    rw [QRun.run, hout2, hout1, accepted_cons op ops]
    simp

/-- C3. FIFO: after any sequence of `enqueue` and `dequeue` calls on a
freshly initialised queue, the pairs that came out of `dequeue`, followed by the
pairs still linked in the queue, are exactly the accepted `(func, arg)` pairs in
the order of their `enqueue` calls; a further `enqueue` appends its pair at the
tail, and a further `dequeue` fails on an empty queue and otherwise hands out
the node of the head pair and leaves the rest. -/
theorem queue_fifo (h0 : Heap) (ops : List QOp) (hok : (QRun.init h0).allocOk ops) :
    ((QRun.init h0).run ops).out
        ++ queueTasks ((QRun.init h0).run ops).heap ((QRun.init h0).run ops).q = accepted ops ∧
    (∀ f a t, ((QRun.init h0).run ops).heap t = none →
      (enqueue ((QRun.init h0).run ops).heap ((QRun.init h0).run ops).q f a (some t)).2.2 = 0 ∧
      queueTasks (enqueue ((QRun.init h0).run ops).heap ((QRun.init h0).run ops).q f a (some t)).1
          (enqueue ((QRun.init h0).run ops).heap ((QRun.init h0).run ops).q f a (some t)).2.1
        = queueTasks ((QRun.init h0).run ops).heap ((QRun.init h0).run ops).q ++ [(f, a)]) ∧
    (∀ v, match queueTasks ((QRun.init h0).run ops).heap ((QRun.init h0).run ops).q with
      | [] => dequeue ((QRun.init h0).run ops).heap ((QRun.init h0).run ops).q (some v)
                = (((QRun.init h0).run ops).q, some v, -1)
      | x :: xs => ∃ t n,
          (dequeue ((QRun.init h0).run ops).heap ((QRun.init h0).run ops).q (some v)).2
            = (some (some t), 0) ∧
          ((QRun.init h0).run ops).heap t = some n ∧ (n.func, n.arg) = x ∧
          queueTasks ((QRun.init h0).run ops).heap
            (dequeue ((QRun.init h0).run ops).heap ((QRun.init h0).run ops).q (some v)).1 = xs) := by
  obtain ⟨hq0, hwf0⟩ := queue_wf_init h0
  obtain ⟨q, as, hq, hwf, hout⟩ := run_fifo ops (QRun.init h0) _ [] hq0 hwf0 hok
  generalize (QRun.init h0).run ops = r at hq hwf hout ⊢
  have hout0 : r.out ++ tasksAt r.heap as = accepted ops := by
    simpa [QRun.init, tasksAt] using hout
  rw [hq, queueTasks_wf hwf]
  refine ⟨hout0, ?_, ?_⟩
  · intro f a t ht
    obtain ⟨h1, q1, he, hwf1, htasks, _⟩ := enqueue_wf hwf f a t ht
    rw [he]
    exact ⟨rfl, by rw [queueTasks_wf hwf1, htasks]⟩
  · intro v
    cases as with
    | nil =>
      simp only [tasksAt, List.filterMap_nil]
      exact dequeue_empty hwf v
    | cons a as =>
      obtain ⟨q1, n, hd, hn, hwf1, _, _, _⟩ := dequeue_wf hwf v
      have ht : tasksAt r.heap (a :: as) = (n.func, n.arg) :: tasksAt r.heap as := by
        simp [tasksAt, hn]
      rw [ht]
      exact ⟨a, n, by rw [hd], hn, rfl, by rw [hd]; exact queueTasks_wf hwf1⟩

theorem fifoOps_allocOk : (QRun.init Heap.empty).allocOk fifoOps := by
  simp [fifoOps, QRun.allocOk, QRun.step, QRun.init, queueInit, enqueue, dequeue, Heap.empty,
    Heap.store, Heap.setNext, Heap.free, Heap.next]

/-- The run `fifoOps` hands out its three tasks in the order of their arrival,
one of them through a reused address. -/
theorem queue_fifo_witness :
    (QRun.init Heap.empty).allocOk fifoOps ∧
    ((QRun.init Heap.empty).run fifoOps).out = [(7, 1), (8, 2), (9, 3)] ∧
    ((QRun.init Heap.empty).run fifoOps).out
        ++ queueTasks ((QRun.init Heap.empty).run fifoOps).heap ((QRun.init Heap.empty).run fifoOps).q
      = accepted fifoOps :=
  ⟨fifoOps_allocOk, by decide, (queue_fifo Heap.empty fifoOps fifoOps_allocOk).1⟩

/-! ## Invariants of the pool -/

theorem countP_set_int {α : Type} (p : α → Bool) : ∀ (l : List α) (k : Nat) (w0 w : α),
    l.get? k = some w0 →
    (((l.set k w).countP p : Nat) : Int)
      = ((l.countP p : Nat) : Int) - (if p w0 = true then 1 else 0) + (if p w = true then 1 else 0)
  | [], k, w0, w, h => by simp at h
  | x :: l, 0, w0, w, h => by
    have hx : x = w0 := by simpa using h
    subst hx
    simp only [List.set_cons_zero, List.countP_cons]
    push_cast
    ring
  | x :: l, k + 1, w0, w, h => by
    have h' : l.get? k = some w0 := by simpa using h
    have ih := countP_set_int p l k w0 w h'
    simp only [List.set_cons_succ, List.countP_cons]
    push_cast
    rw [ih]
    ring

theorem busy_le_live (ws : List Worker) : ws.countP Worker.busy ≤ ws.countP Worker.live := by
  apply List.countP_mono_left
  intro w _ hw
  simp only [Worker.busy, beq_iff_eq] at hw
  simp [Worker.live, hw]

theorem countInv_worker (s : Sys) (k : Nat) (h : CountInv s) : CountInv (workerThread s k) := by
  obtain ⟨hb, hl, hle, hlen⟩ := h
  cases hw : s.workers.get? k with
  | none =>
    simp only [workerThread, hw]
    exact ⟨hb, hl, hle, hlen⟩
  | some w =>
    have hbs := fun w1 => countP_set_int Worker.busy s.workers k w w1 hw
    have hls := fun w1 => countP_set_int Worker.live s.workers k w w1 hw
    cases hpc : w.pc with
    | atLock =>
      simp only [workerThread, hw, hpc, workerTest]
      split_ifs <;> constructor <;>
        simp only [setWorker, hbs, hls, Worker.busy, Worker.live, hpc] <;> (try simp) <;> omega
    | waiting =>
      simp only [workerThread, hw, hpc, workerWake, workerTest]
      split_ifs <;> constructor <;>
        simp only [setWorker, hbs, hls, Worker.busy, Worker.live, hpc] <;> (try simp) <;> omega
    | dequeued =>
      simp only [workerThread, hw, hpc]
      constructor <;>
        simp only [setWorker, hbs, hls, Worker.busy, Worker.live, hpc] <;> (try simp) <;> omega
    | executing =>
      simp only [workerThread, hw, hpc]
      constructor <;>
        simp only [setWorker, hbs, hls, Worker.busy, Worker.live, hpc] <;> (try simp) <;> omega
    | stopped =>
      simp only [workerThread, hw, hpc]
      exact ⟨hb, hl, hle, hlen⟩

theorem countInv_spawn (s : Sys) (i : Nat) (h : CountInv s)
    (hlt : s.pool.aliveThrs < s.pool.maxThrs) : CountInv (spawnWorker s i) := by
  obtain ⟨hb, hl, _, hlen⟩ := h
  constructor
  · simp [spawnWorker, hb, List.countP_append, Worker.busy]
  · simp [spawnWorker, hl, List.countP_append, Worker.live]
  · simp only [spawnWorker]; omega
  · simp [spawnWorker, hlen]

/-- What `spawnWorker` leaves alone. -/
theorem spawn_frame (s : Sys) (i : Nat) :
    (spawnWorker s i).heap = s.heap ∧ (spawnWorker s i).admin = s.admin ∧
    (spawnWorker s i).pool.taskQueue = s.pool.taskQueue ∧
    (spawnWorker s i).pool.maxTasks = s.pool.maxTasks ∧
    (spawnWorker s i).pool.maxThrs = s.pool.maxThrs ∧
    (spawnWorker s i).pool.minThrs = s.pool.minThrs ∧
    (spawnWorker s i).pool.busyThrs = s.pool.busyThrs ∧
    (spawnWorker s i).pool.exitThrs = s.pool.exitThrs ∧
    (spawnWorker s i).pool.shutdown = s.pool.shutdown :=
  ⟨rfl, rfl, rfl, rfl, rfl, rfl, rfl, rfl, rfl⟩

theorem countInv_scaleUpLoop (ok : Nat → Bool) : ∀ (fuel i : Nat) (add : Int) (s : Sys),
    CountInv s → CountInv (scaleUpLoop ok fuel i add s)
  | 0, _, _, _, h => h
  | fuel + 1, i, add, s, h => by
    simp only [scaleUpLoop]
    split_ifs with hc h0 hs
    · exact countInv_scaleUpLoop ok fuel (i + 1) (add + 1) _ (countInv_spawn s i h hc.2.2)
    · exact countInv_scaleUpLoop ok fuel (i + 1) add s h
    · exact countInv_scaleUpLoop ok fuel (i + 1) add s h
    · exact h

/-- What the scale-up loop leaves alone. -/
theorem scaleUpLoop_frame (ok : Nat → Bool) : ∀ (fuel i : Nat) (add : Int) (s : Sys),
    (scaleUpLoop ok fuel i add s).heap = s.heap ∧
    (scaleUpLoop ok fuel i add s).admin = s.admin ∧
    (scaleUpLoop ok fuel i add s).pool.taskQueue = s.pool.taskQueue ∧
    (scaleUpLoop ok fuel i add s).pool.maxTasks = s.pool.maxTasks ∧
    (scaleUpLoop ok fuel i add s).pool.maxThrs = s.pool.maxThrs ∧
    (scaleUpLoop ok fuel i add s).pool.minThrs = s.pool.minThrs ∧
    (scaleUpLoop ok fuel i add s).pool.busyThrs = s.pool.busyThrs ∧
    (scaleUpLoop ok fuel i add s).pool.exitThrs = s.pool.exitThrs ∧
    (scaleUpLoop ok fuel i add s).pool.shutdown = s.pool.shutdown
  | 0, _, _, _ => ⟨rfl, rfl, rfl, rfl, rfl, rfl, rfl, rfl, rfl⟩
  | fuel + 1, i, add, s => by
    simp only [scaleUpLoop]
    split_ifs with hc h0 hs
    · exact scaleUpLoop_frame ok fuel (i + 1) (add + 1) (spawnWorker s i)
    · exact scaleUpLoop_frame ok fuel (i + 1) add s
    · exact scaleUpLoop_frame ok fuel (i + 1) add s
    · exact ⟨rfl, rfl, rfl, rfl, rfl, rfl, rfl, rfl, rfl⟩

/-- Scale-down writes `exitThrs` and nothing else. -/
theorem adminScaleDown_frame (p : pool_t) (q b a : Int) :
    adminScaleDown p q b a = { p with exitThrs := (adminScaleDown p q b a).exitThrs } := by
  unfold adminScaleDown
  simp only []
  split_ifs <;> rfl

theorem countInv_admin (s : Sys) (ok : Nat → Bool) (h : CountInv s) :
    CountInv (adminThread s ok) := by
  cases hpc : s.admin with
  | loopTop =>
    simp only [adminThread, hpc]
    split_ifs <;> exact ⟨h.1, h.2, h.3, h.4⟩
  | sleeping =>
    simp only [adminThread, hpc]
    exact ⟨h.1, h.2, h.3, h.4⟩
  | sampled q b a =>
    simp only [adminThread, hpc]
    have h1 : CountInv (adminScaleUp s ok q b a) := by
      unfold adminScaleUp
      split_ifs
      · exact countInv_scaleUpLoop ok _ _ _ s h
      · exact h
    exact ⟨h1.1, h1.2, h1.3, h1.4⟩
  | afterUp q b a =>
    simp only [adminThread, hpc]
    rw [adminScaleDown_frame]
    exact ⟨h.1, h.2, h.3, h.4⟩
  | done =>
    simp only [adminThread, hpc]
    exact h

/-- The function `addTask` touches the heap and the queue only. -/
theorem addTask_frame (h : Heap) (p : pool_t) (f a : Nat) (nt : Option Nat) :
    ∃ q, (addTask h (some p) f a nt).2.1 = some { p with taskQueue := q } := by
  unfold addTask addTaskLocked
  simp only []
  split_ifs <;> exact ⟨_, rfl⟩

theorem countInv_step (s : Sys) (ev : Event) (h : CountInv s) : CountInv (step s ev) := by
  cases ev with
  | addTask f a nt =>
    simp only [step]
    split_ifs
    · obtain ⟨q, hq⟩ := addTask_frame s.heap s.pool f a nt
      split
      · rename_i h1 p1 r1 heq
        have : p1 = { s.pool with taskQueue := q } := by
          have := congrArg (fun x => x.2.1) heq
          simp only [hq] at this
          exact (Option.some.inj this).symm
        subst this
        exact ⟨h.1, h.2, h.3, h.4⟩
      · exact h
    · exact h
  | worker k => exact countInv_worker s k h
  | admin ok => exact countInv_admin s ok h
  | poolDestroy =>
    simp only [step, poolDestroy]
    split_ifs <;> exact ⟨h.1, h.2, h.3, h.4⟩

theorem countInv_exec (evs : List Event) : ∀ (s : Sys), CountInv s → CountInv (exec s evs) := by
  induction evs with
  | nil => intro s h; exact h
  | cons ev evs ih =>
    intro s h
    exact ih (step s ev) (countInv_step s ev h)

theorem initLoop_facts (M m T : Int) (ok : Nat → Bool) : ∀ n : Nat,
    InitFacts M m T ((List.range n).foldl
      (fun s i => if ok i = true then spawnWorker s i else s) (initState M m T)) ∧
    ((List.range n).foldl
      (fun s i => if ok i = true then spawnWorker s i else s) (initState M m T)).workers.length ≤ n ∧
    ((List.range n).foldl
      (fun s i => if ok i = true then spawnWorker s i else s) (initState M m T)).pool.workingThrs.length
        = M.toNat
  | 0 => by
    refine ⟨⟨rfl, rfl, rfl, rfl, rfl, rfl, rfl, rfl, rfl, ?_, rfl⟩, ?_, ?_⟩
    · intro w hw; simp [initState] at hw
    · simp [initState]
    · simp [initState]
  | n + 1 => by
    obtain ⟨hf, hlen, hsl⟩ := initLoop_facts M m T ok n
    rw [List.range_succ, List.foldl_append]
    simp only [List.foldl_cons, List.foldl_nil]
    generalize (List.range n).foldl
      (fun s i => if ok i = true then spawnWorker s i else s) (initState M m T) = s at hf hlen hsl
    split_ifs
    · refine ⟨⟨hf.1, hf.2, hf.3, hf.4, hf.5, hf.6, hf.7, hf.8, hf.9, ?_, ?_⟩, ?_, ?_⟩
      · intro w hw
        simp only [spawnWorker, List.mem_append, List.mem_singleton] at hw
        rcases hw with hw | hw
        · exact hf.fresh_workers w hw
        · exact hw
      · simp [spawnWorker, hf.alive_eq]
      · simp only [spawnWorker, List.length_append, List.length_singleton]; omega
      · simp [spawnWorker, hsl]
    · exact ⟨hf, by omega, hsl⟩

/-- A successful `poolInit` had valid arguments and leaves a pool whose
counters agree with its threads. -/
theorem poolInit_ok {pn : Bool} {M m T : Int} {env : InitEnv} {s0 : Sys}
    (h : poolInit pn M m T env = (some s0, 0)) :
    (0 < M ∧ 0 < m ∧ m ≤ M ∧ 0 < T) ∧ InitFacts M m T s0 ∧ CountInv s0 := by
  by_cases h1 : pn = false ∨ M ≤ 0 ∨ m ≤ 0 ∨ M < m ∨ T ≤ 0
  · simp [poolInit, h1] at h
  by_cases h2 : env.mallocPool = false
  · simp [poolInit, h1, h2] at h
  by_cases h3 : (queueInit env.mallocQueue env.queueMutex).2 ≠ 0
  · simp [poolInit, h1, h2, h3] at h
  by_cases h4 : env.callocThrs = false
  · simp [poolInit, h1, h2, h3, h4] at h
  by_cases h5 : env.syncInit = false
  · simp [poolInit, h1, h2, h3, h4, h5] at h
  by_cases h6 : env.adminOk = true
  swap
  · simp [poolInit, h1, h2, h3, h4, h5, h6] at h
  have hq : (queueInit env.mallocQueue env.queueMutex).1
      = some { front := none, rear := none, size := 0 } := by
    unfold queueInit at h3 ⊢
    split_ifs at h3 ⊢ <;> simp_all
  unfold poolInit at h
  simp only [if_neg h1, if_neg h2, if_neg h3, if_neg h4, if_neg h5, if_pos h6, hq] at h
  have hs : s0 = { (List.range m.toNat).foldl
      (fun s i => if env.spawnOk i = true then spawnWorker s i else s) (initState M m T) with
      pool := { ((List.range m.toNat).foldl
        (fun s i => if env.spawnOk i = true then spawnWorker s i else s)
          (initState M m T)).pool with adminTid := 1 } } := by
    have := congrArg Prod.fst h
    simp only [Option.some.injEq] at this
    exact this.symm
  obtain ⟨hf, hlen, hsl⟩ := initLoop_facts M m T env.spawnOk m.toNat
  generalize (List.range m.toNat).foldl
      (fun s i => if env.spawnOk i = true then spawnWorker s i else s) (initState M m T) = s at hf hlen hsl hs
  have hv : 0 < M ∧ 0 < m ∧ m ≤ M ∧ 0 < T := by
    simp only [not_or, not_le, not_lt] at h1
    exact ⟨h1.2.1, h1.2.2.1, h1.2.2.2.1, h1.2.2.2.2⟩
  subst hs
  refine ⟨hv, ⟨hf.1, hf.2, hf.3, hf.4, hf.5, hf.6, hf.7, hf.8, hf.9, hf.10, hf.11⟩, ?_⟩
  have hall : ∀ w ∈ s.workers, w = { pc := .atLock, task := none } := hf.fresh_workers
  have hbusy : s.workers.countP Worker.busy = 0 := by
    rw [List.countP_eq_zero]
    intro w hw
    rw [hall w hw]
    simp [Worker.busy]
  have hlive : s.workers.countP Worker.live = s.workers.length := by
    rw [List.countP_eq_length]
    intro w hw
    rw [hall w hw]
    simp [Worker.live]
  refine ⟨?_, ?_, ?_, ?_⟩
  · simp [hf.busy_zero, hbusy]
  · simp [hf.alive_eq, hlive]
  · have h1 := hf.alive_eq
    have h2 := hf.maxThrs_eq
    simp only [h1, h2]
    omega
  · simp [hsl, hf.maxThrs_eq]

theorem demoStart_init : poolInit true 2 1 5 InitEnv.ok = (some demoStart, 0) := rfl

/-- The bounds of the pool never change. -/
theorem step_const (s : Sys) (ev : Event) : SameBounds s.pool (step s ev).pool := by
  cases ev with
  | addTask f a nt =>
    simp only [step]
    split_ifs
    · obtain ⟨q, hq⟩ := addTask_frame s.heap s.pool f a nt
      split
      · rename_i h1 p1 r1 heq
        have : p1 = { s.pool with taskQueue := q } := by
          have := congrArg (fun x => x.2.1) heq
          simp only [hq] at this
          exact (Option.some.inj this).symm
        subst this
        exact ⟨rfl, rfl, rfl⟩
      · exact ⟨rfl, rfl, rfl⟩
    · exact ⟨rfl, rfl, rfl⟩
  | worker k =>
    cases hw : s.workers.get? k with
    | none => simp only [step, workerThread, hw]; exact ⟨rfl, rfl, rfl⟩
    | some w =>
      cases hpc : w.pc <;> simp only [step, workerThread, hw, hpc, workerWake, workerTest] <;>
        (try split_ifs) <;> exact ⟨rfl, rfl, rfl⟩
  | admin ok =>
    cases hpc : s.admin with
    | loopTop => simp only [step, adminThread, hpc]; split_ifs <;> exact ⟨rfl, rfl, rfl⟩
    | sleeping => simp only [step, adminThread, hpc]; exact ⟨rfl, rfl, rfl⟩
    | sampled q b a =>
      simp only [step, adminThread, hpc, adminScaleUp]
      split_ifs
      · have h := scaleUpLoop_frame ok s.pool.maxThrs.toNat 0 0 s
        exact ⟨h.2.2.2.2.1, h.2.2.2.2.2.1, h.2.2.2.1⟩
      · exact ⟨rfl, rfl, rfl⟩
    | afterUp q b a =>
      simp only [step, adminThread, hpc]
      rw [adminScaleDown_frame]
      exact ⟨rfl, rfl, rfl⟩
    | done => simp only [step, adminThread, hpc]; exact ⟨rfl, rfl, rfl⟩
  | poolDestroy =>
    simp only [step, poolDestroy]
    split_ifs <;> exact ⟨rfl, rfl, rfl⟩

theorem exec_const (evs : List Event) : ∀ (s : Sys),
    (exec s evs).pool.maxThrs = s.pool.maxThrs ∧ (exec s evs).pool.minThrs = s.pool.minThrs ∧
    (exec s evs).pool.maxTasks = s.pool.maxTasks := by
  induction evs with
  | nil => intro s; exact ⟨rfl, rfl, rfl⟩
  | cons ev evs ih =>
    intro s
    obtain ⟨h1, h2, h3⟩ := ih (step s ev)
    obtain ⟨g1, g2, g3⟩ := step_const s ev
    exact ⟨h1.trans g1, h2.trans g2, h3.trans g3⟩

theorem queueSize_enqueue (h : Heap) (q : Option queue_t) (f a : Nat) (nt : Option Nat) :
    queueSize (enqueue h q f a nt).2.1 ≤ queueSize q + 1 := by
  unfold enqueue
  cases q with
  | none => simp [queueSize]
  | some q =>
    cases nt with
    | none => simp [queueSize]
    | some t =>
      cases hr : q.rear <;> simp [queueSize, hr]

theorem queueSize_dequeue (h : Heap) (q : Option queue_t) (v : Option (Option Nat)) :
    queueSize (dequeue h q v).1 ≤ queueSize q := by
  unfold dequeue
  cases q with
  | none => simp [queueSize]
  | some q =>
    cases v with
    | none => simp [queueSize]
    | some v =>
      cases hf : q.front with
      | none => simp [queueSize, hf]
      | some f =>
        cases hn : h.next f <;> simp [queueSize, hf, hn]

/-- A blocked or failed `addTaskLocked` changes nothing; a successful one found
the queue below `maxTasks` and adds at most one task. -/
theorem addTaskLocked_bound (h : Heap) (p : pool_t) (f a : Nat) (nt : Option Nat) :
    (queueSize p.taskQueue ≥ p.maxTasks →
      (addTaskLocked h p f a nt).1 = h ∧ (addTaskLocked h p f a nt).2.1 = p ∧
      (addTaskLocked h p f a nt).2.2 = (if p.shutdown = true then .ret (-1) else .blocked)) ∧
    ((addTaskLocked h p f a nt).2.1 ≠ p ∨ (addTaskLocked h p f a nt).1 ≠ h ∨
        (addTaskLocked h p f a nt).2.2 = .ret 0 →
      queueSize p.taskQueue < p.maxTasks) ∧
    (queueSize p.taskQueue ≤ p.maxTasks →
      queueSize (addTaskLocked h p f a nt).2.1.taskQueue ≤ p.maxTasks) ∧
    (addTaskLocked h p f a nt).2.1.maxTasks = p.maxTasks := by
  have he := queueSize_enqueue h p.taskQueue f a nt
  unfold addTaskLocked
  by_cases hsd : p.shutdown = true
  · have hne : ¬ (queueSize p.taskQueue ≥ p.maxTasks ∧ p.shutdown = false) := by simp [hsd]
    simp only [if_neg hne, if_pos hsd]
    simp
  · by_cases hfull : queueSize p.taskQueue ≥ p.maxTasks
    · have hc : queueSize p.taskQueue ≥ p.maxTasks ∧ p.shutdown = false := ⟨hfull, by simpa using hsd⟩
      simp only [if_pos hc, if_neg hsd]
      simp
    · have hne : ¬ (queueSize p.taskQueue ≥ p.maxTasks ∧ p.shutdown = false) := fun hc => hfull hc.1
      simp only [if_neg hne, if_neg hsd]
      have hlt : queueSize p.taskQueue < p.maxTasks := by omega
      refine ⟨fun hge => absurd hge hfull, fun _ => hlt, fun _ => ?_, ?_⟩
      · split_ifs <;> simp only [] <;> omega
      · split_ifs <;> rfl

theorem queueBound_step (s : Sys) (ev : Event) (h : QueueBound s) : QueueBound (step s ev) := by
  unfold QueueBound at h ⊢
  cases ev with
  | addTask f a nt =>
    simp only [step]
    split_ifs
    · by_cases hgo : f = 0 ∨ s.pool.shutdown = true
      · simp only [addTask, if_pos hgo]
        exact h
      · simp only [addTask, if_neg hgo]
        obtain ⟨_, _, h3, h4⟩ := addTaskLocked_bound s.heap s.pool f a nt
        simp only [h4]
        exact h3 h
    · exact h
  | worker k =>
    cases hw : s.workers.get? k with
    | none => simp only [step, workerThread, hw]; exact h
    | some w =>
      have hd := queueSize_dequeue s.heap s.pool.taskQueue (some w.task)
      cases hpc : w.pc <;> simp only [step, workerThread, hw, hpc, workerWake, workerTest] <;>
        (try split_ifs) <;> (try simp only [setWorker]) <;> omega
  | admin ok =>
    cases hpc : s.admin with
    | loopTop => simp only [step, adminThread, hpc]; split_ifs <;> exact h
    | sleeping => simp only [step, adminThread, hpc]; exact h
    | sampled q b a =>
      simp only [step, adminThread, hpc, adminScaleUp]
      split_ifs
      · have hfr := scaleUpLoop_frame ok s.pool.maxThrs.toNat 0 0 s
        rw [hfr.2.2.1, hfr.2.2.2.1]
        exact h
      · exact h
    | afterUp q b a =>
      simp only [step, adminThread, hpc]
      rw [adminScaleDown_frame]
      exact h
    | done => simp only [step, adminThread, hpc]; exact h
  | poolDestroy =>
    simp only [step, poolDestroy]
    split_ifs <;> exact h

theorem queueBound_exec (evs : List Event) : ∀ (s : Sys), QueueBound s → QueueBound (exec s evs) := by
  induction evs with
  | nil => intro s h; exact h
  | cons ev evs ih =>
    intro s h
    exact ih (step s ev) (queueBound_step s ev h)

theorem demoStart5_init : poolInit true 5 1 10 InitEnv.ok = (some demoStart5, 0) := rfl

theorem set_get?_self {α : Type} : ∀ (l : List α) (k : Nat) (w : α), l.get? k = some w →
    l.set k w = l
  | [], _, _, h => by simp at h
  | x :: l, 0, w, h => by
    have : x = w := by simpa using h
    simp [this]
  | x :: l, k + 1, w, h => by
    have h' : l.get? k = some w := by simpa using h
    simp [set_get?_self l k w h']

theorem getD_set_nat (l : List Nat) (i j v : Nat) :
    (l.set i v).getD j 0 = if i = j ∧ i < l.length then v else l.getD j 0 := by
  simp only [List.getD_eq_getElem?_getD, List.getElem?_set]
  by_cases hij : i = j
  · subst hij
    by_cases hlt : i < l.length
    · simp [hlt]
    · have hnone : l[i]? = none := List.getElem?_eq_none (by omega)
      simp [hlt, hnone]
  · simp [hij]

theorem countP_set_zero (l : List Nat) (i v : Nat) (hi : i < l.length) (h0 : l.getD i 0 = 0)
    (hv : v ≠ 0) :
    (l.set i v).countP (fun t => t != 0) = l.countP (fun t => t != 0) + 1 := by
  have hget : l.get? i = some 0 := by
    rw [List.getD_eq_getElem?_getD] at h0
    rw [List.get?_eq_getElem?, List.getElem?_eq_getElem hi] at *
    simpa using h0
  have h := countP_set_int (fun t => t != 0) l i 0 v hget
  simp [hv] at h
  omega

/-- What the loop of lines 217-225 does, from any index and any count. -/
theorem scaleUpLoop_spec (ok : Nat → Bool) : ∀ (fuel i : Nat) (add : Int) (s : Sys),
    s.pool.workingThrs.length = s.pool.maxThrs.toNat →
    ∃ n : Nat,
      (scaleUpLoop ok fuel i add s).workers
        = s.workers ++ List.replicate n { pc := .atLock, task := none } ∧
      (scaleUpLoop ok fuel i add s).pool.aliveThrs = s.pool.aliveThrs + n ∧
      (add ≤ 5 → add + n ≤ 5) ∧
      (s.pool.aliveThrs ≤ s.pool.maxThrs →
        (scaleUpLoop ok fuel i add s).pool.aliveThrs ≤ s.pool.maxThrs) ∧
      (scaleUpLoop ok fuel i add s).pool.workingThrs.countP (fun t => t != 0)
        = s.pool.workingThrs.countP (fun t => t != 0) + n ∧
      (scaleUpLoop ok fuel i add s).pool.workingThrs.length = s.pool.workingThrs.length ∧
      (∀ j, (scaleUpLoop ok fuel i add s).pool.workingThrs.getD j 0 ≠ s.pool.workingThrs.getD j 0 →
        i ≤ j ∧ s.pool.workingThrs.getD j 0 = 0 ∧ ok j = true ∧
        (scaleUpLoop ok fuel i add s).pool.workingThrs.getD j 0 ≠ 0)
  | 0, i, add, s, _ => ⟨0, by simp [scaleUpLoop], by simp [scaleUpLoop], by simp,
      by simp [scaleUpLoop], by simp [scaleUpLoop], by simp [scaleUpLoop],
      by simp [scaleUpLoop]⟩
  | fuel + 1, i, add, s, hlen => by
    simp only [scaleUpLoop]
    split_ifs with hc h0 hs
    · have hi : i < s.pool.workingThrs.length := by
        rw [hlen]; have := hc.1; omega
      have hlen1 : (spawnWorker s i).pool.workingThrs.length
          = (spawnWorker s i).pool.maxThrs.toNat := by
        simp [spawnWorker, hlen]
      obtain ⟨n, hw, ha, hadd, hmax, hcnt, hl, hch⟩ :=
        scaleUpLoop_spec ok fuel (i + 1) (add + 1) (spawnWorker s i) hlen1
      have hslot : ∀ j, (spawnWorker s i).pool.workingThrs.getD j 0
          = if i = j ∧ i < s.pool.workingThrs.length then s.workers.length + 2
            else s.pool.workingThrs.getD j 0 := by
        intro j
        simp only [spawnWorker]
        exact getD_set_nat _ _ _ _
      refine ⟨n + 1, ?_, ?_, ?_, ?_, ?_, ?_, ?_⟩
      · rw [hw]
        simp [spawnWorker, List.replicate_succ]
      · rw [ha]
        simp only [spawnWorker]
        push_cast
        ring
      · intro _
        have := hadd (by have := hc.2.1; omega)
        push_cast
        omega
      · intro _
        exact hmax (by simp only [spawnWorker]; have := hc.2.2; omega)
      · rw [hcnt]
        simp only [spawnWorker]
        rw [countP_set_zero _ _ _ hi h0 (by omega)]
        omega
      · rw [hl]
        simp [spawnWorker]
      · intro j hj
        by_cases hne : (scaleUpLoop ok fuel (i + 1) (add + 1) (spawnWorker s i)).pool.workingThrs.getD j 0
            = (spawnWorker s i).pool.workingThrs.getD j 0
        · rw [hne] at hj ⊢
          rw [hslot j] at hj ⊢
          by_cases hij : i = j ∧ i < s.pool.workingThrs.length
          · rw [if_pos hij]
            obtain ⟨rfl, _⟩ := hij
            exact ⟨le_refl _, h0, hs, by omega⟩
          · rw [if_neg hij] at hj
            exact absurd rfl hj
        · obtain ⟨h1, h2, h3, h4⟩ := hch j hne
          have hij : ¬ (i = j ∧ i < s.pool.workingThrs.length) := fun h => by omega
          rw [hslot j, if_neg hij] at h2
          exact ⟨by omega, h2, h3, h4⟩
    · obtain ⟨n, hw, ha, hadd, hmax, hcnt, hl, hch⟩ :=
        scaleUpLoop_spec ok fuel (i + 1) add s hlen
      exact ⟨n, hw, ha, hadd, hmax, hcnt, hl, fun j hj =>
        ⟨by have := (hch j hj).1; omega, (hch j hj).2⟩⟩
    · obtain ⟨n, hw, ha, hadd, hmax, hcnt, hl, hch⟩ :=
        scaleUpLoop_spec ok fuel (i + 1) add s hlen
      exact ⟨n, hw, ha, hadd, hmax, hcnt, hl, fun j hj =>
        ⟨by have := (hch j hj).1; omega, (hch j hj).2⟩⟩
    · exact ⟨0, by simp, by simp, by simp, by simp, by simp, by simp, by simp⟩

/-- The bound on the iterations of `scaleUpLoop` never ends the loop: from
index `i`, any bound of at least `maxThrs - i` gives the same result. -/
theorem scaleUpLoop_fuel (ok : Nat → Bool) (k : Nat) : ∀ (fuel i : Nat) (add : Int) (s : Sys),
    s.pool.maxThrs.toNat ≤ i + fuel →
    scaleUpLoop ok (fuel + k) i add s = scaleUpLoop ok fuel i add s
  | 0, i, add, s, h => by
    cases k with
    | zero => rfl
    | succ k =>
      have hc : ¬ ((i : Int) < s.pool.maxThrs ∧ add < 5 ∧ s.pool.aliveThrs < s.pool.maxThrs) := by
        intro hc
        have := hc.1
        omega
      simp only [Nat.zero_add, scaleUpLoop, if_neg hc]
  | fuel + 1, i, add, s, h => by
    have e : fuel + 1 + k = (fuel + k) + 1 := by omega
    rw [e]
    simp only [scaleUpLoop]
    split_ifs with hc h0 hs
    · exact scaleUpLoop_fuel ok k fuel (i + 1) (add + 1) (spawnWorker s i)
        (by simp only [spawnWorker]; omega)
    · exact scaleUpLoop_fuel ok k fuel (i + 1) add s (by omega)
    · exact scaleUpLoop_fuel ok k fuel (i + 1) add s (by omega)
    · rfl

theorem heldTasks_cons (x : Worker) (l : List Worker) :
    heldTasks (x :: l) = x.held.toList ++ heldTasks l := by
  unfold heldTasks
  cases hx : x.held with
  | none => rw [List.filterMap_cons_none hx]; rfl
  | some t => rw [List.filterMap_cons_some hx]; rfl

/-- Replacing one worker exchanges what it owns. -/
theorem heldTasks_set : ∀ (l : List Worker) (k : Nat) (w w1 : Worker), l.get? k = some w →
    (w.held.toList ++ heldTasks (l.set k w1)).Perm (w1.held.toList ++ heldTasks l)
  | [], _, _, _, h => by simp at h
  | x :: l, 0, w, w1, h => by
    have hx : x = w := by simpa using h
    subst hx
    rw [List.set_cons_zero, heldTasks_cons, heldTasks_cons, ← List.append_assoc,
      ← List.append_assoc]
    exact List.Perm.append_right _ List.perm_append_comm
  | x :: l, k + 1, w, w1, h => by
    have h1 : l.get? k = some w := by simpa using h
    have ih := heldTasks_set l k w w1 h1
    rw [List.set_cons_succ, heldTasks_cons, heldTasks_cons]
    calc w.held.toList ++ (x.held.toList ++ heldTasks (l.set k w1))
        = (w.held.toList ++ x.held.toList) ++ heldTasks (l.set k w1) := by
          rw [List.append_assoc]
      _ |>.Perm ((x.held.toList ++ w.held.toList) ++ heldTasks (l.set k w1)) :=
          List.Perm.append_right _ List.perm_append_comm
      _ = x.held.toList ++ (w.held.toList ++ heldTasks (l.set k w1)) := by
          rw [List.append_assoc]
      _ |>.Perm (x.held.toList ++ (w1.held.toList ++ heldTasks l)) :=
          List.Perm.append_left _ ih
      _ = (x.held.toList ++ w1.held.toList) ++ heldTasks l := by
          rw [List.append_assoc]
      _ |>.Perm ((w1.held.toList ++ x.held.toList) ++ heldTasks l) :=
          List.Perm.append_right _ List.perm_append_comm
      _ = w1.held.toList ++ (x.held.toList ++ heldTasks l) := by
          rw [List.append_assoc]

theorem queue_wf_congr {h h1 : Heap} {q : queue_t} {as : List Nat}
    (heq : ∀ a ∈ as, h1 a = h a) (hwf : queue_wf h q as) : queue_wf h1 q as :=
  ⟨chain_congr heq hwf.1, hwf.2.1, hwf.2.2.1, hwf.2.2.2⟩

/-- A step that keeps heap and queue and permutes what the workers own keeps
the ownership invariant. -/
theorem queueInv_of_perm {s s1 : Sys} {q : queue_t} {as : List Nat} (h : QueueInv s q as)
    (hheap : s1.heap = s.heap) (hq : s1.pool.taskQueue = s.pool.taskQueue)
    (hperm : (heldTasks s1.workers).Perm (heldTasks s.workers))
    (htask : ∀ w ∈ s1.workers, w.pc = .dequeued ∨ w.pc = .executing → w.task ≠ none) :
    QueueInv s1 q as := by
  obtain ⟨h1, h2, h3, h4, _⟩ := h
  refine ⟨hq.trans h1, hheap ▸ h2, ?_, ?_, htask⟩
  · exact (List.Perm.nodup_iff (List.Perm.append_left as hperm)).2 h3
  · intro t ht
    rw [hheap]
    exact h4 t (hperm.mem_iff.1 ht)

theorem mem_set_cases {l : List Worker} {k : Nat} {w1 w : Worker} (h : w ∈ l.set k w1) :
    w ∈ l ∨ w = w1 :=
  List.mem_or_eq_of_mem_set h

/-- Replacing a worker by one that owns the same node keeps the invariant. -/
theorem queueInv_set_same {s s1 : Sys} {q : queue_t} {as : List Nat} {k : Nat} {w w1 : Worker}
    (h : QueueInv s q as) (hw : s.workers.get? k = some w)
    (hheap : s1.heap = s.heap) (hq : s1.pool.taskQueue = s.pool.taskQueue)
    (hws : s1.workers = s.workers.set k w1) (hheld : w1.held = w.held)
    (htask : w1.pc = .dequeued ∨ w1.pc = .executing → w1.task ≠ none) :
    QueueInv s1 q as := by
  apply queueInv_of_perm h hheap hq
  · rw [hws]
    have hp := heldTasks_set s.workers k w w1 hw
    rw [hheld] at hp
    exact (List.perm_append_left_iff _).1 hp
  · intro x hx
    rw [hws] at hx
    rcases mem_set_cases hx with hx | hx
    · exact h.2.2.2.2 x hx
    · rw [hx]; exact htask

theorem queueInv_workerTest {s : Sys} {q : queue_t} {as : List Nat} {k : Nat} {w : Worker}
    (h : QueueInv s q as) (hw : s.workers.get? k = some w) (hheld : w.held = none) :
    ∃ q1 as1, QueueInv (workerTest s k w) q1 as1 ∧ (as1 = as ∨ as1 = as.tail) := by
  unfold workerTest
  split_ifs with h1 h2
  · exact ⟨q, as, queueInv_set_same h hw rfl rfl rfl (by rw [hheld]; simp [Worker.held])
      (by simp), Or.inl rfl⟩
  · exact ⟨q, as, queueInv_set_same h hw rfl rfl rfl (by rw [hheld]; simp [Worker.held])
      (by simp), Or.inl rfl⟩
  · obtain ⟨hq, hwf, hnd, halloc, htask⟩ := h
    have hsz : queueSize s.pool.taskQueue ≠ 0 := by
      intro h0
      apply h1
      exact ⟨h0, by simpa using h2⟩
    cases as with
    | nil =>
      exfalso
      apply hsz
      rw [hq]
      simp only [queueSize]
      exact hwf.2.2.2
    | cons a rest =>
      obtain ⟨q1, n, hd, hn, hwf1, _, _, _⟩ := dequeue_wf hwf w.task
      rw [hq, hd]
      refine ⟨q1, rest, ⟨rfl, hwf1, ?_, ?_, ?_⟩, Or.inr rfl⟩
      · have hp := heldTasks_set s.workers k w { pc := .dequeued, task := some a } hw
        rw [hheld] at hp
        simp only [Worker.held, Option.toList, List.nil_append, List.singleton_append] at hp
        simp only [setWorker]
        have hp2 : (rest ++ heldTasks (s.workers.set k { pc := .dequeued, task := some a })).Perm
            ((a :: rest) ++ heldTasks s.workers) := by
          calc rest ++ heldTasks (s.workers.set k { pc := .dequeued, task := some a })
              |>.Perm (rest ++ (a :: heldTasks s.workers)) := List.Perm.append_left _ hp
            _ |>.Perm (a :: (rest ++ heldTasks s.workers)) := List.perm_middle
            _ = (a :: rest) ++ heldTasks s.workers := rfl
        exact (List.Perm.nodup_iff hp2).2 hnd
      · intro t ht
        have hp := heldTasks_set s.workers k w { pc := .dequeued, task := some a } hw
        rw [hheld] at hp
        simp only [Worker.held, Option.toList, List.nil_append, List.singleton_append] at hp
        simp only [setWorker] at ht ⊢
        rcases List.mem_cons.1 (hp.mem_iff.1 ht) with rfl | hmem
        · simp [hn]
        · exact halloc t hmem
      · intro x hx
        simp only [setWorker] at hx
        rcases mem_set_cases hx with hx | hx
        · exact htask x hx
        · rw [hx]; simp

/-- A worker step keeps the ownership invariant; the queue keeps its nodes or
loses its head. -/
theorem queueInv_worker {s : Sys} {q : queue_t} {as : List Nat} (k : Nat)
    (h : QueueInv s q as) :
    ∃ q1 as1, QueueInv (workerThread s k) q1 as1 ∧ (as1 = as ∨ as1 = as.tail) := by
  cases hw : s.workers.get? k with
  | none =>
    simp only [workerThread, hw]
    exact ⟨q, as, h, Or.inl rfl⟩
  | some w =>
    have hmem : w ∈ s.workers := List.get?_mem hw
    cases hpc : w.pc with
    | atLock =>
      simp only [workerThread, hw, hpc]
      exact queueInv_workerTest h hw (by simp [Worker.held, hpc])
    | waiting =>
      simp only [workerThread, hw, hpc, workerWake]
      split_ifs
      · exact ⟨q, as, queueInv_set_same h hw rfl rfl rfl (by simp [Worker.held, hpc])
          (by simp), Or.inl rfl⟩
      · exact queueInv_workerTest h hw (by simp [Worker.held, hpc])
    | dequeued =>
      simp only [workerThread, hw, hpc]
      have ht := h.2.2.2.2 w hmem (Or.inl hpc)
      exact ⟨q, as, queueInv_set_same h hw rfl rfl rfl (by simp [Worker.held, hpc])
        (fun _ => ht), Or.inl rfl⟩
    | executing =>
      obtain ⟨hq, hwf, hnd, halloc, htask⟩ := h
      obtain ⟨t, hwt⟩ := Option.ne_none_iff_exists'.1 (htask w hmem (Or.inr hpc))
      simp only [workerThread, hw, hpc, hwt, setWorker]
      have hp := heldTasks_set s.workers k w { pc := .atLock, task := some t } hw
      have hw1 : ({ pc := .atLock, task := some t } : Worker).held = none := by simp [Worker.held]
      have htk : w.held = some t := by simp [Worker.held, hpc, hwt]
      rw [hw1, htk] at hp
      simp only [Option.toList, List.nil_append, List.singleton_append] at hp
      have htask1 : ∀ x ∈ s.workers.set k { pc := .atLock, task := some t },
          x.pc = .dequeued ∨ x.pc = .executing → x.task ≠ none := by
        intro x hx
        rcases mem_set_cases hx with hx | hx
        · exact htask x hx
        · rw [hx]; simp
      have hnd1 : (as ++ (t :: heldTasks (s.workers.set k { pc := .atLock, task := some t }))).Nodup :=
        (List.Perm.nodup_iff (List.Perm.append_left as hp)).2 hnd
      have hnd2 : (t :: (as ++ heldTasks (s.workers.set k { pc := .atLock, task := some t }))).Nodup :=
        (List.Perm.nodup_iff List.perm_middle).1 hnd1
      obtain ⟨hnot, hnd3⟩ := List.nodup_cons.1 hnd2
      have hfree : ∀ x, x ≠ t → (s.heap.free t) x = s.heap x := by
        intro x hx
        simp [Heap.free, hx]
      refine ⟨q, as, ⟨hq, ?_, hnd3, ?_, htask1⟩, Or.inl rfl⟩
      · apply queue_wf_congr _ hwf
        intro a ha
        exact hfree a (fun e => hnot (List.mem_append_left _ (e ▸ ha)))
      · intro x hx
        have hxt : x ≠ t := fun e => hnot (List.mem_append_right _ (e ▸ hx))
        show (s.heap.free t) x ≠ none
        rw [hfree x hxt]
        exact halloc x (hp.mem_iff.1 (List.mem_cons_of_mem _ hx))
    | stopped =>
      simp only [workerThread, hw, hpc]
      exact ⟨q, as, h, Or.inl rfl⟩

/-- The step of `addTask` in terms of its critical section. -/
theorem step_addTask (s : Sys) (f a : Nat) (nt : Option Nat) :
    step s (.addTask f a nt) =
      if freshFor s.heap nt = true ∧ ¬ (f = 0 ∨ s.pool.shutdown = true) then
        { s with
          heap := (addTaskLocked s.heap s.pool f a nt).1
          pool := (addTaskLocked s.heap s.pool f a nt).2.1 }
      else s := by
  simp only [step]
  by_cases hf : freshFor s.heap nt = true
  · by_cases hg : f = 0 ∨ s.pool.shutdown = true
    · have hc : ¬ (freshFor s.heap nt = true ∧ ¬ (f = 0 ∨ s.pool.shutdown = true)) :=
        fun h => h.2 hg
      simp only [if_pos hf, if_neg hc, addTask, if_pos hg]
    · have hc : freshFor s.heap nt = true ∧ ¬ (f = 0 ∨ s.pool.shutdown = true) := ⟨hf, hg⟩
      simp only [if_pos hf, if_pos hc, addTask, if_neg hg]
  · have hc : ¬ (freshFor s.heap nt = true ∧ ¬ (f = 0 ∨ s.pool.shutdown = true)) :=
      fun h => hf h.1
    simp only [if_neg hf, if_neg hc]

/-- A call of `addTask` keeps the ownership invariant; the queue keeps its
nodes or gains one at the tail. -/
theorem queueInv_addTask {s : Sys} {q : queue_t} {as : List Nat} (f a : Nat) (nt : Option Nat)
    (h : QueueInv s q as) :
    ∃ q1 as1, QueueInv (step s (.addTask f a nt)) q1 as1 ∧
      (as1 = as ∨ ∃ t, nt = some t ∧ as1 = as ++ [t]) := by
  rw [step_addTask]
  split_ifs with hc
  swap
  · exact ⟨q, as, h, Or.inl rfl⟩
  obtain ⟨hq, hwf, hnd, halloc, htask⟩ := h
  unfold addTaskLocked
  simp only []
  split_ifs with h1 h2 h3
  · exact ⟨q, as, ⟨hq, hwf, hnd, halloc, htask⟩, Or.inl rfl⟩
  · exact ⟨q, as, ⟨hq, hwf, hnd, halloc, htask⟩, Or.inl rfl⟩
  all_goals
    cases nt with
    | none =>
      rw [hq]
      exact ⟨q, as, ⟨rfl, hwf, hnd, halloc, htask⟩, Or.inl rfl⟩
    | some t =>
      have ht : s.heap t = none := by
        have := hc.1
        simp only [freshFor, Option.isNone_iff_eq_none] at this
        exact this
      obtain ⟨hp1, q1, he, hwf1, _, hsame⟩ := enqueue_wf hwf f a t ht
      rw [hq, he]
      have htas : t ∉ as := fun hm => chain_alloc hwf.1 t hm ht
      have hth : t ∉ heldTasks s.workers := fun hm => halloc t hm ht
      refine ⟨q1, as ++ [t], ⟨rfl, hwf1, ?_, ?_, htask⟩, Or.inr ⟨t, rfl, rfl⟩⟩
      · have hp : (as ++ [t] ++ heldTasks s.workers).Perm (t :: (as ++ heldTasks s.workers)) := by
          rw [List.append_assoc]
          exact List.perm_middle
        rw [List.Perm.nodup_iff hp]
        refine List.nodup_cons.2 ⟨?_, hnd⟩
        intro hm
        rcases List.mem_append.1 hm with hm | hm
        · exact htas hm
        · exact hth hm
      · intro x hx
        have hxt : x ≠ t := fun e => hth (e ▸ hx)
        have hxas : x ∉ as := by
          intro hm
          have := List.nodup_append.1 hnd
          exact this.2.2 hm hx
        show hp1 x ≠ none
        rw [hsame x hxt hxas]
        exact halloc x hx

theorem queueInv_spawn {s : Sys} {q : queue_t} {as : List Nat} (i : Nat) (h : QueueInv s q as) :
    QueueInv (spawnWorker s i) q as := by
  refine @queueInv_of_perm s (spawnWorker s i) q as h rfl rfl ?_ ?_
  · simp [spawnWorker, heldTasks, List.filterMap_append, Worker.held]
  · intro w hw
    simp only [spawnWorker, List.mem_append, List.mem_singleton] at hw
    rcases hw with hw | hw
    · exact h.2.2.2.2 w hw
    · rw [hw]; simp

theorem queueInv_scaleUpLoop (ok : Nat → Bool) {q : queue_t} {as : List Nat} :
    ∀ (fuel i : Nat) (add : Int) (s : Sys),
    QueueInv s q as → QueueInv (scaleUpLoop ok fuel i add s) q as
  | 0, _, _, _, h => h
  | fuel + 1, i, add, s, h => by
    simp only [scaleUpLoop]
    split_ifs
    · exact queueInv_scaleUpLoop ok fuel (i + 1) (add + 1) _ (queueInv_spawn i h)
    · exact queueInv_scaleUpLoop ok fuel (i + 1) add s h
    · exact queueInv_scaleUpLoop ok fuel (i + 1) add s h
    · exact h

theorem queueInv_admin {s : Sys} {q : queue_t} {as : List Nat} (ok : Nat → Bool)
    (h : QueueInv s q as) : QueueInv (adminThread s ok) q as := by
  cases hpc : s.admin with
  | loopTop =>
    simp only [adminThread, hpc]
    split_ifs <;> exact h
  | sleeping =>
    simp only [adminThread, hpc]
    exact h
  | sampled qs b a =>
    simp only [adminThread, hpc]
    have h1 : QueueInv (adminScaleUp s ok qs b a) q as := by
      unfold adminScaleUp
      split_ifs
      · exact queueInv_scaleUpLoop ok _ _ _ s h
      · exact h
    exact h1
  | afterUp qs b a =>
    simp only [adminThread, hpc]
    rw [adminScaleDown_frame]
    exact h
  | done =>
    simp only [adminThread, hpc]
    exact h

/-- Every step keeps the ownership invariant; the queue keeps its nodes,
loses its head, or gains a node at the tail. -/
theorem queueInv_step {s : Sys} {q : queue_t} {as : List Nat} (ev : Event)
    (h : QueueInv s q as) :
    ∃ q1 as1, QueueInv (step s ev) q1 as1 ∧
      (as1 = as ∨ as1 = as.tail ∨ ∃ t, as1 = as ++ [t]) := by
  cases ev with
  | addTask f a nt =>
    obtain ⟨q1, as1, hinv, hor⟩ := queueInv_addTask f a nt h
    refine ⟨q1, as1, hinv, ?_⟩
    rcases hor with e | ⟨t, _, e⟩
    · exact Or.inl e
    · exact Or.inr (Or.inr ⟨t, e⟩)
  | worker k =>
    obtain ⟨q1, as1, hinv, hor⟩ := queueInv_worker k h
    refine ⟨q1, as1, hinv, ?_⟩
    rcases hor with e | e
    · exact Or.inl e
    · exact Or.inr (Or.inl e)
  | admin ok => exact ⟨q, as, queueInv_admin ok h, Or.inl rfl⟩
  | poolDestroy =>
    refine ⟨q, as, ?_, Or.inl rfl⟩
    simp only [step, poolDestroy]
    split_ifs <;> exact h

theorem queueInv_exec (evs : List Event) : ∀ (s : Sys) (q : queue_t) (as : List Nat),
    QueueInv s q as → ∃ q1 as1, QueueInv (exec s evs) q1 as1 := by
  induction evs with
  | nil => intro s q as h; exact ⟨q, as, h⟩
  | cons ev evs ih =>
    intro s q as h
    obtain ⟨q1, as1, h1, _⟩ := queueInv_step ev h
    exact ih (step s ev) q1 as1 h1

theorem queueInv_init {pn : Bool} {M m T : Int} {env : InitEnv} {s0 : Sys}
    (h : poolInit pn M m T env = (some s0, 0)) :
    QueueInv s0 { front := none, rear := none, size := 0 } [] := by
  obtain ⟨_, hf, _⟩ := poolInit_ok h
  have hheld : heldTasks s0.workers = [] := by
    unfold heldTasks
    rw [List.filterMap_eq_nil_iff]
    intro w hw
    rw [hf.fresh_workers w hw]
    rfl
  refine ⟨hf.queue_eq, ⟨rfl, List.nodup_nil, rfl, rfl⟩, ?_, ?_, ?_⟩
  · rw [hheld]; exact List.nodup_nil
  · intro t ht
    rw [hheld] at ht
    simp at ht
  · intro w hw
    rw [hf.fresh_workers w hw]
    simp

/-- The shutdown flag, once set, stays set. -/
theorem shutdown_step (s : Sys) (ev : Event) (h : s.pool.shutdown = true) :
    (step s ev).pool.shutdown = true := by
  cases ev with
  | addTask f a nt =>
    rw [step_addTask]
    have hc : ¬ (freshFor s.heap nt = true ∧ ¬ (f = 0 ∨ s.pool.shutdown = true)) :=
      fun hc => hc.2 (Or.inr h)
    rw [if_neg hc]
    exact h
  | worker k =>
    cases hw : s.workers.get? k with
    | none => simp only [step, workerThread, hw]; exact h
    | some w =>
      have hc : ¬ (queueSize s.pool.taskQueue = 0 ∧ s.pool.shutdown = false) := by simp [h]
      cases hpc : w.pc <;>
        simp only [step, workerThread, hw, hpc, workerWake, workerTest, if_neg hc, if_pos h] <;>
        (try split_ifs) <;> exact h
  | admin ok =>
    cases hpc : s.admin with
    | loopTop => simp only [step, adminThread, hpc, if_pos h]; exact h
    | sleeping => simp only [step, adminThread, hpc]; exact h
    | sampled q b a =>
      simp only [step, adminThread, hpc, adminScaleUp]
      split_ifs
      · rw [(scaleUpLoop_frame ok s.pool.maxThrs.toNat 0 0 s).2.2.2.2.2.2.2.2]
        exact h
      · exact h
    | afterUp q b a =>
      simp only [step, adminThread, hpc]
      rw [adminScaleDown_frame]
      exact h
    | done => simp only [step, adminThread, hpc]; exact h
  | poolDestroy =>
    simp only [step, poolDestroy]
    rw [if_pos h]
    exact h

theorem shutdown_exec (evs : List Event) : ∀ (s : Sys), s.pool.shutdown = true →
    (exec s evs).pool.shutdown = true := by
  induction evs with
  | nil => intro s h; exact h
  | cons ev evs ih => intro s h; exact ih (step s ev) (shutdown_step s ev h)

/-- A run that ends with the flag clear started with the flag clear. -/
theorem running_of_exec {s : Sys} {evs : List Event}
    (h : (exec s evs).pool.shutdown = false) : s.pool.shutdown = false := by
  cases hs : s.pool.shutdown with
  | false => rfl
  | true =>
    rw [shutdown_exec evs s hs] at h
    exact absurd h (by simp)

/-- What a worker step does to the counters of scale-down while the pool is
running: nothing, or it consumes one exit credit. -/
theorem worker_counters (s : Sys) (k : Nat) (hrun : s.pool.shutdown = false) :
    CreditStep s (workerThread s k) := by
  have hns : ¬ s.pool.shutdown = true := by simp [hrun]
  cases hw : s.workers.get? k with
  | none =>
    simp only [workerThread, hw]
    exact ⟨rfl, rfl, Or.inl ⟨rfl, rfl⟩⟩
  | some w =>
    cases hpc : w.pc with
    | atLock =>
      simp only [workerThread, hw, hpc, workerTest, if_neg hns]
      split_ifs <;> exact ⟨rfl, rfl, Or.inl ⟨rfl, rfl⟩⟩
    | waiting =>
      simp only [workerThread, hw, hpc, workerWake, workerTest, if_neg hns]
      split_ifs with h1 h2
      · exact ⟨rfl, rfl, Or.inr ⟨h1, rfl, rfl⟩⟩
      · exact ⟨rfl, rfl, Or.inl ⟨rfl, rfl⟩⟩
      · exact ⟨rfl, rfl, Or.inl ⟨rfl, rfl⟩⟩
    | dequeued =>
      simp only [workerThread, hw, hpc]
      exact ⟨rfl, rfl, Or.inl ⟨rfl, rfl⟩⟩
    | executing =>
      simp only [workerThread, hw, hpc]
      exact ⟨rfl, rfl, Or.inl ⟨rfl, rfl⟩⟩
    | stopped =>
      simp only [workerThread, hw, hpc]
      exact ⟨rfl, rfl, Or.inl ⟨rfl, rfl⟩⟩

theorem sampleCurrent_of_not_mid {s s1 : Sys} (h : s.midTick = false) (ha : s1.admin = s.admin) :
    sampleCurrent s1 := by
  unfold sampleCurrent
  rw [ha]
  cases hpc : s.admin <;> simp [Sys.midTick, hpc] at h ⊢

theorem scaleUpLoop_alive_mono (ok : Nat → Bool) : ∀ (fuel i : Nat) (add : Int) (s : Sys),
    s.pool.aliveThrs ≤ (scaleUpLoop ok fuel i add s).pool.aliveThrs
  | 0, _, _, _ => le_refl _
  | fuel + 1, i, add, s => by
    simp only [scaleUpLoop]
    split_ifs
    · have h := scaleUpLoop_alive_mono ok fuel (i + 1) (add + 1) (spawnWorker s i)
      have h2 : (spawnWorker s i).pool.aliveThrs = s.pool.aliveThrs + 1 := rfl
      omega
    · exact scaleUpLoop_alive_mono ok fuel (i + 1) add s
    · exact scaleUpLoop_alive_mono ok fuel (i + 1) add s
    · exact le_refl _

/-- What scale-down leaves in `exitThrs`: the old value, or a positive number of
at most 5 and at most `alive - minThrs`, for the `alive` of the sample. -/
theorem adminScaleDown_exit (p : pool_t) (q b a : Int) :
    (adminScaleDown p q b a).exitThrs = p.exitThrs ∨
    (0 < (adminScaleDown p q b a).exitThrs ∧ (adminScaleDown p q b a).exitThrs ≤ 5 ∧
      (adminScaleDown p q b a).exitThrs ≤ a - p.minThrs) := by
  unfold adminScaleDown
  simp only []
  by_cases h1 : scaleDownCond p q b a
  · have hgt : a > p.minThrs := h1.2.2
    rw [if_pos h1]
    by_cases h5 : a - p.minThrs > 5
    · rw [if_pos h5, if_pos (by omega)]
      right
      simp only []
      omega
    · rw [if_neg h5, if_pos (by omega)]
      right
      simp only []
      omega
  · rw [if_neg h1]
    left
    rfl

/-- A step keeps the exit credits covered while the pool is running, provided
it is a step of the admin thread whenever a sample is in use. -/
theorem creditInv_step (c : Int) (s : Sys) (ev : Event) (h : CreditInv c s)
    (hrun : s.pool.shutdown = false) (hat : s.midTick = true → ev.byAdmin = true) :
    CreditInv c (step s ev) := by
  obtain ⟨h0, h1, h2, h3⟩ := h
  cases ev with
  | addTask f a nt =>
    have hmid : s.midTick = false := by
      cases hm : s.midTick with
      | false => rfl
      | true => exact absurd (hat hm) (by simp [Event.byAdmin])
    obtain ⟨q, hq⟩ := addTask_frame s.heap s.pool f a nt
    have hs1 : ∀ s1 : Sys, s1 = step s (.addTask f a nt) →
        s1.admin = s.admin ∧ s1.pool.exitThrs = s.pool.exitThrs ∧
        s1.pool.aliveThrs = s.pool.aliveThrs ∧ s1.pool.minThrs = s.pool.minThrs := by
      intro s1 e
      rw [e]
      simp only [step]
      split_ifs
      · split
        · rename_i hh p1 r1 heq
          have : p1 = { s.pool with taskQueue := q } := by
            have := congrArg (fun x => x.2.1) heq
            simp only [hq] at this
            exact (Option.some.inj this).symm
          subst this
          exact ⟨rfl, rfl, rfl, rfl⟩
        · exact ⟨rfl, rfl, rfl, rfl⟩
      · exact ⟨rfl, rfl, rfl, rfl⟩
    obtain ⟨e1, e2, e3, e4⟩ := hs1 _ rfl
    exact ⟨by rw [e2]; exact h0, by rw [e2, e3]; exact h1, by rw [e4]; exact h2,
      sampleCurrent_of_not_mid hmid e1⟩
  | worker k =>
    have hmid : s.midTick = false := by
      cases hm : s.midTick with
      | false => rfl
      | true => exact absurd (hat hm) (by simp [Event.byAdmin])
    obtain ⟨e1, e4, hor⟩ := worker_counters s k hrun
    refine ⟨?_, ?_, ?_, sampleCurrent_of_not_mid hmid e1⟩
    · show 0 ≤ (workerThread s k).pool.exitThrs
      rcases hor with ⟨e2, _⟩ | ⟨hp, e2, _⟩ <;> rw [e2] <;> omega
    · show (workerThread s k).pool.exitThrs + c ≤ (workerThread s k).pool.aliveThrs
      rcases hor with ⟨e2, e3⟩ | ⟨hp, e2, e3⟩ <;> rw [e2, e3] <;> omega
    · show c ≤ (workerThread s k).pool.minThrs
      rw [e4]; exact h2
  | admin ok =>
    cases hpc : s.admin with
    | loopTop =>
      simp only [step, adminThread, hpc]
      split_ifs <;> exact ⟨h0, h1, h2, trivial⟩
    | sleeping =>
      simp only [step, adminThread, hpc]
      exact ⟨h0, h1, h2, le_refl _⟩
    | sampled q b a =>
      have hcur : a ≤ s.pool.aliveThrs := by
        unfold sampleCurrent at h3
        rw [hpc] at h3
        exact h3
      simp only [step, adminThread, hpc, adminScaleUp]
      split_ifs
      · have hfr := scaleUpLoop_frame ok s.pool.maxThrs.toNat 0 0 s
        have hmono := scaleUpLoop_alive_mono ok s.pool.maxThrs.toNat 0 0 s
        refine ⟨?_, ?_, ?_, ?_⟩
        · show 0 ≤ (scaleUpLoop ok s.pool.maxThrs.toNat 0 0 s).pool.exitThrs
          rw [hfr.2.2.2.2.2.2.2.1]; exact h0
        · show (scaleUpLoop ok s.pool.maxThrs.toNat 0 0 s).pool.exitThrs + c
            ≤ (scaleUpLoop ok s.pool.maxThrs.toNat 0 0 s).pool.aliveThrs
          rw [hfr.2.2.2.2.2.2.2.1]; omega
        · show c ≤ (scaleUpLoop ok s.pool.maxThrs.toNat 0 0 s).pool.minThrs
          rw [hfr.2.2.2.2.2.1]; exact h2
        · show a ≤ (scaleUpLoop ok s.pool.maxThrs.toNat 0 0 s).pool.aliveThrs
          omega
      · exact ⟨h0, h1, h2, hcur⟩
    | afterUp q b a =>
      have hcur : a ≤ s.pool.aliveThrs := by
        unfold sampleCurrent at h3
        rw [hpc] at h3
        exact h3
      simp only [step, adminThread, hpc]
      have hex := adminScaleDown_exit s.pool q b a
      rw [adminScaleDown_frame]
      refine ⟨?_, ?_, h2, trivial⟩
      · show 0 ≤ (adminScaleDown s.pool q b a).exitThrs
        rcases hex with e | ⟨hp, _, _⟩
        · rw [e]; exact h0
        · omega
      · show (adminScaleDown s.pool q b a).exitThrs + c ≤ s.pool.aliveThrs
        rcases hex with e | ⟨_, _, hle⟩
        · rw [e]; exact h1
        · omega
    | done =>
      simp only [step, adminThread, hpc]
      exact ⟨h0, h1, h2, h3⟩
  | poolDestroy =>
    simp only [step, poolDestroy]
    split_ifs
    · exact ⟨h0, h1, h2, h3⟩
    · refine ⟨h0, h1, h2, ?_⟩
      unfold sampleCurrent at h3 ⊢
      exact h3

theorem creditInv_exec (c : Int) (evs : List Event) : ∀ (s : Sys), CreditInv c s →
    atomicTicks s evs = true → (exec s evs).pool.shutdown = false → CreditInv c (exec s evs) := by
  induction evs with
  | nil => intro s h _ _; exact h
  | cons ev evs ih =>
    intro s h hat0 hend
    have hat : (s.midTick = true → ev.byAdmin = true) ∧ atomicTicks (step s ev) evs = true := by
      simp only [atomicTicks, Bool.and_eq_true, Bool.or_eq_true, Bool.not_eq_true'] at hat0
      refine ⟨fun hm => ?_, hat0.2⟩
      rcases hat0.1 with h1 | h1
      · rw [hm] at h1; exact absurd h1 (by simp)
      · exact h1
    have hend1 : (exec (step s ev) evs).pool.shutdown = false := hend
    have hrun1 : (step s ev).pool.shutdown = false := running_of_exec hend1
    have hrun : s.pool.shutdown = false := by
      cases hs : s.pool.shutdown with
      | false => rfl
      | true =>
        rw [shutdown_step s ev hs] at hrun1
        exact absurd hrun1 (by simp)
    exact ih (step s ev) (creditInv_step c s ev h hrun hat.1) hat.2 hend1

/-- The pending exit count is never negative, in any run. -/
theorem exit_nonneg_step (s : Sys) (ev : Event) (h : 0 ≤ s.pool.exitThrs) :
    0 ≤ (step s ev).pool.exitThrs := by
  cases ev with
  | addTask f a nt =>
    obtain ⟨q, hq⟩ := addTask_frame s.heap s.pool f a nt
    simp only [step]
    split_ifs
    · split
      · rename_i hh p1 r1 heq
        have : p1 = { s.pool with taskQueue := q } := by
          have := congrArg (fun x => x.2.1) heq
          simp only [hq] at this
          exact (Option.some.inj this).symm
        subst this
        exact h
      · exact h
    · exact h
  | worker k =>
    cases hw : s.workers.get? k with
    | none => simp only [step, workerThread, hw]; exact h
    | some w =>
      cases hpc : w.pc <;> simp only [step, workerThread, hw, hpc, workerWake, workerTest] <;>
        (try split_ifs) <;> (try simp only [setWorker]) <;> omega
  | admin ok =>
    cases hpc : s.admin with
    | loopTop => simp only [step, adminThread, hpc]; split_ifs <;> exact h
    | sleeping => simp only [step, adminThread, hpc]; exact h
    | sampled q b a =>
      simp only [step, adminThread, hpc, adminScaleUp]
      split_ifs
      · rw [(scaleUpLoop_frame ok s.pool.maxThrs.toNat 0 0 s).2.2.2.2.2.2.2.1]
        exact h
      · exact h
    | afterUp q b a =>
      simp only [step, adminThread, hpc]
      rcases adminScaleDown_exit s.pool q b a with e | ⟨hp, _, _⟩
      · rw [e]; exact h
      · omega
    | done => simp only [step, adminThread, hpc]; exact h
  | poolDestroy =>
    simp only [step, poolDestroy]
    split_ifs <;> exact h

theorem exit_nonneg_exec (evs : List Event) : ∀ (s : Sys), 0 ≤ s.pool.exitThrs →
    0 ≤ (exec s evs).pool.exitThrs := by
  induction evs with
  | nil => intro s h; exact h
  | cons ev evs ih => intro s h; exact ih (step s ev) (exit_nonneg_step s ev h)

/-- The state a successful `poolInit` returns, as the result of its loop. -/
theorem poolInit_state {pn : Bool} {M m T : Int} {env : InitEnv} {s0 : Sys}
    (h : poolInit pn M m T env = (some s0, 0)) :
    s0 = { (List.range m.toNat).foldl
      (fun s i => if env.spawnOk i = true then spawnWorker s i else s) (initState M m T) with
      pool := { ((List.range m.toNat).foldl
        (fun s i => if env.spawnOk i = true then spawnWorker s i else s)
          (initState M m T)).pool with adminTid := 1 } } := by
  by_cases h1 : pn = false ∨ M ≤ 0 ∨ m ≤ 0 ∨ M < m ∨ T ≤ 0
  · simp [poolInit, h1] at h
  by_cases h2 : env.mallocPool = false
  · simp [poolInit, h1, h2] at h
  by_cases h3 : (queueInit env.mallocQueue env.queueMutex).2 ≠ 0
  · simp [poolInit, h1, h2, h3] at h
  by_cases h4 : env.callocThrs = false
  · simp [poolInit, h1, h2, h3, h4] at h
  by_cases h5 : env.syncInit = false
  · simp [poolInit, h1, h2, h3, h4, h5] at h
  by_cases h6 : env.adminOk = true
  swap
  · simp [poolInit, h1, h2, h3, h4, h5, h6] at h
  have hq : (queueInit env.mallocQueue env.queueMutex).1
      = some { front := none, rear := none, size := 0 } := by
    unfold queueInit at h3 ⊢
    split_ifs at h3 ⊢ <;> simp_all
  unfold poolInit at h
  simp only [if_neg h1, if_neg h2, if_neg h3, if_neg h4, if_neg h5, if_pos h6, hq] at h
  have := congrArg Prod.fst h
  simp only [Option.some.injEq] at this
  exact this.symm

theorem initLoop_all (M m T : Int) (ok : Nat → Bool) (hok : ∀ i, ok i = true) : ∀ n : Nat,
    ((List.range n).foldl
      (fun s i => if ok i = true then spawnWorker s i else s) (initState M m T)).workers.length = n
  | 0 => rfl
  | n + 1 => by
    have ih := initLoop_all M m T ok hok n
    rw [List.range_succ, List.foldl_append]
    simp only [List.foldl_cons, List.foldl_nil, hok n, if_true]
    generalize (List.range n).foldl
      (fun s i => if ok i = true then spawnWorker s i else s) (initState M m T) = s at ih
    simp [spawnWorker, ih]

/-- With every `pthread_create` succeeding, `poolInit` leaves `minThrs` workers. -/
theorem poolInit_all_spawned {pn : Bool} {M m T : Int} {env : InitEnv} {s0 : Sys}
    (h : poolInit pn M m T env = (some s0, 0)) (hok : ∀ i, env.spawnOk i = true) :
    s0.pool.aliveThrs = m ∧ (s0.workers.length : Int) = m := by
  obtain ⟨hv, hf, _⟩ := poolInit_ok h
  have hs := poolInit_state h
  have hlen := initLoop_all M m T env.spawnOk hok m.toNat
  have hw : s0.workers.length = m.toNat := by
    rw [hs]
    exact hlen
  have hm : ((m.toNat : Nat) : Int) = m := Int.toNat_of_nonneg (by omega)
  refine ⟨?_, ?_⟩
  · rw [hf.alive_eq, hw, hm]
  · rw [hw, hm]

/-- The floor the scale-down guard aims at: with every spawn succeeding, in a
run with atomic ticks that has not been shut down, `aliveThrs >= minThrs`. -/
theorem floor_atomic (pn : Bool) (maxThrs minThrs maxTasks : Int) (env : InitEnv) (s0 : Sys)
    (evs : List Event) (hinit : poolInit pn maxThrs minThrs maxTasks env = (some s0, 0))
    (hok : ∀ i, env.spawnOk i = true) (hat : atomicTicks s0 evs = true)
    (hrun : (exec s0 evs).pool.shutdown = false) :
    minThrs ≤ (exec s0 evs).pool.aliveThrs := by
  obtain ⟨_, hf, _⟩ := poolInit_ok hinit
  obtain ⟨ha, _⟩ := poolInit_all_spawned hinit hok
  have h0 : CreditInv minThrs s0 := by
    refine ⟨by rw [hf.exit_zero], by rw [hf.exit_zero, ha]; omega, by rw [hf.minThrs_eq], ?_⟩
    unfold sampleCurrent
    rw [hf.admin_eq]
    trivial
  obtain ⟨h1, h2, _, _⟩ := creditInv_exec minThrs evs s0 h0 hat hrun
  omega

theorem length_set_worker (s : Sys) (k : Nat) (w : Worker) :
    (setWorker s k w).workers.length = s.workers.length := by
  simp [setWorker]

/-- Replacing an idle worker by an idle one keeps the pool idle, as long as
the other fields of the invariant are kept. -/
theorem idleInv_set {n : Nat} {s s1 : Sys} {k : Nat} {w1 : Worker} (h : IdleInv n s)
    (hws : s1.workers = s.workers.set k w1) (hidle : w1.idle)
    (hq : s1.pool.taskQueue = s.pool.taskQueue) (hh : s1.heap = s.heap)
    (he : s1.pool.exitThrs = s.pool.exitThrs) (ha : s1.pool.aliveThrs ≤ s.pool.aliveThrs)
    (hm : s1.pool.minThrs = s.pool.minThrs) (had : s1.admin = s.admin) :
    IdleInv n s1 := by
  refine ⟨hq.trans h.queue_empty, hh.trans h.heap_empty, he.trans h.no_credit, ?_, ?_, ?_, ?_⟩
  · rw [hm]; exact le_trans ha h.alive_le_min
  · intro w hw
    rw [hws] at hw
    rcases mem_set_cases hw with hw | hw
    · exact h.all_idle w hw
    · rw [hw]; exact hidle
  · rw [hws, List.length_set]; exact h.n_workers
  · have hs := h.sample_idle
    rw [had, hm]
    exact hs

theorem idleInv_worker {n : Nat} {s : Sys} (k : Nat) (h : IdleInv n s) :
    IdleInv n (workerThread s k) := by
  cases hw : s.workers.get? k with
  | none =>
    simp only [workerThread, hw]
    exact h
  | some w =>
    have hmem : w ∈ s.workers := List.get?_mem hw
    have hsz : queueSize s.pool.taskQueue = 0 := by rw [h.queue_empty]; rfl
    have hne : ¬ 0 < s.pool.exitThrs := by rw [h.no_credit]; simp
    have htest : IdleInv n (workerTest s k w) := by
      unfold workerTest
      by_cases hsd : s.pool.shutdown = true
      · have hc : ¬ (queueSize s.pool.taskQueue = 0 ∧ s.pool.shutdown = false) := by simp [hsd]
        rw [if_neg hc, if_pos hsd]
        exact idleInv_set h rfl (Or.inr (Or.inr rfl)) rfl rfl rfl
          (by simp only [setWorker]; omega) rfl rfl
      · have hc : queueSize s.pool.taskQueue = 0 ∧ s.pool.shutdown = false :=
          ⟨hsz, by simpa using hsd⟩
        rw [if_pos hc]
        exact idleInv_set h rfl (Or.inr (Or.inl rfl)) rfl rfl rfl (le_refl _) rfl rfl
    cases hpc : w.pc with
    | atLock =>
      simp only [workerThread, hw, hpc]
      exact htest
    | waiting =>
      simp only [workerThread, hw, hpc, workerWake]
      have hne' : ¬ s.pool.exitThrs > 0 := hne
      rw [if_neg hne']
      exact htest
    | dequeued =>
      rcases h.all_idle w hmem with e | e | e <;> rw [hpc] at e <;> exact absurd e (by simp)
    | executing =>
      rcases h.all_idle w hmem with e | e | e <;> rw [hpc] at e <;> exact absurd e (by simp)
    | stopped =>
      simp only [workerThread, hw, hpc]
      exact h

theorem idleInv_admin {n : Nat} {s : Sys} (ok : Nat → Bool) (h : IdleInv n s) :
    IdleInv n (adminThread s ok) := by
  have hs := h.sample_idle
  cases hpc : s.admin with
  | loopTop =>
    simp only [adminThread, hpc]
    split_ifs <;>
      exact ⟨h.queue_empty, h.heap_empty, h.no_credit, h.alive_le_min, h.all_idle, h.n_workers,
        trivial⟩
  | sleeping =>
    simp only [adminThread, hpc]
    refine ⟨h.queue_empty, h.heap_empty, h.no_credit, h.alive_le_min, h.all_idle, h.n_workers, ?_⟩
    have hsz : queueSize s.pool.taskQueue = 0 := by rw [h.queue_empty]; rfl
    exact ⟨hsz, h.alive_le_min⟩
  | sampled q b a =>
    rw [hpc] at hs
    have hq0 : q = 0 := hs.1
    have hn : ¬ scaleUpCond s.pool q b a := fun hc => by
      have := hc.2.1
      omega
    simp only [adminThread, hpc, adminScaleUp, if_neg hn]
    exact ⟨h.queue_empty, h.heap_empty, h.no_credit, h.alive_le_min, h.all_idle, h.n_workers, hs⟩
  | afterUp q b a =>
    rw [hpc] at hs
    have hn : ¬ scaleDownCond s.pool q b a := fun hc => by
      have := hc.2.2
      have := hs.2
      omega
    simp only [adminThread, hpc, adminScaleDown, if_neg hn]
    exact ⟨h.queue_empty, h.heap_empty, h.no_credit, h.alive_le_min, h.all_idle, h.n_workers,
      trivial⟩
  | done =>
    simp only [adminThread, hpc]
    exact h

theorem idleInv_step {n : Nat} {s : Sys} (ev : Event) (hev : ev.bySubmit = false)
    (h : IdleInv n s) : IdleInv n (step s ev) := by
  cases ev with
  | addTask f a nt => simp [Event.bySubmit] at hev
  | worker k => exact idleInv_worker k h
  | admin ok => exact idleInv_admin ok h
  | poolDestroy =>
    simp only [step, poolDestroy]
    split_ifs
    · exact h
    · exact ⟨h.queue_empty, h.heap_empty, h.no_credit, h.alive_le_min, h.all_idle, h.n_workers,
        h.sample_idle⟩

theorem idleInv_exec {n : Nat} (evs : List Event) : ∀ (s : Sys),
    (∀ ev ∈ evs, ev.bySubmit = false) → IdleInv n s → IdleInv n (exec s evs) := by
  induction evs with
  | nil => intro s _ h; exact h
  | cons ev evs ih =>
    intro s hev h
    exact ih (step s ev) (fun e he => hev e (List.mem_cons_of_mem _ he))
      (idleInv_step ev (hev ev (List.mem_cons_self _ _)) h)

theorem idleInv_init {pn : Bool} {M m T : Int} {env : InitEnv} {s0 : Sys}
    (h : poolInit pn M m T env = (some s0, 0)) : IdleInv s0.workers.length s0 := by
  obtain ⟨hv, hf, _⟩ := poolInit_ok h
  have hs := poolInit_state h
  obtain ⟨_, hlen, _⟩ := initLoop_facts M m T env.spawnOk m.toNat
  have hw : s0.workers.length ≤ m.toNat := by
    rw [hs]
    exact hlen
  refine ⟨hf.queue_eq, hf.heap_eq, hf.exit_zero, ?_, ?_, rfl, ?_⟩
  · rw [hf.alive_eq, hf.minThrs_eq]
    omega
  · intro w hw
    rw [hf.fresh_workers w hw]
    exact Or.inl rfl
  · rw [hf.admin_eq]
    trivial

theorem exec_append (s : Sys) (l1 l2 : List Event) :
    exec s (l1 ++ l2) = exec (exec s l1) l2 := by
  simp [exec, List.foldl_append]

/-- A run that contains a `poolDestroy` ends with the shutdown flag set. -/
theorem shutdown_of_destroy (s : Sys) (evs : List Event) (h : Event.poolDestroy ∈ evs) :
    (exec s evs).pool.shutdown = true := by
  obtain ⟨l1, l2, e⟩ := List.append_of_mem h
  rw [e, exec_append]
  have h1 : (step (exec s l1) .poolDestroy).pool.shutdown = true := by
    simp only [step, poolDestroy]
    split_ifs with hs
    · exact hs
    · rfl
  exact shutdown_exec l2 _ h1

/-- The loop of `queueDestroy` frees exactly the nodes of the chain, whatever
bound of at least their number it is given. -/
theorem freeChain_spec : ∀ (as : List Nat) (h : Heap) (p : Option Nat) (fuel : Nat),
    chain h p as → as.Nodup → as.length ≤ fuel →
    ∀ x, freeChain h fuel p x = if x ∈ as then none else h x
  | [], h, p, fuel, hc, _, _ => by
    have hp : p = none := hc
    subst hp
    intro x
    cases fuel <;> simp [freeChain]
  | a :: rest, h, p, fuel, hc, hnd, hf => by
    obtain ⟨hp, n, hn, hrest⟩ := hc
    subst hp
    cases fuel with
    | zero => simp at hf
    | succ k =>
      have hna : a ∉ rest := (List.nodup_cons.1 hnd).1
      have hnx : h.next a = n.next := by simp [Heap.next, hn]
      have hfree : ∀ y ∈ rest, (h.free a) y = h y := by
        intro y hy
        have : y ≠ a := fun e => hna (e ▸ hy)
        simp [Heap.free, this]
      have hc1 : chain (h.free a) (h.next a) rest := hnx ▸ chain_congr hfree hrest
      have ih := freeChain_spec rest (h.free a) (h.next a) k hc1 (List.nodup_cons.1 hnd).2
        (by simpa using hf)
      intro x
      simp only [freeChain]
      rw [ih x]
      by_cases hx : x ∈ rest
      · simp [hx]
      · by_cases hxa : x = a
        · subst hxa
          simp [hx, Heap.free]
        · simp [hx, hxa, Heap.free]

/-- What a worker step does to the heap: nothing, or the worker was executing
and frees the node it holds. -/
theorem worker_heap (s : Sys) (k : Nat) :
    (workerThread s k).heap = s.heap ∨
    ∃ w t, s.workers.get? k = some w ∧ w.pc = .executing ∧ w.task = some t ∧
      (workerThread s k).heap = s.heap.free t := by
  cases hw : s.workers.get? k with
  | none => left; simp only [workerThread, hw]
  | some w =>
    cases hpc : w.pc with
    | atLock =>
      left
      simp only [workerThread, hw, hpc, workerTest]
      split_ifs <;> rfl
    | waiting =>
      left
      simp only [workerThread, hw, hpc, workerWake, workerTest]
      split_ifs <;> rfl
    | dequeued => left; simp only [workerThread, hw, hpc]; rfl
    | executing =>
      cases ht : w.task with
      | none => left; simp only [workerThread, hw, hpc, ht]; rfl
      | some t =>
        right
        exact ⟨w, t, rfl, hpc, ht, by simp only [workerThread, hw, hpc, ht]; rfl⟩
    | stopped => left; simp only [workerThread, hw, hpc]

/-- With the shutdown flag set no worker step touches the queue object. -/
theorem worker_queue_shutdown (s : Sys) (k : Nat) (hsd : s.pool.shutdown = true) :
    (workerThread s k).pool.taskQueue = s.pool.taskQueue := by
  have hc : ¬ (queueSize s.pool.taskQueue = 0 ∧ s.pool.shutdown = false) := by simp [hsd]
  cases hw : s.workers.get? k with
  | none => simp only [workerThread, hw]
  | some w =>
    cases hpc : w.pc with
    | atLock => simp only [workerThread, hw, hpc, workerTest, if_neg hc, if_pos hsd]; rfl
    | waiting =>
      simp only [workerThread, hw, hpc, workerWake, workerTest, if_neg hc, if_pos hsd]
      split_ifs <;> rfl
    | dequeued => simp only [workerThread, hw, hpc]; rfl
    | executing => simp only [workerThread, hw, hpc]; rfl
    | stopped => simp only [workerThread, hw, hpc]

/-- With the shutdown flag set a step keeps the queue object, its nodes and
what they hold. -/
theorem queueInv_step_shutdown {s : Sys} {q : queue_t} {as : List Nat} (ev : Event)
    (h : QueueInv s q as) (hsd : s.pool.shutdown = true) :
    QueueInv (step s ev) q as ∧ ∀ a ∈ as, (step s ev).heap a = s.heap a := by
  cases ev with
  | addTask f a nt =>
    have hc : ¬ (freshFor s.heap nt = true ∧ ¬ (f = 0 ∨ s.pool.shutdown = true)) :=
      fun hc => hc.2 (Or.inr hsd)
    rw [step_addTask, if_neg hc]
    exact ⟨h, fun _ _ => rfl⟩
  | worker k =>
    obtain ⟨q1, as1, hinv, hor⟩ := queueInv_worker k h
    have hq := worker_queue_shutdown s k hsd
    have hq1 : q1 = q := by
      have e1 := hinv.1
      rw [hq, h.1] at e1
      exact (Option.some.inj e1).symm
    subst hq1
    have has : as1 = as := by
      rcases hor with e | e
      · exact e
      · have l1 : (q1.size : Int) = as.length := h.2.1.2.2.2
        have l2 : (q1.size : Int) = as1.length := hinv.2.1.2.2.2
        rw [e] at l2 ⊢
        cases as with
        | nil => rfl
        | cons a rest =>
          simp only [List.tail_cons, List.length_cons] at l1 l2
          omega
    subst has
    refine ⟨hinv, ?_⟩
    intro a ha
    show (workerThread s k).heap a = s.heap a
    rcases worker_heap s k with e | ⟨w, t, hw, hpc, ht, e⟩
    · rw [e]
    · rw [e]
      have hheld : t ∈ heldTasks s.workers := by
        unfold heldTasks
        rw [List.mem_filterMap]
        exact ⟨w, List.get?_mem hw, by simp [Worker.held, hpc, ht]⟩
      have hne : a ≠ t := by
        intro e2
        have := List.nodup_append.1 h.2.2.1
        exact this.2.2 ha (e2 ▸ hheld)
      simp [Heap.free, hne]
  | admin ok =>
    refine ⟨queueInv_admin ok h, ?_⟩
    intro a _
    show (adminThread s ok).heap a = s.heap a
    cases hpc : s.admin with
    | loopTop => simp only [adminThread, hpc, if_pos hsd]
    | sleeping => simp only [adminThread, hpc]
    | sampled qs b al =>
      simp only [adminThread, hpc, adminScaleUp]
      split_ifs
      · rw [(scaleUpLoop_frame ok s.pool.maxThrs.toNat 0 0 s).1]
      · rfl
    | afterUp qs b al => simp only [adminThread, hpc]
    | done => simp only [adminThread, hpc]
  | poolDestroy =>
    refine ⟨?_, ?_⟩
    · simp only [step, poolDestroy, if_pos hsd]
      exact h
    · intro a _
      simp only [step, poolDestroy, if_pos hsd]

theorem queueInv_exec_shutdown (evs : List Event) : ∀ {s : Sys} {q : queue_t} {as : List Nat},
    QueueInv s q as → s.pool.shutdown = true →
    QueueInv (exec s evs) q as ∧ (∀ a ∈ as, (exec s evs).heap a = s.heap a) ∧
    (exec s evs).pool.shutdown = true := by
  induction evs with
  | nil => intro s q as h hsd; exact ⟨h, fun _ _ => rfl, hsd⟩
  | cons ev evs ih =>
    intro s q as h hsd
    obtain ⟨h1, hheap1⟩ := queueInv_step_shutdown ev h hsd
    obtain ⟨h2, hheap2, hsd2⟩ := ih h1 (shutdown_step s ev hsd)
    exact ⟨h2, fun a ha => (hheap2 a ha).trans (hheap1 a ha), hsd2⟩

/-! ## The claims about the pool -/

/-- C1. Counter bounds: in every state reached from a successful `poolInit`
by any sequence of `addTask` calls, worker steps, admin steps and
`poolDestroy`, `0 <= busyThrs <= aliveThrs <= maxThrs`. -/
theorem counter_bounds (pn : Bool) (maxThrs minThrs maxTasks : Int) (env : InitEnv) (s0 : Sys)
    (evs : List Event) (hinit : poolInit pn maxThrs minThrs maxTasks env = (some s0, 0)) :
    0 ≤ (exec s0 evs).pool.busyThrs ∧
    (exec s0 evs).pool.busyThrs ≤ (exec s0 evs).pool.aliveThrs ∧
    (exec s0 evs).pool.aliveThrs ≤ (exec s0 evs).pool.maxThrs ∧
    (exec s0 evs).pool.maxThrs = maxThrs := by
  obtain ⟨_, hf, hc⟩ := poolInit_ok hinit
  obtain ⟨hb, hl, hle, _⟩ := countInv_exec evs s0 hc
  refine ⟨?_, ?_, hle, ?_⟩
  · rw [hb]; exact Int.natCast_nonneg _
  · rw [hb, hl]; exact Int.ofNat_le.2 (busy_le_live _)
  · rw [(exec_const evs s0).1, hf.maxThrs_eq]

/-- The bounds hold after the run `demoRetire` from `poolInit(&pool, 2, 1, 5)`. -/
theorem counter_bounds_witness :
    poolInit true 2 1 5 InitEnv.ok = (some demoStart, 0) ∧
    0 ≤ (exec demoStart demoRetire).pool.busyThrs ∧
    (exec demoStart demoRetire).pool.busyThrs ≤ (exec demoStart demoRetire).pool.aliveThrs ∧
    (exec demoStart demoRetire).pool.aliveThrs ≤ (exec demoStart demoRetire).pool.maxThrs ∧
    (exec demoStart demoRetire).pool.maxThrs = 2 :=
  ⟨rfl, counter_bounds true 2 1 5 InitEnv.ok demoStart demoRetire rfl⟩

/-- C2. Queue bound: in every state reached from a pool created with
`maxTasks = k` the `size` field of the queue is at most `k` and is the number
of tasks linked in the queue; there `addTask`, under the
pool lock, leaves heap and pool untouched when it sees a size of `k` or more
(it waits, or returns -1 once shutdown is set), and it enqueues only when the
size it sees is strictly below `k`. -/
theorem queue_bound (pn : Bool) (maxThrs minThrs k : Int) (env : InitEnv) (s0 : Sys)
    (evs : List Event) (hinit : poolInit pn maxThrs minThrs k env = (some s0, 0)) :
    queueSize (exec s0 evs).pool.taskQueue ≤ k ∧
    ((queueTasks (exec s0 evs).heap (exec s0 evs).pool.taskQueue).length : Int)
      = queueSize (exec s0 evs).pool.taskQueue ∧
    (∀ f a nt, queueSize (exec s0 evs).pool.taskQueue ≥ k →
      addTaskLocked (exec s0 evs).heap (exec s0 evs).pool f a nt
        = ((exec s0 evs).heap, (exec s0 evs).pool,
            if (exec s0 evs).pool.shutdown = true then .ret (-1) else .blocked)) ∧
    (∀ f a nt,
      (addTaskLocked (exec s0 evs).heap (exec s0 evs).pool f a nt).2.1 ≠ (exec s0 evs).pool ∨
      (addTaskLocked (exec s0 evs).heap (exec s0 evs).pool f a nt).1 ≠ (exec s0 evs).heap ∨
      (addTaskLocked (exec s0 evs).heap (exec s0 evs).pool f a nt).2.2 = .ret 0 →
      queueSize (exec s0 evs).pool.taskQueue < k) := by
  obtain ⟨_, hf, _⟩ := poolInit_ok hinit
  have hk : (exec s0 evs).pool.maxTasks = k := by rw [(exec_const evs s0).2.2, hf.maxTasks_eq]
  have h0 : QueueBound s0 := by
    unfold QueueBound
    rw [hf.queue_eq, hf.maxTasks_eq]
    have := (poolInit_ok hinit).1.2.2.2
    simp only [queueSize]
    omega
  have hb := queueBound_exec evs s0 h0
  unfold QueueBound at hb
  rw [hk] at hb
  refine ⟨hb, ?_, ?_, ?_⟩
  · obtain ⟨q, as, hq, hwf, _⟩ := queueInv_exec evs s0 _ _ (queueInv_init hinit)
    rw [hq, queueTasks_wf hwf, tasksAt_length hwf.1]
    simp only [queueSize]
    exact hwf.2.2.2.symm
  · intro f a nt hge
    obtain ⟨h1, _, _, _⟩ := addTaskLocked_bound (exec s0 evs).heap (exec s0 evs).pool f a nt
    obtain ⟨e1, e2, e3⟩ := h1 (by rw [hk]; exact hge)
    exact Prod.ext e1 (Prod.ext e2 e3)
  · intro f a nt hch
    obtain ⟨_, h2, _, _⟩ := addTaskLocked_bound (exec s0 evs).heap (exec s0 evs).pool f a nt
    rw [← hk]
    exact h2 hch

/-- After five accepted tasks the queue of a pool with `maxTasks = 5` is full and
the sixth `addTask` is blocked without a change. -/
theorem queue_bound_witness :
    poolInit true 2 1 5 InitEnv.ok = (some demoStart, 0) ∧
    queueSize (exec demoStart demoFill).pool.taskQueue = 5 ∧
    queueSize (exec demoStart demoFill).pool.taskQueue ≤ 5 ∧
    (∀ f a nt, queueSize (exec demoStart demoFill).pool.taskQueue ≥ 5 →
      addTaskLocked (exec demoStart demoFill).heap (exec demoStart demoFill).pool f a nt
        = ((exec demoStart demoFill).heap, (exec demoStart demoFill).pool,
            if (exec demoStart demoFill).pool.shutdown = true then .ret (-1) else .blocked)) :=
  ⟨rfl, rfl, (queue_bound true 2 1 5 InitEnv.ok demoStart demoFill rfl).1,
    (queue_bound true 2 1 5 InitEnv.ok demoStart demoFill rfl).2.2.1⟩

/-- C4. Validation in `poolInit`: whatever the library calls do, invalid
bounds (`maxThrs <= 0`, `minThrs <= 0`, `minThrs > maxThrs` or `maxTasks <= 0`)
give -1 and no pool; it returns either 0 with a pool or -1 without one; when
every allocation, initialisation and thread creation succeeds, it returns 0
exactly for valid bounds, and then a pool with these bounds exists;
`poolInit(&pool, 10, 3, 20)` succeeds. -/
theorem poolInit_validation (pn : Bool) (maxThrs minThrs maxTasks : Int) (env : InitEnv) :
    (maxThrs ≤ 0 ∨ minThrs ≤ 0 ∨ minThrs > maxThrs ∨ maxTasks ≤ 0 →
      poolInit pn maxThrs minThrs maxTasks env = (none, -1)) ∧
    ((∃ s, poolInit pn maxThrs minThrs maxTasks env = (some s, 0)) ∨
      poolInit pn maxThrs minThrs maxTasks env = (none, -1)) ∧
    (env.allOk →
      ((poolInit true maxThrs minThrs maxTasks env).2 = 0 ↔
        (maxThrs > 0 ∧ minThrs > 0 ∧ minThrs ≤ maxThrs ∧ maxTasks > 0))) ∧
    (env.allOk → (poolInit true maxThrs minThrs maxTasks env).2 = 0 →
      ∃ s, (poolInit true maxThrs minThrs maxTasks env).1 = some s ∧
        s.pool.maxThrs = maxThrs ∧ s.pool.minThrs = minThrs ∧ s.pool.maxTasks = maxTasks) ∧
    (poolInit true 10 3 20 InitEnv.ok).2 = 0 := by
  have hret : ∀ (b : Bool) (e : InitEnv), (∃ s, poolInit b maxThrs minThrs maxTasks e = (some s, 0)) ∨
      poolInit b maxThrs minThrs maxTasks e = (none, -1) := by
    intro b e
    unfold poolInit
    simp only []
    split_ifs <;> simp
  have hsucc : env.allOk → (maxThrs > 0 ∧ minThrs > 0 ∧ minThrs ≤ maxThrs ∧ maxTasks > 0) →
      (poolInit true maxThrs minThrs maxTasks env).2 = 0 := by
    intro hok hv
    obtain ⟨e1, e2, e3, e4, e5, _, e7⟩ := hok
    have h1 : ¬ (true = false ∨ maxThrs ≤ 0 ∨ minThrs ≤ 0 ∨ maxThrs < minThrs ∨ maxTasks ≤ 0) := by
      simp only [Bool.true_eq_false, false_or]
      omega
    unfold poolInit
    simp only [if_neg h1, e1, e2, e3, e4, e5, e7, queueInit]
    simp
  refine ⟨?_, hret pn env, ?_, ?_, rfl⟩
  · intro hbad
    have h1 : pn = false ∨ maxThrs ≤ 0 ∨ minThrs ≤ 0 ∨ maxThrs < minThrs ∨ maxTasks ≤ 0 := by
      rcases hbad with h | h | h | h
      · exact Or.inr (Or.inl h)
      · exact Or.inr (Or.inr (Or.inl h))
      · exact Or.inr (Or.inr (Or.inr (Or.inl h)))
      · exact Or.inr (Or.inr (Or.inr (Or.inr h)))
    unfold poolInit
    rw [if_pos h1]
  · intro hok
    constructor
    · intro h0
      by_contra hv
      have h1 : true = false ∨ maxThrs ≤ 0 ∨ minThrs ≤ 0 ∨ maxThrs < minThrs ∨ maxTasks ≤ 0 := by
        right
        omega
      unfold poolInit at h0
      rw [if_pos h1] at h0
      simp at h0
    · exact hsucc hok
  · intro hok h0
    rcases hp : poolInit true maxThrs minThrs maxTasks env with ⟨so, r⟩
    rw [hp] at h0
    simp only at h0
    subst h0
    cases so with
    | none =>
      rcases hret true env with ⟨s, h⟩ | h
      · rw [hp] at h; simp at h
      · rw [hp] at h; simp at h
    | some s =>
      obtain ⟨_, hf, _⟩ := poolInit_ok hp
      exact ⟨s, rfl, hf.maxThrs_eq, hf.minThrs_eq, hf.maxTasks_eq⟩

/-- C5. Admission errors of `addTask` are atomic: with a null pool, a null
callable or the shutdown flag set (seen on entry, or on resuming under the
lock after the queue-full wait) it returns -1 with heap and pool exactly as
before; and whenever it does not return 0, heap and pool (queue contents,
queue size, every counter) are exactly as before. -/
theorem addTask_errors_atomic (h : Heap) :
    (∀ f a nt, addTask h none f a nt = (h, none, .ret (-1))) ∧
    (∀ p a nt, addTask h (some p) 0 a nt = (h, some p, .ret (-1))) ∧
    (∀ p f a nt, p.shutdown = true → addTask h (some p) f a nt = (h, some p, .ret (-1))) ∧
    (∀ p f a nt, p.shutdown = true → addTaskLocked h p f a nt = (h, p, .ret (-1))) ∧
    (∀ p f a nt, (addTaskLocked h p f a nt).2.2 ≠ .ret 0 →
      (addTaskLocked h p f a nt).1 = h ∧ (addTaskLocked h p f a nt).2.1 = p) ∧
    (∀ p f a nt, (addTask h p f a nt).2.2 ≠ .ret 0 →
      (addTask h p f a nt).1 = h ∧ (addTask h p f a nt).2.1 = p) := by
  have hlocked : ∀ (p : pool_t) (f a : Nat) (nt : Option Nat),
      (addTaskLocked h p f a nt).2.2 ≠ .ret 0 →
      (addTaskLocked h p f a nt).1 = h ∧ (addTaskLocked h p f a nt).2.1 = p := by
    intro p f a nt
    unfold addTaskLocked
    simp only []
    split_ifs with h1 h2 h3
    · intro _; exact ⟨rfl, rfl⟩
    · intro _; exact ⟨rfl, rfl⟩
    · intro _
      have he : (enqueue h p.taskQueue f a nt).1 = h ∧
          (enqueue h p.taskQueue f a nt).2.1 = p.taskQueue := by
        unfold enqueue at h3 ⊢
        cases hq : p.taskQueue with
        | none => exact ⟨rfl, rfl⟩
        | some q =>
          cases nt with
          | none => exact ⟨rfl, rfl⟩
          | some t =>
            exfalso
            simp only [hq] at h3
            cases hr : q.rear <;> simp [hr] at h3
      simp only [he.1, he.2]
      exact ⟨trivial, trivial⟩
    · intro hne; exact absurd rfl hne
  refine ⟨fun _ _ _ => rfl, ?_, ?_, ?_, hlocked, ?_⟩
  · intro p a nt
    simp [addTask]
  · intro p f a nt hs
    simp [addTask, hs]
  · intro p f a nt hs
    simp [addTaskLocked, hs]
  · intro p f a nt
    cases p with
    | none => intro _; exact ⟨rfl, rfl⟩
    | some p =>
      unfold addTask
      simp only []
      split_ifs with h1
      · intro _; exact ⟨rfl, rfl⟩
      · intro hne
        obtain ⟨e1, e2⟩ := hlocked p f a nt hne
        exact ⟨e1, by rw [e2]⟩

/-- C6. Order of the decisions of a worker that returns from its wait, in any
state reached from a successful `poolInit`: (a) with `exitThrs > 0` it
decrements `exitThrs` and `aliveThrs` by one and stops, heap and queue
untouched; (b) otherwise, with shutdown set, it decrements `aliveThrs` by one
and stops, `exitThrs`, heap and queue untouched; (c) otherwise, with a queue
whose size is not 0, the queue is a well-formed list with a head node, the
worker unlinks exactly that node, keeps it in `task`, leaves every counter
alone, and its next step makes it busy with that task; (d) otherwise it waits
again and the state is unchanged. -/
theorem worker_wake_order (pn : Bool) (maxThrs minThrs maxTasks : Int) (env : InitEnv)
    (s0 s : Sys) (evs : List Event) (k : Nat) (w : Worker)
    (hinit : poolInit pn maxThrs minThrs maxTasks env = (some s0, 0)) (hs : exec s0 evs = s)
    (hw : s.workers.get? k = some w) (hpc : w.pc = .waiting) :
    (s.pool.exitThrs > 0 →
      workerThread s k =
        { s with
          pool := { s.pool with
            exitThrs := s.pool.exitThrs - 1, aliveThrs := s.pool.aliveThrs - 1 }
          workers := s.workers.set k { w with pc := .stopped } }) ∧
    (¬ s.pool.exitThrs > 0 → s.pool.shutdown = true →
      workerThread s k =
        { s with
          pool := { s.pool with aliveThrs := s.pool.aliveThrs - 1 }
          workers := s.workers.set k { w with pc := .stopped } }) ∧
    (¬ s.pool.exitThrs > 0 → s.pool.shutdown = false → queueSize s.pool.taskQueue ≠ 0 →
      ∃ q as a rest n q1, s.pool.taskQueue = some q ∧ queue_wf s.heap q as ∧
        as = a :: rest ∧ s.heap a = some n ∧
        queueTasks s.heap (some q) = (n.func, n.arg) :: queueTasks s.heap (some q1) ∧
        queue_wf s.heap q1 rest ∧
        workerThread s k =
          { s with
            pool := { s.pool with taskQueue := some q1 }
            workers := s.workers.set k { pc := .dequeued, task := some a } } ∧
        workerThread (workerThread s k) k =
          { s with
            pool := { s.pool with taskQueue := some q1, busyThrs := s.pool.busyThrs + 1 }
            workers := s.workers.set k { pc := .executing, task := some a } }) ∧
    (¬ s.pool.exitThrs > 0 → s.pool.shutdown = false → queueSize s.pool.taskQueue = 0 →
      workerThread s k = s) := by
  have hqinv : ∃ q as, QueueInv s q as := hs ▸ queueInv_exec evs s0 _ _ (queueInv_init hinit)
  refine ⟨?_, ?_, ?_, ?_⟩
  · intro he
    simp only [workerThread, hw, hpc, workerWake, if_pos he, setWorker]
  · intro he hs
    have hc : ¬ (queueSize s.pool.taskQueue = 0 ∧ s.pool.shutdown = false) := by simp [hs]
    simp only [workerThread, hw, hpc, workerWake, workerTest, if_neg he, if_neg hc, if_pos hs,
      setWorker]
  · intro he hs hne0
    obtain ⟨q, as, hq, hwf, _⟩ := hqinv
    have hne : queueSize (some q) ≠ 0 := hq ▸ hne0
    have hs' : ¬ s.pool.shutdown = true := by simp [hs]
    have hc : ¬ (queueSize (some q) = 0 ∧ s.pool.shutdown = false) := fun h => hne h.1
    cases as with
    | nil =>
      exfalso
      apply hne
      simp only [queueSize]
      exact hwf.2.2.2
    | cons a rest =>
      obtain ⟨q1, n, hd, hn, hwf1, _, _, _⟩ := dequeue_wf hwf w.task
      have hstep : workerThread s k =
          { s with
            pool := { s.pool with taskQueue := some q1 }
            workers := s.workers.set k { pc := .dequeued, task := some a } } := by
        simp only [workerThread, hw, hpc, workerWake, workerTest, if_neg he, hq, if_neg hc,
          if_neg hs', setWorker, hd]
      refine ⟨q, a :: rest, a, rest, n, q1, hq, hwf, rfl, hn, ?_, hwf1, hstep, ?_⟩
      · rw [queueTasks_wf hwf, queueTasks_wf hwf1]
        simp [tasksAt, hn]
      · rw [hstep]
        have hlt : k < s.workers.length := by
          rcases Nat.lt_or_ge k s.workers.length with h | h
          · exact h
          · rw [List.get?_eq_none.2 h] at hw; simp at hw
        have hget : (s.workers.set k { pc := .dequeued, task := some a }).get? k
            = some { pc := .dequeued, task := some a } := by
          simp [List.getElem?_set, hlt]
        simp only [workerThread, hget, setWorker, List.set_set]
  · intro he hs h0
    have hc : queueSize s.pool.taskQueue = 0 ∧ s.pool.shutdown = false := ⟨h0, hs⟩
    have hww : ({ w with pc := WorkerPc.waiting } : Worker) = w := by
      cases w
      simp only at hpc
      simp [hpc]
    simp only [workerThread, hw, hpc, workerWake, workerTest, if_neg he, if_pos hc, setWorker, hww,
      set_get?_self s.workers k w hw]

/-- The only worker of a fresh pool waits on the empty queue; a wake there
changes nothing. -/
theorem worker_wake_order_witness :
    poolInit true 2 1 5 InitEnv.ok = (some demoStart, 0) ∧
    (exec demoStart [.worker 0]).workers.get? 0 = some { pc := .waiting, task := none } ∧
    (¬ (exec demoStart [.worker 0]).pool.exitThrs > 0 →
      (exec demoStart [.worker 0]).pool.shutdown = false →
      queueSize (exec demoStart [.worker 0]).pool.taskQueue = 0 →
      workerThread (exec demoStart [.worker 0]) 0 = exec demoStart [.worker 0]) :=
  ⟨rfl, rfl, (worker_wake_order true 2 1 5 InitEnv.ok demoStart (exec demoStart [.worker 0])
    [.worker 0] 0 { pc := .waiting, task := none } rfl rfl rfl rfl).2.2.2⟩

/-- C7, as the code has it. Scale-down assigns the pending exit count: when
the sample of a tick satisfies `2 * busy < alive`, `queueSize == 0` and
`alive > minThrs`, `exitThrs` after the tick is `min(5, alive - minThrs)`,
whatever it was before; otherwise the pool is unchanged.  Heap and threads are
untouched either way. -/
theorem scale_down_assigns (s : Sys) (ok : Nat → Bool) (q b a : Int)
    (hpc : s.admin = .afterUp q b a) :
    (2 * b < a ∧ q = 0 ∧ a > s.pool.minThrs →
      (adminThread s ok).pool = { s.pool with exitThrs := min 5 (a - s.pool.minThrs) }) ∧
    (¬ (2 * b < a ∧ q = 0 ∧ a > s.pool.minThrs) → (adminThread s ok).pool = s.pool) ∧
    (adminThread s ok).workers = s.workers ∧ (adminThread s ok).heap = s.heap ∧
    (adminThread s ok).admin = .loopTop := by
  refine ⟨?_, ?_, ?_, ?_, ?_⟩
  · intro hc
    have hc' : scaleDownCond s.pool q b a := ⟨by omega, hc.2.1, hc.2.2⟩
    simp only [adminThread, hpc, adminScaleDown, if_pos hc']
    by_cases h5 : a - s.pool.minThrs > 5
    · have hpos : (5 : Int) > 0 := by omega
      simp only [if_pos h5, if_pos hpos]
      rw [min_eq_left (by omega)]
    · have hpos : a - s.pool.minThrs > 0 := by omega
      simp only [if_neg h5, if_pos hpos]
      rw [min_eq_right (by omega)]
  · intro hc
    have hc' : ¬ scaleDownCond s.pool q b a := fun h => hc ⟨by have := h.1; omega, h.2.1, h.2.2⟩
    simp only [adminThread, hpc, adminScaleDown, if_neg hc']
  · simp only [adminThread, hpc]
  · simp only [adminThread, hpc]
  · simp only [adminThread, hpc]

/-- In the state reached by `demoLeftover` the scale-down step sets `exitThrs`
to `min(5, 2 - 1)`. -/
theorem scale_down_assigns_witness :
    (exec demoStart5 demoLeftover).admin = .afterUp 0 0 2 ∧
    ((2 : Int) * 0 < 2 ∧ (0 : Int) = 0 ∧ 2 > (exec demoStart5 demoLeftover).pool.minThrs →
      (adminThread (exec demoStart5 demoLeftover) spawnAll).pool =
        { (exec demoStart5 demoLeftover).pool with
          exitThrs := min 5 (2 - (exec demoStart5 demoLeftover).pool.minThrs) }) :=
  ⟨rfl, (scale_down_assigns (exec demoStart5 demoLeftover) spawnAll 0 0 2 rfl).1⟩

/-- C7, as stated, fails: in the state reached by `demoLeftover` from
`poolInit(&pool, 5, 1, 10)` one exit credit is left over, the sample
`(0, 0, 2)` satisfies the scale-down condition with `reduce = 1`, and after
the tick `exitThrs` is 1, not `1 + 1`. -/
theorem scale_down_not_additive :
    poolInit true 5 1 10 InitEnv.ok = (some demoStart5, 0) ∧
    (exec demoStart5 demoLeftover).admin = .afterUp 0 0 2 ∧
    ((2 : Int) * 0 < 2 ∧ (0 : Int) = 0 ∧ 2 > (exec demoStart5 demoLeftover).pool.minThrs) ∧
    (exec demoStart5 demoLeftover).pool.exitThrs = 1 ∧
    min 5 (2 - (exec demoStart5 demoLeftover).pool.minThrs) = 1 ∧
    (step (exec demoStart5 demoLeftover) (.admin spawnAll)).pool.exitThrs = 1 ∧
    (step (exec demoStart5 demoLeftover) (.admin spawnAll)).pool.exitThrs ≠
      (exec demoStart5 demoLeftover).pool.exitThrs
        + min 5 (2 - (exec demoStart5 demoLeftover).pool.minThrs) :=
  ⟨rfl, by decide, by decide, by decide, by decide, by decide, by decide⟩

/-- C8. Scale-up policy. In a state `s` reached from a successful `poolInit`
in which the admin thread holds the sample `(q, b, a)`, its scale-up step
changes neither pool nor threads unless `b == a`, `q > 0` and `a < maxThrs`;
in every case it appends some number `n` of new workers, `aliveThrs` grows by
exactly `n`, `n <= min(5, maxThrs - aliveThrs)`, exactly `n` more slots are
non-empty, and every slot that changed was empty, had a successful
`pthread_create`, and now holds a handle.  The loop ends by its own
condition, not by the iteration bound of the model. -/
theorem scale_up_policy (pn : Bool) (maxThrs minThrs maxTasks : Int) (env : InitEnv)
    (s0 s : Sys) (evs : List Event) (ok : Nat → Bool) (q b a : Int)
    (hinit : poolInit pn maxThrs minThrs maxTasks env = (some s0, 0))
    (hs : exec s0 evs = s) (hpc : s.admin = .sampled q b a) :
    (¬ (b = a ∧ q > 0 ∧ a < s.pool.maxThrs) →
      (adminThread s ok).pool = s.pool ∧ (adminThread s ok).workers = s.workers) ∧
    (∃ n : Nat,
      (adminThread s ok).workers = s.workers ++ List.replicate n { pc := .atLock, task := none } ∧
      (adminThread s ok).pool.aliveThrs = s.pool.aliveThrs + n ∧
      (n : Int) ≤ min 5 (s.pool.maxThrs - s.pool.aliveThrs) ∧
      (adminThread s ok).pool.workingThrs.countP (fun t => t != 0)
        = s.pool.workingThrs.countP (fun t => t != 0) + n ∧
      (adminThread s ok).pool.workingThrs.length = s.pool.workingThrs.length ∧
      (∀ j, (adminThread s ok).pool.workingThrs.getD j 0 ≠ s.pool.workingThrs.getD j 0 →
        s.pool.workingThrs.getD j 0 = 0 ∧ ok j = true ∧
        (adminThread s ok).pool.workingThrs.getD j 0 ≠ 0)) ∧
    (adminThread s ok).admin = .afterUp q b a ∧
    (∀ k, scaleUpLoop ok (s.pool.maxThrs.toNat + k) 0 0 s
      = scaleUpLoop ok s.pool.maxThrs.toNat 0 0 s) := by
  obtain ⟨_, _, hc0⟩ := poolInit_ok hinit
  have hinv : CountInv s := hs ▸ countInv_exec evs s0 hc0
  have hstep : adminThread s ok = { adminScaleUp s ok q b a with admin := .afterUp q b a } := by
    simp only [adminThread, hpc]
  refine ⟨?_, ?_, ?_, ?_⟩
  · intro hn
    have hn' : ¬ scaleUpCond s.pool q b a := hn
    rw [hstep]
    simp only [adminScaleUp, if_neg hn']
    exact ⟨trivial, trivial⟩
  · rw [hstep]
    simp only [adminScaleUp]
    split_ifs with hc
    · obtain ⟨n, hw, ha, hadd, hmax, hcnt, hl, hch⟩ :=
        scaleUpLoop_spec ok s.pool.maxThrs.toNat 0 0 s hinv.slots_len
      refine ⟨n, hw, ha, ?_, hcnt, hl, fun j hj => (hch j hj).2⟩
      have h5 := hadd (by omega)
      have hm := hmax hinv.alive_le
      rw [ha] at hm
      exact le_min (by omega) (by omega)
    · refine ⟨0, by simp, by simp, ?_, by simp, rfl, fun j hj => absurd rfl hj⟩
      have := hinv.alive_le
      exact le_min (by simp) (by simp; omega)
  · rw [hstep]
  · intro k
    exact scaleUpLoop_fuel ok k s.pool.maxThrs.toNat 0 0 s (by omega)

/-- On the sample `(1, 1, 1)` of a pool with `maxThrs = 2` the scale-up step
spawns one worker into slot 1. -/
theorem scale_up_policy_witness :
    poolInit true 2 1 5 InitEnv.ok = (some demoStart, 0) ∧
    (exec demoStart demoSampled).admin = .sampled 1 1 1 ∧
    (adminThread (exec demoStart demoSampled) spawnAll).pool.aliveThrs = 2 ∧
    (adminThread (exec demoStart demoSampled) spawnAll).pool.workingThrs = [2, 3] ∧
    (adminThread (exec demoStart demoSampled) spawnAll).admin = .afterUp 1 1 1 :=
  ⟨rfl, rfl, rfl, rfl,
    (scale_up_policy true 2 1 5 InitEnv.ok demoStart (exec demoStart demoSampled) demoSampled
      spawnAll 1 1 1 rfl rfl rfl).2.2.1⟩

/-- C9, as the code has it. Both conditions are tested on the same sample of a
tick, scale-up first; no sample satisfies both, whatever the bounds of the
pool, so a tick fires at most one of the two policies; there are samples on
which only scale-up fires, only scale-down fires, and neither fires. -/
theorem scale_conditions_exclusive :
    (∀ (p : pool_t) (q b a : Int), ¬ (scaleUpCond p q b a ∧ scaleDownCond p q b a)) ∧
    (∀ (s : Sys) (ok : Nat → Bool) (q b a : Int), s.admin = .sampled q b a →
      adminThread (adminThread s ok) ok =
        { adminScaleUp s ok q b a with
          pool := adminScaleDown (adminScaleUp s ok q b a).pool q b a
          admin := .loopTop }) ∧
    (scaleUpCond demoStart.pool 1 1 1 ∧ ¬ scaleDownCond demoStart.pool 1 1 1) ∧
    (¬ scaleUpCond demoStart.pool 0 0 2 ∧ scaleDownCond demoStart.pool 0 0 2) ∧
    (¬ scaleUpCond demoStart.pool 0 1 1 ∧ ¬ scaleDownCond demoStart.pool 0 1 1) := by
  refine ⟨?_, ?_, by decide, by decide, by decide⟩
  · intro p q b a h
    have h1 := h.1.2.1
    have h2 := h.2.2.1
    omega
  · intro s ok q b a hpc
    have h1 : adminThread s ok = { adminScaleUp s ok q b a with admin := .afterUp q b a } := by
      simp only [adminThread, hpc]
    rw [h1]
    simp only [adminThread]

/-- C9, as stated, fails: there are no pool bounds and no sample for which the
scale-up and the scale-down condition both hold. -/
theorem scale_both_never :
    ¬ ∃ (p : pool_t) (q b a : Int), scaleUpCond p q b a ∧ scaleDownCond p q b a := by
  rintro ⟨p, q, b, a, hu, hd⟩
  have h1 := hu.2.1
  have h2 := hd.2.1
  omega

/-- C10 fails on the code: after `poolInit(&pool, 2, 1, 5)` and the run
`demoRetire` the second worker has retired through an exit credit, yet its
handle is still in its slot: two slots are non-empty while `aliveThrs` is 1.
In the continuation `demoStuck` a tick whose sample `(1, 1, 1)` satisfies the
scale-up condition finds no empty slot and adds no worker. -/
theorem slot_not_released :
    poolInit true 2 1 5 InitEnv.ok = (some demoStart, 0) ∧
    (exec demoStart demoRetire).workers.map Worker.live = [true, false] ∧
    (exec demoStart demoRetire).pool.aliveThrs = 1 ∧
    (exec demoStart demoRetire).pool.workingThrs = [2, 3] ∧
    (exec demoStart demoRetire).pool.workingThrs.countP (fun t => t != 0) = 2 ∧
    (exec demoStart demoStuck).admin = .afterUp 1 1 1 ∧
    scaleUpCond (exec demoStart demoStuck).pool 1 1 1 ∧
    (exec demoStart demoStuck).pool.aliveThrs = 1 ∧
    (exec demoStart demoStuck).workers.length = 2 :=
  ⟨rfl, by decide, by decide, by decide, by decide, by decide, by decide, by decide, by decide⟩

/-- C11, as the code has it. In every state reached from a successful
`poolInit`, `0 <= exitThrs`; and `exitThrs <= aliveThrs` in every state that is
reached, before shutdown is requested, by a run in which no other thread
takes a step between the sample of a tick and the end of that tick. -/
theorem exit_credit_bound (pn : Bool) (maxThrs minThrs maxTasks : Int) (env : InitEnv)
    (s0 : Sys) (evs : List Event)
    (hinit : poolInit pn maxThrs minThrs maxTasks env = (some s0, 0)) :
    0 ≤ (exec s0 evs).pool.exitThrs ∧
    (atomicTicks s0 evs = true → (exec s0 evs).pool.shutdown = false →
      (exec s0 evs).pool.exitThrs ≤ (exec s0 evs).pool.aliveThrs) := by
  obtain ⟨hv, hf, hc⟩ := poolInit_ok hinit
  refine ⟨exit_nonneg_exec evs s0 (by rw [hf.exit_zero]), ?_⟩
  intro hat hrun
  have h0 : CreditInv 0 s0 := by
    refine ⟨by rw [hf.exit_zero], ?_, by rw [hf.minThrs_eq]; omega, ?_⟩
    · rw [hf.exit_zero, hf.alive_eq]
      simp
    · unfold sampleCurrent
      rw [hf.admin_eq]
      trivial
  obtain ⟨_, h2, _, _⟩ := creditInv_exec 0 evs s0 h0 hat hrun
  omega

/-- After the run `demoCredits`, with atomic ticks and no shutdown, one exit
credit is pending and two workers are alive. -/
theorem exit_credit_bound_witness :
    poolInit true 5 1 10 InitEnv.ok = (some demoStart5, 0) ∧
    atomicTicks demoStart5 demoCredits = true ∧
    (exec demoStart5 demoCredits).pool.shutdown = false ∧
    (exec demoStart5 demoCredits).pool.exitThrs = 1 ∧
    (exec demoStart5 demoCredits).pool.exitThrs ≤ (exec demoStart5 demoCredits).pool.aliveThrs :=
  ⟨rfl, rfl, rfl, rfl,
    (exit_credit_bound true 5 1 10 InitEnv.ok demoStart5 demoCredits rfl).2 rfl rfl⟩

/-- C11, as stated, fails: after `poolInit(&pool, 5, 1, 10)` and the run
`demoShutdown`, in which the last two workers stop on the shutdown flag while
one exit credit is pending, `exitThrs` is 1 and `aliveThrs` is 0. -/
theorem exit_credit_exceeds_alive :
    poolInit true 5 1 10 InitEnv.ok = (some demoStart5, 0) ∧
    atomicTicks demoStart5 demoShutdown = true ∧
    (exec demoStart5 demoShutdown).pool.shutdown = true ∧
    (exec demoStart5 demoShutdown).pool.exitThrs = 1 ∧
    (exec demoStart5 demoShutdown).pool.aliveThrs = 0 ∧
    ¬ ((exec demoStart5 demoShutdown).pool.exitThrs
        ≤ (exec demoStart5 demoShutdown).pool.aliveThrs) :=
  ⟨rfl, rfl, by decide, by decide, by decide, by decide⟩

/-- C12. No dispatch after shutdown. Let `s` be a state reached from a
successful `poolInit` in which the shutdown flag is set.  Its queue is a
well-formed list of nodes `as`, and in every state reached from `s` the flag is
still set, the queue object, its nodes and the tasks they hold are the same, no
worker has one of these nodes in hand and no worker step changes the queue;
`queueDestroy` then frees exactly these nodes, running none.  A worker that
has dequeued a task becomes busy with it at its next step, a busy worker
finishes and frees its task at its next step, and only a worker that is about
to test the wait loop or waits can stop. -/
theorem no_dispatch_after_shutdown (pn : Bool) (maxThrs minThrs maxTasks : Int)
    (env : InitEnv) (s0 s : Sys) (evs : List Event)
    (hinit : poolInit pn maxThrs minThrs maxTasks env = (some s0, 0))
    (hs : exec s0 evs = s) (hsd : s.pool.shutdown = true) :
    ∃ q as, s.pool.taskQueue = some q ∧ queue_wf s.heap q as ∧
      (∀ evs2,
        (exec s evs2).pool.shutdown = true ∧
        (exec s evs2).pool.taskQueue = some q ∧
        queue_wf (exec s evs2).heap q as ∧
        queueTasks (exec s evs2).heap (some q) = queueTasks s.heap (some q) ∧
        (∀ a ∈ as, a ∉ heldTasks (exec s evs2).workers) ∧
        (∀ k, (workerThread (exec s evs2) k).pool.taskQueue = some q) ∧
        (∀ fuel, as.length ≤ fuel → ∀ x,
          queueDestroy (exec s evs2).heap (some q) fuel x
            = if x ∈ as then none else (exec s evs2).heap x)) ∧
      (∀ k w, s.workers.get? k = some w →
        (w.pc = .dequeued →
          workerThread s k =
            { s with
              pool := { s.pool with busyThrs := s.pool.busyThrs + 1 }
              workers := s.workers.set k { w with pc := .executing } }) ∧
        (w.pc = .executing → ∃ t, w.task = some t ∧ s.heap t ≠ none ∧
          workerThread s k =
            { s with
              heap := s.heap.free t
              pool := { s.pool with busyThrs := s.pool.busyThrs - 1 }
              workers := s.workers.set k { w with pc := .atLock } }) ∧
        (∀ w1, (workerThread s k).workers.get? k = some w1 → w1.pc = .stopped →
          w.pc = .stopped ∨ w.pc = .atLock ∨ w.pc = .waiting)) := by
  obtain ⟨q, as, hinv⟩ : ∃ q as, QueueInv s q as :=
    hs ▸ queueInv_exec evs s0 _ _ (queueInv_init hinit)
  refine ⟨q, as, hinv.1, hinv.2.1, ?_, ?_⟩
  · intro evs2
    obtain ⟨h2, hheap, hsd2⟩ := queueInv_exec_shutdown evs2 hinv hsd
    refine ⟨hsd2, h2.1, h2.2.1, ?_, ?_, ?_, ?_⟩
    · rw [queueTasks_wf h2.2.1, queueTasks_wf hinv.2.1]
      exact tasksAt_congr hheap
    · intro a ha hheld
      have := List.nodup_append.1 h2.2.2.1
      exact this.2.2 ha hheld
    · intro k
      rw [worker_queue_shutdown _ k hsd2]
      exact h2.1
    · intro fuel hf x
      exact freeChain_spec as _ _ fuel h2.2.1.1 h2.2.1.2.1 hf x
  · intro k w hw
    have hmem : w ∈ s.workers := List.get?_mem hw
    have hlt : k < s.workers.length := by
      rcases Nat.lt_or_ge k s.workers.length with h | h
      · exact h
      · rw [List.get?_eq_none.2 h] at hw; simp at hw
    refine ⟨?_, ?_, ?_⟩
    · intro hpc
      simp only [workerThread, hw, hpc, setWorker]
    · intro hpc
      obtain ⟨t, ht⟩ := Option.ne_none_iff_exists'.1 (hinv.2.2.2.2 w hmem (Or.inr hpc))
      have hheld : t ∈ heldTasks s.workers := by
        unfold heldTasks
        rw [List.mem_filterMap]
        exact ⟨w, hmem, by simp [Worker.held, hpc, ht]⟩
      refine ⟨t, ht, hinv.2.2.2.1 t hheld, ?_⟩
      simp only [workerThread, hw, hpc, ht, setWorker]
    · intro w1 hw1 hst
      cases hpc : w.pc with
      | atLock => exact Or.inr (Or.inl rfl)
      | waiting => exact Or.inr (Or.inr rfl)
      | stopped => exact Or.inl rfl
      | dequeued =>
        exfalso
        simp only [workerThread, hw, hpc, setWorker] at hw1
        rw [List.get?_eq_getElem?, List.getElem?_set] at hw1
        simp [hlt] at hw1
        rw [← hw1] at hst
        simp at hst
      | executing =>
        exfalso
        simp only [workerThread, hw, hpc, setWorker] at hw1
        rw [List.get?_eq_getElem?, List.getElem?_set] at hw1
        simp [hlt] at hw1
        rw [← hw1] at hst
        simp at hst

/-- After the run `demoHalt` the flag is set, the second task is still queued
and the worker holds the first; three steps later the worker has run its task
and stopped, and the second task is still queued. -/
theorem no_dispatch_after_shutdown_witness :
    poolInit true 2 1 5 InitEnv.ok = (some demoStart, 0) ∧
    (exec demoStart demoHalt).pool.shutdown = true ∧
    queueTasks (exec demoStart demoHalt).heap (exec demoStart demoHalt).pool.taskQueue
      = [(7, 2)] ∧
    (exec demoStart demoHalt).workers = [{ pc := .dequeued, task := some 100 }] ∧
    (exec (exec demoStart demoHalt) demoHaltRest).workers
      = [{ pc := .stopped, task := some 100 }] ∧
    queueTasks (exec (exec demoStart demoHalt) demoHaltRest).heap
      (exec (exec demoStart demoHalt) demoHaltRest).pool.taskQueue = [(7, 2)] ∧
    ∃ q as, (exec demoStart demoHalt).pool.taskQueue = some q ∧
      queue_wf (exec demoStart demoHalt).heap q as :=
  ⟨rfl, rfl, by decide, by decide, by decide, by decide,
    match no_dispatch_after_shutdown true 2 1 5 InitEnv.ok demoStart (exec demoStart demoHalt)
      demoHalt rfl rfl rfl with
    | ⟨q, as, h1, h2, _⟩ => ⟨q, as, h1, h2⟩⟩

/-- C13. Init/shutdown round trip: after a successful `poolInit` with valid
bounds and every spawn succeeding, in every state of a run without any
`addTask` there are `minThrs` workers, none of them has a task in hand (each is
about to test the wait loop, waits, or has stopped), `busyThrs` is 0 and the
queue is empty; once `poolDestroy` has been called the shutdown flag is set
and every worker that has not stopped stops at its next step, decrementing
`aliveThrs` by one; and once all workers have stopped, `aliveThrs == 0` and
`busyThrs == 0`. -/
theorem init_shutdown_round_trip (pn : Bool) (maxThrs minThrs maxTasks : Int) (env : InitEnv)
    (s0 s : Sys) (evs : List Event)
    (hinit : poolInit pn maxThrs minThrs maxTasks env = (some s0, 0))
    (hok : ∀ i, env.spawnOk i = true) (hns : ∀ ev ∈ evs, ev.bySubmit = false)
    (hs : exec s0 evs = s) :
    (0 < maxThrs ∧ 0 < minThrs ∧ minThrs ≤ maxThrs ∧ 0 < maxTasks) ∧
    (s.workers.length : Int) = minThrs ∧
    (∀ w ∈ s.workers, w.idle) ∧
    s.pool.busyThrs = 0 ∧
    queueTasks s.heap s.pool.taskQueue = [] ∧
    (Event.poolDestroy ∈ evs → s.pool.shutdown = true) ∧
    (s.pool.shutdown = true → ∀ k w, s.workers.get? k = some w → w.pc ≠ .stopped →
      workerThread s k =
        { s with
          pool := { s.pool with aliveThrs := s.pool.aliveThrs - 1 }
          workers := s.workers.set k { w with pc := .stopped } }) ∧
    ((∀ w ∈ s.workers, w.pc = .stopped) → s.pool.aliveThrs = 0 ∧ s.pool.busyThrs = 0) := by
  obtain ⟨hv, _, hc0⟩ := poolInit_ok hinit
  obtain ⟨_, hlen0⟩ := poolInit_all_spawned hinit hok
  have hidle : IdleInv s0.workers.length s := hs ▸ idleInv_exec evs s0 hns (idleInv_init hinit)
  have hcount : CountInv s := hs ▸ countInv_exec evs s0 hc0
  have hbusy : s.workers.countP Worker.busy = 0 := by
    rw [List.countP_eq_zero]
    intro w hw
    rcases hidle.all_idle w hw with e | e | e <;> simp [Worker.busy, e]
  have hb0 : s.pool.busyThrs = 0 := by rw [hcount.busy_eq, hbusy]; rfl
  refine ⟨hv, ?_, hidle.all_idle, hb0, ?_, ?_, ?_, ?_⟩
  · rw [hidle.n_workers]; exact hlen0
  · rw [hidle.queue_empty]; rfl
  · intro hd
    rw [← hs]
    exact shutdown_of_destroy s0 evs hd
  · intro hsd k w hw hpc
    have hmem : w ∈ s.workers := List.get?_mem hw
    have hne : ¬ s.pool.exitThrs > 0 := by rw [hidle.no_credit]; simp
    have hc : ¬ (queueSize s.pool.taskQueue = 0 ∧ s.pool.shutdown = false) := by simp [hsd]
    rcases hidle.all_idle w hmem with e | e | e
    · simp only [workerThread, hw, e, workerTest, if_neg hc, if_pos hsd, setWorker]
    · simp only [workerThread, hw, e, workerWake, workerTest, if_neg hne, if_neg hc, if_pos hsd,
        setWorker]
    · exact absurd e hpc
  · intro hall
    have hlive : s.workers.countP Worker.live = 0 := by
      rw [List.countP_eq_zero]
      intro w hw
      simp [Worker.live, hall w hw]
    exact ⟨by rw [hcount.alive_eq, hlive]; rfl, hb0⟩

/-- From `poolInit(&pool, 2, 1, 5)`, `poolDestroy` and one step of the only
worker end with that worker stopped and both counters at 0. -/
theorem init_shutdown_round_trip_witness :
    poolInit true 2 1 5 InitEnv.ok = (some demoStart, 0) ∧
    (exec demoStart demoRoundTrip).workers = [{ pc := .stopped, task := none }] ∧
    (exec demoStart demoRoundTrip).pool.shutdown = true ∧
    ((∀ w ∈ (exec demoStart demoRoundTrip).workers, w.pc = .stopped) →
      (exec demoStart demoRoundTrip).pool.aliveThrs = 0 ∧
      (exec demoStart demoRoundTrip).pool.busyThrs = 0) :=
  ⟨rfl, rfl, rfl,
    (init_shutdown_round_trip true 2 1 5 InitEnv.ok demoStart (exec demoStart demoRoundTrip)
      demoRoundTrip rfl (fun _ => rfl) (by decide) rfl).2.2.2.2.2.2.2⟩

/-- C17 fails on the code: after `poolInit(&pool, 5, 1, 10)` with every spawn
succeeding and the run `demoBelowFloor`, in which a worker consumes a left-over
exit credit between the sample `(0, 0, 2)` of a tick and the grant made from
that sample, the pool is not shutting down, `minThrs` is 1 and `aliveThrs` is
0, with one task waiting in the queue. -/
theorem floor_broken :
    poolInit true 5 1 10 InitEnv.ok = (some demoStart5, 0) ∧
    (exec demoStart5 demoLeftover).admin = .afterUp 0 0 2 ∧
    (exec demoStart5 demoLeftover).pool.aliveThrs = 2 ∧
    (exec demoStart5 demoLeftover).pool.exitThrs = 1 ∧
    atomicTicks demoStart5 demoBelowFloor = false ∧
    (exec demoStart5 demoBelowFloor).pool.shutdown = false ∧
    (exec demoStart5 demoBelowFloor).pool.minThrs = 1 ∧
    (exec demoStart5 demoBelowFloor).pool.aliveThrs = 0 ∧
    queueSize (exec demoStart5 demoBelowFloor).pool.taskQueue = 1 ∧
    ¬ ((exec demoStart5 demoBelowFloor).pool.minThrs
        ≤ (exec demoStart5 demoBelowFloor).pool.aliveThrs) :=
  ⟨rfl, by decide, by decide, by decide, rfl, by decide, by decide, by decide, by decide,
    by decide⟩

/-- C18. The counters count threads: in every state reached from a successful
`poolInit`, `aliveThrs` is the number of workers created so far that have not
stopped, and `busyThrs` is the number of workers between the increment and
the decrement of `busyThrs`; hence a step changes `aliveThrs` by the number
of workers it creates minus the number it stops. -/
theorem counters_count_threads (pn : Bool) (maxThrs minThrs maxTasks : Int) (env : InitEnv)
    (s0 : Sys) (evs : List Event) (ev : Event)
    (hinit : poolInit pn maxThrs minThrs maxTasks env = (some s0, 0)) :
    (exec s0 evs).pool.aliveThrs = ((exec s0 evs).workers.countP Worker.live : Nat) ∧
    (exec s0 evs).pool.busyThrs = ((exec s0 evs).workers.countP Worker.busy : Nat) ∧
    (step (exec s0 evs) ev).pool.aliveThrs - (exec s0 evs).pool.aliveThrs
      = ((step (exec s0 evs) ev).workers.countP Worker.live : Nat)
        - ((exec s0 evs).workers.countP Worker.live : Nat) ∧
    (step (exec s0 evs) ev).pool.busyThrs - (exec s0 evs).pool.busyThrs
      = ((step (exec s0 evs) ev).workers.countP Worker.busy : Nat)
        - ((exec s0 evs).workers.countP Worker.busy : Nat) := by
  obtain ⟨_, _, hc0⟩ := poolInit_ok hinit
  have h1 := countInv_exec evs s0 hc0
  have h2 := countInv_step (exec s0 evs) ev h1
  exact ⟨h1.alive_eq, h1.busy_eq, by rw [h2.alive_eq, h1.alive_eq],
    by rw [h2.busy_eq, h1.busy_eq]⟩

/-- After the run `demoRetire` two workers have been created, one has stopped,
none is busy, and the counters say so. -/
theorem counters_count_threads_witness :
    poolInit true 2 1 5 InitEnv.ok = (some demoStart, 0) ∧
    (exec demoStart demoRetire).workers.length = 2 ∧
    (exec demoStart demoRetire).workers.countP Worker.live = 1 ∧
    (exec demoStart demoRetire).pool.aliveThrs
      = ((exec demoStart demoRetire).workers.countP Worker.live : Nat) ∧
    (exec demoStart demoRetire).pool.busyThrs
      = ((exec demoStart demoRetire).workers.countP Worker.busy : Nat) :=
  ⟨rfl, rfl, rfl,
    (counters_count_threads true 2 1 5 InitEnv.ok demoStart demoRetire (.worker 0) rfl).1,
    (counters_count_threads true 2 1 5 InitEnv.ok demoStart demoRetire (.worker 0) rfl).2.1⟩

/-- C19. Representation invariant of the queue: after `queueInit` and any
sequence of `enqueue` and `dequeue` calls the queue object exists and its nodes
form a list `as` of distinct allocated nodes linked from `front`; `size` is
their number (a walk from `front` meets exactly that many nodes before `NULL`)
and is not negative; `front` is `NULL` iff `rear` is `NULL` iff `size == 0`;
`rear`, when not `NULL`, is the last of these nodes and its `next` is `NULL`;
and `dequeue` on such a queue with `size == 0` returns -1 and changes neither
the queue nor the out-variable. -/
theorem queue_representation (h0 : Heap) (ops : List QOp)
    (hok : (QRun.init h0).allocOk ops) :
    ∃ q as, ((QRun.init h0).run ops).q = some q ∧
      chain ((QRun.init h0).run ops).heap q.front as ∧ as.Nodup ∧
      q.size = as.length ∧ 0 ≤ q.size ∧
      (∀ k, as.length ≤ k → (walk ((QRun.init h0).run ops).heap k q.front).length = as.length) ∧
      (q.front = none ↔ q.rear = none) ∧ (q.rear = none ↔ q.size = 0) ∧
      (∀ r0, q.rear = some r0 → as.getLast? = some r0 ∧
        ∃ n, ((QRun.init h0).run ops).heap r0 = some n ∧ n.next = none) ∧
      (q.size = 0 → ∀ v, dequeue ((QRun.init h0).run ops).heap (some q) (some v)
        = (some q, some v, -1)) := by
  obtain ⟨hq0, hwf0⟩ := queue_wf_init h0
  obtain ⟨q, as, hq, hwf, _⟩ := run_fifo ops (QRun.init h0) _ [] hq0 hwf0 hok
  obtain ⟨hc, hnd, hr, hsz⟩ := hwf
  have hfront : q.front = none ↔ as = [] := by
    cases as with
    | nil => exact ⟨fun _ => rfl, fun _ => hc⟩
    | cons a rest => exact ⟨fun h => by rw [hc.1] at h; simp at h, fun h => by simp at h⟩
  have hrear : q.rear = none ↔ as = [] := by
    rw [hr]
    exact List.getLast?_eq_none_iff
  have hsize : q.size = 0 ↔ as = [] := by
    rw [hsz]
    constructor
    · intro h
      exact List.length_eq_zero.1 (by omega)
    · intro h
      rw [h]; rfl
  refine ⟨q, as, hq, hc, hnd, hsz, by rw [hsz]; exact Int.natCast_nonneg _, ?_, ?_, ?_, ?_, ?_⟩
  · intro k hk
    rw [walk_chain k hc hk, tasksAt_length hc]
  · rw [hfront, hrear]
  · rw [hrear, hsize]
  · intro r0 hr0
    have hl : as.getLast? = some r0 := by rw [← hr, hr0]
    exact ⟨hl, chain_last hc hl⟩
  · intro h0s v
    have hnil := hsize.1 h0s
    subst hnil
    exact dequeue_empty ⟨hc, hnd, hr, hsz⟩ v

/-- After the run `fifoOps` the queue is empty again: `front` and `rear` are
`NULL` and `size` is 0. -/
theorem queue_representation_witness :
    (QRun.init Heap.empty).allocOk fifoOps ∧
    ((QRun.init Heap.empty).run fifoOps).q = some { front := none, rear := none, size := 0 } ∧
    ((QRun.init Heap.empty).run (fifoOps.take 2)).q
      = some { front := some 100, rear := some 101, size := 2 } ∧
    ∃ q as, ((QRun.init Heap.empty).run fifoOps).q = some q ∧
      chain ((QRun.init Heap.empty).run fifoOps).heap q.front as ∧ q.size = as.length :=
  ⟨fifoOps_allocOk, by decide, by decide,
    match queue_representation Heap.empty fifoOps fifoOps_allocOk with
    | ⟨q, as, h1, h2, _, h4, _⟩ => ⟨q, as, h1, h2, h4⟩⟩

/-! ## The sequential list -/

theorem offset_lt {k i s j : Int} (hk : k < i) (hj : j < s) (hs : 0 ≤ s) :
    k * s + j < i * s := by
  have h1 : (k + 1) * s ≤ i * s := mul_le_mul_of_nonneg_right (by omega) hs
  have h2 : (k + 1) * s = k * s + s := by ring
  omega

theorem offset_ge {k i s j : Int} (hk : i ≤ k) (hj : 0 ≤ j) (hs : 0 ≤ s) :
    i * s ≤ k * s + j := by
  have h1 : i * s ≤ k * s := mul_le_mul_of_nonneg_right hk hs
  omega

/-- Two elements are equal when their bytes are. -/
theorem elemAt_congr {d d1 : Int → Nat} {size i i1 : Int}
    (h : ∀ j : Int, 0 ≤ j → j < size → d1 (i1 * size + j) = d (i * size + j)) :
    elemAt d1 size i1 = elemAt d size i := by
  unfold elemAt
  apply List.map_congr_left
  intro j hj
  have hlt : j < size.toNat := List.mem_range.1 hj
  exact h (j : Int) (by omega) (by omega)

theorem elemsFrom_congr {d d1 : Int → Nat} {size : Int} : ∀ (cnt : Nat) (s s1 : Int),
    (∀ k : Nat, k < cnt → elemAt d1 size (s1 + k) = elemAt d size (s + k)) →
    elemsFrom d1 size s1 cnt = elemsFrom d size s cnt
  | 0, _, _, _ => rfl
  | cnt + 1, s, s1, h => by
    have h0 := h 0 (by omega)
    simp only [Nat.cast_zero, add_zero] at h0
    have ih := elemsFrom_congr cnt (s + 1) (s1 + 1) (fun k hk => by
      have := h (k + 1) (by omega)
      push_cast at this
      rw [add_assoc, add_comm (1 : Int), add_assoc s, add_comm (1 : Int)]
      exact this)
    simp only [elemsFrom, h0, ih]

theorem elemsFrom_append (d : Int → Nat) (size : Int) : ∀ (a b : Nat) (s : Int),
    elemsFrom d size s (a + b) = elemsFrom d size s a ++ elemsFrom d size (s + a) b
  | 0, b, s => by simp [elemsFrom]
  | a + 1, b, s => by
    have ih := elemsFrom_append d size a b (s + 1)
    have e : a + 1 + b = (a + b) + 1 := by omega
    rw [e]
    simp only [elemsFrom, ih, List.cons_append]
    push_cast
    rw [add_assoc s 1 a, add_comm (1 : Int) a]

theorem elemsFrom_length (d : Int → Nat) (size : Int) : ∀ (cnt : Nat) (s : Int),
    (elemsFrom d size s cnt).length = cnt
  | 0, _ => rfl
  | cnt + 1, s => by simp [elemsFrom, elemsFrom_length d size cnt (s + 1)]

/-- The loop finds the lowest matching index, given a bound of at least the
number of indices left. -/
theorem firstMatch_spec {K : Type} (l : seqlist) (key : K) (cmp : List Nat → K → Int) :
    ∀ (fuel : Nat) (i : Int), l.length - i ≤ fuel →
    FirstMatchAt l key cmp i (firstMatch l key cmp fuel i)
  | 0, i, hf => by
    simp only [firstMatch, FirstMatchAt]
    intro k hk1 hk2
    exfalso
    have : l.length - i ≤ 0 := by simpa using hf
    omega
  | fuel + 1, i, hf => by
    simp only [firstMatch]
    by_cases hlt : i < l.length
    · rw [if_pos hlt]
      by_cases hm : cmp (elemAt l.data l.size i) key = 0
      · rw [if_pos hm]
        exact ⟨le_refl _, hlt, hm, fun k h1 h2 => by omega⟩
      · rw [if_neg hm]
        have ih := firstMatch_spec l key cmp fuel (i + 1) (by push_cast at hf; omega)
        cases hr : firstMatch l key cmp fuel (i + 1) with
        | none =>
          rw [hr] at ih
          intro k hk1 hk2
          by_cases hki : k = i
          · rw [hki]; exact hm
          · exact ih k (by omega) hk2
        | some m =>
          rw [hr] at ih
          obtain ⟨h1, h2, h3, h4⟩ := ih
          refine ⟨by omega, h2, h3, ?_⟩
          intro k hk1 hk2
          by_cases hki : k = i
          · rw [hki]; exact hm
          · exact h4 k (by omega) hk2
    · rw [if_neg hlt]
      intro k hk1 hk2
      omega

/-- The loop over the whole list. -/
theorem firstMatch_all {K : Type} (l : seqlist) (key : K) (cmp : List Nat → K → Int) :
    FirstMatchAt l key cmp 0 (firstMatch l key cmp l.length.toNat 0) :=
  firstMatch_spec l key cmp l.length.toNat 0 (by
    have := Int.self_le_toNat l.length
    omega)

/-- The result of the loop is determined by the lowest matching index. -/
theorem firstMatch_unique {K : Type} {l : seqlist} {key : K} {cmp : List Nat → K → Int}
    {r : Option Int} (h : FirstMatchAt l key cmp 0 r) (i : Int) (hi0 : 0 ≤ i)
    (hin : i < l.length) (hm : cmp (elemAt l.data l.size i) key = 0)
    (hleast : ∀ k, 0 ≤ k → k < i → cmp (elemAt l.data l.size k) key ≠ 0) : r = some i := by
  cases r with
  | none => exact absurd hm (h i hi0 hin)
  | some m =>
    obtain ⟨h1, h2, h3, h4⟩ := h
    have e : m = i := by
      rcases lt_trichotomy m i with hlt | heq | hgt
      · exact absurd h3 (hleast m h1 hlt)
      · exact heq
      · exact absurd hm (h4 i hi0 hgt)
    rw [e]

/-- The loop reads the first `length` elements only. -/
theorem firstMatch_congr {K : Type} (l l1 : seqlist) (key : K) (cmp : List Nat → K → Int)
    (hlen : l1.length = l.length)
    (hel : ∀ k, 0 ≤ k → k < l.length → elemAt l1.data l1.size k = elemAt l.data l.size k) :
    ∀ (fuel : Nat) (i : Int), 0 ≤ i →
    firstMatch l1 key cmp fuel i = firstMatch l key cmp fuel i
  | 0, _, _ => rfl
  | fuel + 1, i, hi => by
    simp only [firstMatch, hlen]
    by_cases hlt : i < l.length
    · rw [if_pos hlt, if_pos hlt, hel i hi hlt,
        firstMatch_congr l l1 key cmp hlen hel fuel (i + 1) (by omega)]
    · rw [if_neg hlt, if_neg hlt]

/-- Where each byte of the buffer comes from after the `memmove` of
`seqlist_delete` at index `i`. -/
theorem delete_bytes (d : Int → Nat) (s n i : Int) (hs : 0 < s) :
    (∀ k j, 0 ≤ k → k < i → 0 ≤ j → j < s →
      (if i < n - 1 then memmove d (i * s) ((i + 1) * s) ((n - i - 1) * s) else d) (k * s + j)
        = d (k * s + j)) ∧
    (∀ k j, i ≤ k → k < n - 1 → 0 ≤ j → j < s →
      (if i < n - 1 then memmove d (i * s) ((i + 1) * s) ((n - i - 1) * s) else d) (k * s + j)
        = d ((k + 1) * s + j)) := by
  have e1 : (i + 1) * s = i * s + s := by ring
  have e2 : (n - i - 1) * s = n * s - i * s - s := by ring
  refine ⟨?_, ?_⟩
  · intro k j hk0 hki hj0 hjs
    have h1 := offset_lt hki hjs (by omega : 0 ≤ s)
    by_cases hlt : i < n - 1
    · have hm : ¬ (i * s ≤ k * s + j ∧ k * s + j < i * s + (n - i - 1) * s) := by omega
      simp only [if_pos hlt, memmove, if_neg hm]
    · simp only [if_neg hlt]
  · intro k j hik hkn hj0 hjs
    have hlt : i < n - 1 := by omega
    have h1 := offset_ge hik hj0 (by omega : 0 ≤ s)
    have h2 := offset_lt hkn hjs (by omega : 0 ≤ s)
    have e3 : (n - 1) * s = n * s - s := by ring
    have e4 : (k + 1) * s = k * s + s := by ring
    have hm : i * s ≤ k * s + j ∧ k * s + j < i * s + (n - i - 1) * s := by omega
    simp only [if_pos hlt, memmove, if_pos hm]
    congr 1
    omega

/-- The elements after the `memmove` of `seqlist_delete` at index `i`: the old
ones without the one at index `i`. -/
theorem delete_elems (d : Int → Nat) (s n i : Int) (hs : 0 < s) (hi0 : 0 ≤ i) (hin : i < n) :
    elemsFrom (if i < n - 1 then memmove d (i * s) ((i + 1) * s) ((n - i - 1) * s) else d)
        s 0 (n - 1).toNat
      = (elemsFrom d s 0 n.toNat).take i.toNat ++ (elemsFrom d s 0 n.toNat).drop (i.toNat + 1) := by
  obtain ⟨hlow, hhigh⟩ := delete_bytes d s n i hs
  generalize (if i < n - 1 then memmove d (i * s) ((i + 1) * s) ((n - i - 1) * s) else d)
    = d1 at hlow hhigh
  obtain ⟨iN, rfl⟩ : ∃ iN : Nat, i = iN := ⟨i.toNat, (Int.toNat_of_nonneg hi0).symm⟩
  obtain ⟨m, rfl⟩ : ∃ m : Nat, n = ((iN + 1 + m : Nat) : Int) :=
    ⟨(n - iN - 1).toNat, by push_cast; rw [Int.toNat_of_nonneg (by omega)]; omega⟩
  have e1 : (((iN + 1 + m : Nat) : Int) - 1).toNat = iN + m := by omega
  have e2 : (((iN + 1 + m : Nat) : Int)).toNat = (iN + 1) + m := by omega
  have e3 : ((iN : Nat) : Int).toNat = iN := by omega
  rw [e1, e2, e3, elemsFrom_append d1 s iN m 0]
  have hA : (elemsFrom d s 0 iN).length = iN := elemsFrom_length d s iN 0
  have hA1 : (elemsFrom d s 0 (iN + 1)).length = iN + 1 := elemsFrom_length d s (iN + 1) 0
  have hsplit : elemsFrom d s 0 (iN + 1 + m)
      = elemsFrom d s 0 (iN + 1) ++ elemsFrom d s (0 + ((iN + 1 : Nat) : Int)) m :=
    elemsFrom_append d s (iN + 1) m 0
  have hsplit2 : elemsFrom d s 0 (iN + 1 + m)
      = elemsFrom d s 0 iN ++ elemsFrom d s (0 + ((iN : Nat) : Int)) (1 + m) := by
    have := elemsFrom_append d s iN (1 + m) 0
    rw [← this]
    congr 1
    omega
  have ht : (elemsFrom d s 0 (iN + 1 + m)).take iN = elemsFrom d s 0 iN := by
    rw [hsplit2, List.take_left' hA]
  have hd : (elemsFrom d s 0 (iN + 1 + m)).drop (iN + 1)
      = elemsFrom d s (0 + ((iN + 1 : Nat) : Int)) m := by
    rw [hsplit, List.drop_left' hA1]
  rw [ht, hd]
  congr 1
  · apply elemsFrom_congr
    intro k hk
    apply elemAt_congr
    intro j hj0 hjs
    simp only [zero_add]
    exact hlow k j (by omega) (by omega) hj0 hjs
  · apply elemsFrom_congr
    intro k hk
    apply elemAt_congr
    intro j hj0 hjs
    have := hhigh (iN + k) j (by omega) (by push_cast; omega) hj0 hjs
    simp only [zero_add]
    rw [this]
    congr 2
    push_cast
    ring

/-- C15. The function `seqlist_delete` removes only the first match: on a list
with positive element size, if `i` is the lowest index below `length` whose
element compares equal to the key, it returns 0 and the elements become the old
ones without the one at index `i`, in their order, the length one less, size
and capacity unchanged; if no element matches it returns -1 and the list is
unchanged, as it is for a null list, key or callback. -/
theorem seqlist_delete_spec {K : Type} (l : seqlist) (key : K) (cmp : List Nat → K → Int)
    (hs : 0 < l.size) :
    (∀ i, 0 ≤ i → i < l.length → cmp (elemAt l.data l.size i) key = 0 →
      (∀ k, 0 ≤ k → k < i → cmp (elemAt l.data l.size k) key ≠ 0) →
      ∃ l1, seqlist_delete (some l) (some key) (some cmp) = (some l1, 0) ∧
        l1.length = l.length - 1 ∧ l1.size = l.size ∧ l1.capacity = l.capacity ∧
        l1.elems = l.elems.take i.toNat ++ l.elems.drop (i.toNat + 1)) ∧
    ((∀ k, 0 ≤ k → k < l.length → cmp (elemAt l.data l.size k) key ≠ 0) →
      seqlist_delete (some l) (some key) (some cmp) = (some l, -1)) ∧
    ((seqlist_delete (some l) (some key) (some cmp)).2 = 0 →
      ∃ k, 0 ≤ k ∧ k < l.length ∧ cmp (elemAt l.data l.size k) key = 0) ∧
    (seqlist_delete none (some key) (some cmp) = (none, -1) ∧
      seqlist_delete (some l) (none : Option K) (some cmp) = (some l, -1) ∧
      seqlist_delete (some l) (some key) none = (some l, -1)) := by
  have hall := firstMatch_all l key cmp
  refine ⟨?_, ?_, ?_, ⟨rfl, rfl, rfl⟩⟩
  · intro i hi0 hin hm hleast
    have e := firstMatch_unique hall i hi0 hin hm hleast
    refine ⟨_, (by simp only [seqlist_delete, e]; rfl), ?_, ?_, ?_, ?_⟩
    · rfl
    · rfl
    · rfl
    · exact delete_elems l.data l.size l.length i hs hi0 hin
  · intro hno
    cases hres : firstMatch l key cmp l.length.toNat 0 with
    | none => simp only [seqlist_delete, hres]
    | some m =>
      rw [hres] at hall
      exact absurd hall.2.2.1 (hno m hall.1 hall.2.1)
  · intro h0
    cases hres : firstMatch l key cmp l.length.toNat 0 with
    | none =>
      simp only [seqlist_delete, hres] at h0
      exact absurd h0 (by decide)
    | some m =>
      rw [hres] at hall
      exact ⟨m, hall.1, hall.2.1, hall.2.2.1⟩

/-- Deleting the key 10 from the list `[10, 30]` leaves `[30]`. -/
theorem seqlist_delete_spec_witness :
    0 < seqDemo.size ∧
    (∃ l1, seqlist_delete (some seqDemo) (some 10) (some cmpByte) = (some l1, 0) ∧
      l1.length = seqDemo.length - 1 ∧ l1.size = seqDemo.size ∧
      l1.capacity = seqDemo.capacity ∧
      l1.elems = seqDemo.elems.take (0 : Int).toNat
        ++ seqDemo.elems.drop ((0 : Int).toNat + 1)) ∧
    seqDemo.elems.take (0 : Int).toNat ++ seqDemo.elems.drop ((0 : Int).toNat + 1) = [[30]] :=
  ⟨by decide,
    (seqlist_delete_spec seqDemo 10 cmpByte (by decide)).1 0 (by decide) (by decide)
      (by decide) (fun k h0 h1 => by omega),
    by decide⟩

/-- C16. The function `seqlist_search`, for every list, key and callback: it
returns the offset `i * size` of element `i` exactly when `i` is the lowest
index below `length` whose element compares equal to the key; it returns
`NULL` iff no element among the first `length` matches, and also when the list,
the key or the callback is null; its result is the same on any list with the
same `size` and `length` whose buffer agrees on the first `length` elements, so
it depends on no storage at or beyond index `length`.  As a function from the
list to a pointer it changes nothing. -/
theorem seqlist_search_spec {K : Type} (l : seqlist) (key : K) (cmp : List Nat → K → Int) :
    (∀ i, 0 ≤ i → i < l.length → cmp (elemAt l.data l.size i) key = 0 →
      (∀ k, 0 ≤ k → k < i → cmp (elemAt l.data l.size k) key ≠ 0) →
      seqlist_search (some l) (some key) (some cmp) = some (i * l.size)) ∧
    (∀ r, seqlist_search (some l) (some key) (some cmp) = some r →
      ∃ i, r = i * l.size ∧ 0 ≤ i ∧ i < l.length ∧ cmp (elemAt l.data l.size i) key = 0 ∧
        ∀ k, 0 ≤ k → k < i → cmp (elemAt l.data l.size k) key ≠ 0) ∧
    (seqlist_search (some l) (some key) (some cmp) = none ↔
      ∀ k, 0 ≤ k → k < l.length → cmp (elemAt l.data l.size k) key ≠ 0) ∧
    (seqlist_search none (some key) (some cmp) = none ∧
      seqlist_search (some l) (none : Option K) (some cmp) = none ∧
      seqlist_search (some l) (some key) none = none) ∧
    (∀ l1 : seqlist, l1.size = l.size → l1.length = l.length →
      (∀ p, 0 ≤ p → p < l.length * l.size → l1.data p = l.data p) →
      seqlist_search (some l1) (some key) (some cmp)
        = seqlist_search (some l) (some key) (some cmp)) := by
  have hall := firstMatch_all l key cmp
  refine ⟨?_, ?_, ?_, ⟨rfl, rfl, rfl⟩, ?_⟩
  · intro i hi0 hin hm hleast
    have e := firstMatch_unique hall i hi0 hin hm hleast
    simp only [seqlist_search, e]
  · intro r hr
    simp only [seqlist_search] at hr
    cases hres : firstMatch l key cmp l.length.toNat 0 with
    | none => rw [hres] at hr; simp at hr
    | some m =>
      rw [hres] at hr hall
      obtain ⟨h1, h2, h3, h4⟩ := hall
      exact ⟨m, (Option.some.inj hr).symm, h1, h2, h3, h4⟩
  · simp only [seqlist_search]
    cases hres : firstMatch l key cmp l.length.toNat 0 with
    | none =>
      rw [hres] at hall
      exact ⟨fun _ => hall, fun _ => rfl⟩
    | some m =>
      rw [hres] at hall
      obtain ⟨h1, h2, h3, _⟩ := hall
      exact ⟨fun h => by simp at h, fun h => absurd h3 (h m h1 h2)⟩
  · intro l1 hsz hlen hdata
    have hel : ∀ k, 0 ≤ k → k < l.length →
        elemAt l1.data l1.size k = elemAt l.data l.size k := by
      intro k hk0 hkn
      rw [hsz]
      apply elemAt_congr
      intro j hj0 hjs
      have h1 := offset_lt hkn hjs (by omega : 0 ≤ l.size)
      have h2 := offset_ge hk0 hj0 (by omega : 0 ≤ l.size)
      exact hdata _ (by omega) h1
    simp only [seqlist_search, hlen, hsz,
      firstMatch_congr l l1 key cmp hlen hel l.length.toNat 0 (le_refl _)]

/-- In the list `[10, 30]` the key 30 is found at offset 1 and the key 99 is
not found. -/
theorem seqlist_search_spec_witness :
    seqlist_search (some seqDemo) (some 30) (some cmpByte) = some (1 * seqDemo.size) ∧
    seqlist_search (some seqDemo) (some 99) (some cmpByte) = none :=
  ⟨(seqlist_search_spec seqDemo 30 cmpByte).1 1 (by decide) (by decide) (by decide)
      (fun k h0 h1 => by
        have hk : k = 0 := by omega
        subst hk
        decide),
    by decide⟩

end DAY1
